import Mathlib

/-!
Verification of the RVSDG core (`src/rvsdg.rs`): arena-backed graph of
operation nodes with value/state ports, per-origin intrusive doubly-linked
user lists, construction-time hash-consing (interning) of pure nodes, and a
double-ended `users` iterator, plus the DOT pretty-printer.

Modelling conventions:
* arenas (`Vec<NodeData>`, `Vec<RegionData>`) are Lean `List`s indexed by
  position; `NodeId`/`RegionId` are the dense `Nat` indices;
* interior mutability (`Cell`) becomes explicit state passing on `NodeCtxt`;
* every `panic!`/`assert!`/`unwrap`/`unimplemented!` path is a `none` result;
* the interning `HashMap` is modelled as an association list with structural
  key lookup (the raw-entry precomputed-hash insertion of the source is a
  performance detail with the same map semantics);
* the operation vocabulary `S` is kept generic, mirroring the generic `S` of
  the source; the test vocabulary `TestData` of the source's test module is
  reproduced for concrete runs.
-/

set_option maxHeartbeats 1600000

namespace Rvsdg

/-- `NodeId(usize)`: an index for a NodeData in a NodeCtxt. -/
abbrev NodeId := Nat

/-- `RegionId(usize)`: an index for a RegionData in a NodeCtxt. -/
abbrev RegionId := Nat

/-- An index for a UserData of an input or result port. -/
inductive UserId where
  | In (node : NodeId) (index : Nat)
  | Res (region : RegionId) (index : Nat)
deriving DecidableEq

/-- An index for an OriginData of an output or argument port. -/
inductive OriginId where
  | Out (node : NodeId) (index : Nat)
  | Arg (region : RegionId) (index : Nat)
deriving DecidableEq

/-- `UserId::node_id`. -/
def UserId.node_id : UserId → Option NodeId
  | .In node _ => some node
  | _ => none

/-- `OriginId::node_id`. -/
def OriginId.node_id : OriginId → Option NodeId
  | .Out node _ => some node
  | _ => none

/-- A linked list of users connected to a common origin: head and tail of the
intrusive doubly-linked user list. -/
structure UserIdList where
  first : UserId
  last : UserId
deriving DecidableEq

/-- A UserData contains information about an input or result port.  The
`Cell`s of the source are plain fields here; `sink` is declared in the source
but never written to (always `None`). -/
structure UserData where
  origin : Option OriginId
  sink : Option OriginId
  prev_user : Option UserId
  next_user : Option UserId
deriving DecidableEq

/-- The all-`None` `UserData::default()`. -/
def UserData.empty : UserData :=
  { origin := none, sink := none, prev_user := none, next_user := none }

/-- An OriginData contains information about an output or argument port.
`source` is declared in the source but never written to (always `None`). -/
structure OriginData where
  source : Option UserId
  users : Option UserIdList
deriving DecidableEq

/-- The all-`None` `OriginData::default()`. -/
def OriginData.empty : OriginData :=
  { source := none, users := none }

/-- `NodeKind<S>`: operation nodes wrapping `S`, plus the structured shells. -/
inductive NodeKind (S : Type) where
  | Op (s : S)
  | Apply (arg_val_ins arg_st_ins region_val_res region_st_res : Nat)
  | Gamma (val_ins val_outs st_ins st_outs : Nat)
  | Omega (imports exports : Nat)
deriving DecidableEq

/-- `InnerRegionList`: declared in the source, populated only by the
unimplemented region machinery. -/
structure InnerRegionList where
  first_region : RegionId
  last_region : RegionId
deriving DecidableEq

/-- `NodeData<S>`. -/
structure NodeData (S : Type) where
  ins : List UserData
  outs : List OriginData
  inner_regions : Option InnerRegionList
  outer_region : RegionId
  kind : NodeKind S
deriving DecidableEq

/-- `RegionData`.  No region is ever created by the implemented API
(`mk_region_for_node` is `unimplemented!`), so the region arena stays empty. -/
structure RegionData where
  sequence_index : Nat
  res : List UserData
  args : List OriginData
  prev_region : Option RegionId
  next_region : Option RegionId
deriving DecidableEq

/-- `SigS`: the signature 4-tuple of a node kind. -/
structure SigS where
  val_ins : Nat := 0
  val_outs : Nat := 0
  st_ins : Nat := 0
  st_outs : Nat := 0
deriving DecidableEq

/-- `SigS::num_input_ports`. -/
def SigS.num_input_ports (s : SigS) : Nat :=
  s.val_ins + s.st_ins

/-- `SigS::num_output_ports`. -/
def SigS.num_output_ports (s : SigS) : Nat :=
  s.val_outs + s.st_outs

/-- `SigS::is_side_effectful`: `st_outs > 0`. -/
def SigS.is_side_effectful (s : SigS) : Bool :=
  decide (0 < s.st_outs)

/-- The `Sig` trait: each operation vocabulary returns its signature. -/
class Sig (S : Type) where
  sig : S → SigS

/-- `impl Sig for NodeKind<S>`. -/
def NodeKind.sig {S : Type} [Sig S] : NodeKind S → SigS
  | .Op s => Sig.sig s
  | .Apply arg_val_ins arg_st_ins region_val_res region_st_res =>
      { val_ins := 1 + arg_val_ins
        st_ins := arg_st_ins
        val_outs := region_val_res
        st_outs := region_st_res }
  | .Gamma val_ins val_outs st_ins st_outs =>
      { val_ins := 1 + val_ins
        val_outs := val_outs
        st_ins := st_ins
        st_outs := st_outs }
  | .Omega _ _ => {}

/-- `NodeTerm<S>`: the structural interning key `(region, kind, origins)`. -/
structure NodeTerm (S : Type) where
  region : RegionId
  kind : NodeKind S
  origins : List OriginId
deriving DecidableEq

/-- `NodeCtxtConfig`: exactly the option `opt_interning`. -/
structure NodeCtxtConfig where
  opt_interning : Bool
deriving DecidableEq

/-- `Default for NodeCtxtConfig`: interning enabled. -/
def NodeCtxtConfig.default : NodeCtxtConfig :=
  { opt_interning := true }

/-- `NodeCtxt<S>`: the graph context owning both arenas and the interning
table. -/
structure NodeCtxt (S : Type) where
  nodes : List (NodeData S)
  regions : List RegionData
  interned_nodes : List (NodeTerm S × NodeId)
  config : NodeCtxtConfig
deriving DecidableEq

/-- `NodeCtxt::with_config`. -/
def NodeCtxt.with_config (S : Type) (config : NodeCtxtConfig) : NodeCtxt S :=
  { nodes := [], regions := [], interned_nodes := [], config := config }

/-- `NodeCtxt::new`: default configuration. -/
def NodeCtxt.new (S : Type) : NodeCtxt S :=
  NodeCtxt.with_config S NodeCtxtConfig.default

variable {S : Type}

/-- `NodeCtxt::num_nodes`. -/
def num_nodes (c : NodeCtxt S) : Nat :=
  c.nodes.length

/-- `NodeCtxt::num_edges`: the sum of input-slot counts. -/
def num_edges (c : NodeCtxt S) : Nat :=
  (c.nodes.map (fun nd => nd.ins.length)).sum

/-- `NodeCtxt::node_data`, bounds-checked (a `none` is the source's panic). -/
def node_data (c : NodeCtxt S) (id : NodeId) : Option (NodeData S) :=
  c.nodes.get? id

/-- `NodeCtxt::region_data`, bounds-checked. -/
def region_data (c : NodeCtxt S) (id : RegionId) : Option RegionData :=
  c.regions.get? id

/-- `NodeCtxt::user_data`: read an input (or result) slot. -/
def user_data (c : NodeCtxt S) : UserId → Option UserData
  | .In node index =>
    match node_data c node with
    | some nd => nd.ins.get? index
    | none => none
  | .Res region index =>
    match region_data c region with
    | some rd => rd.res.get? index
    | none => none

/-- `NodeCtxt::origin_data`: read an output (or argument) slot. -/
def origin_data (c : NodeCtxt S) : OriginId → Option OriginData
  | .Out node index =>
    match node_data c node with
    | some nd => nd.outs.get? index
    | none => none
  | .Arg region index =>
    match region_data c region with
    | some rd => rd.args.get? index
    | none => none

/-- Bounds-checked in-place update of one list element (a `none` is the
source's out-of-bounds panic). -/
def listModify? {α : Type} (l : List α) (i : Nat) (f : α → α) : Option (List α) :=
  match l.get? i with
  | some x => some (l.set i (f x))
  | none => none

/-- A `Cell::set` on the fields of one user slot (the source mutates through
interior mutability; here the context is rebuilt). -/
def set_user (c : NodeCtxt S) (uid : UserId) (f : UserData → UserData) :
    Option (NodeCtxt S) :=
  match uid with
  | .In n i =>
    match c.nodes.get? n with
    | some nd =>
      match listModify? nd.ins i f with
      | some ins1 => some { c with nodes := c.nodes.set n { nd with ins := ins1 } }
      | none => none
    | none => none
  | .Res r i =>
    match c.regions.get? r with
    | some rd =>
      match listModify? rd.res i f with
      | some res1 => some { c with regions := c.regions.set r { rd with res := res1 } }
      | none => none
    | none => none

/-- A `Cell::set` on the `users` field of one origin slot. -/
def set_origin_users (c : NodeCtxt S) (oid : OriginId) (v : Option UserIdList) :
    Option (NodeCtxt S) :=
  match oid with
  | .Out n i =>
    match c.nodes.get? n with
    | some nd =>
      match listModify? nd.outs i (fun od => { od with users := v }) with
      | some outs1 => some { c with nodes := c.nodes.set n { nd with outs := outs1 } }
      | none => none
    | none => none
  | .Arg r i =>
    match c.regions.get? r with
    | some rd =>
      match listModify? rd.args i (fun od => { od with users := v }) with
      | some args1 => some { c with regions := c.regions.set r { rd with args := args1 } }
      | none => none
    | none => none

/-- `NodeCtxt::create_node`: push a node whose ports are all unconnected.
This constructor never touches the interning table. -/
def create_node [Sig S] (c : NodeCtxt S) (node_kind : NodeKind S)
    (outer_region_id : RegionId) : NodeCtxt S × NodeId :=
  let node_id := c.nodes.length
  ({ c with nodes := c.nodes ++
      [{ ins := List.replicate node_kind.sig.num_input_ports UserData.empty
         outs := List.replicate node_kind.sig.num_output_ports OriginData.empty
         inner_regions := none
         outer_region := outer_region_id
         kind := node_kind }] },
   node_id)

/-- `NodeCtxt::connect_ports`: link a fully-unconnected user slot to an
origin, appending it at the tail of the origin's user list.  The three
`assert_eq!(.., None)` checks and every failing lookup are `none`. -/
def connect_ports (c : NodeCtxt S) (user_id : UserId) (origin_id : OriginId) :
    Option (NodeCtxt S) :=
  match user_data c user_id with
  | none => none
  | some ud =>
    if ud.origin = none ∧ ud.prev_user = none ∧ ud.next_user = none then
      match set_user c user_id (fun u => { u with origin := some origin_id }) with
      | none => none
      | some c1 =>
        match origin_data c1 origin_id with
        | none => none
        | some od =>
          match od.users with
          | some ul =>
            match set_user c1 ul.last (fun u => { u with next_user := some user_id }) with
            | none => none
            | some c2 =>
              match set_user c2 user_id (fun u => { u with prev_user := some ul.last }) with
              | none => none
              | some c3 => set_origin_users c3 origin_id (some ⟨ul.first, user_id⟩)
          | none => set_origin_users c1 origin_id (some ⟨user_id, user_id⟩)
    else none

/-- The `UserData` record pushed for one new input slot: connected to
`origin` with an optional predecessor, no successor. -/
def mkSlot (origin : OriginId) (p : Option UserId) : UserData :=
  { origin := some origin, sink := none, prev_user := p, next_user := none }

/-- The input-linking loop of the `create_node` closure inside
`mk_node_with`: for input index `i` with origin `o`, append the in-progress
slot at the tail of `o`'s user list.  When the current tail is an input of
the node under construction the forward link is written into the in-progress
buffer `acc` instead of the arena. -/
def linkInputs (node_id : NodeId) :
    NodeCtxt S → List OriginId → Nat → List UserData →
    Option (NodeCtxt S × List UserData)
  | c, [], _, acc => some (c, acc)
  | c, origin :: rest, i, acc =>
    let new_in_id : UserId := .In node_id i
    match origin_data c origin with
    | none => none
    | some od =>
      match od.users with
      | none =>
        match set_origin_users c origin (some ⟨new_in_id, new_in_id⟩) with
        | none => none
        | some c1 =>
          linkInputs node_id c1 rest (i + 1) (acc ++ [mkSlot origin none])
      | some ul =>
        let step : Option (NodeCtxt S × List UserData) :=
          match ul.last with
          | .In n idx =>
            if n = node_id then
              match listModify? acc idx (fun u => { u with next_user := some new_in_id }) with
              | some acc1 => some (c, acc1)
              | none => none
            else
              match set_user c ul.last (fun u => { u with next_user := some new_in_id }) with
              | some c1 => some (c1, acc)
              | none => none
          | .Res _ _ =>
            match set_user c ul.last (fun u => { u with next_user := some new_in_id }) with
            | some c1 => some (c1, acc)
            | none => none
        match step with
        | none => none
        | some (c1, acc1) =>
          match set_origin_users c1 origin (some ⟨ul.first, new_in_id⟩) with
          | none => none
          | some c2 =>
            linkInputs node_id c2 rest (i + 1) (acc1 ++ [mkSlot origin (some ul.last)])

/-- The `create_node` closure of `mk_node_with`: link all inputs, then push
the new `NodeData` (outputs all empty) and check the two final
`assert_eq!`s on the port counts. -/
def create_node_with [Sig S] (c : NodeCtxt S) (kind : NodeKind S)
    (origins : List OriginId) (region_id : RegionId) :
    Option (NodeCtxt S × NodeId) :=
  let node_id := c.nodes.length
  match linkInputs node_id c origins 0 [] with
  | none => none
  | some (c1, new_node_inputs) =>
    let sig := kind.sig
    let c2 : NodeCtxt S :=
      { c1 with nodes := c1.nodes ++
          [{ ins := new_node_inputs
             outs := List.replicate sig.num_output_ports OriginData.empty
             inner_regions := none
             outer_region := region_id
             kind := kind }] }
    if new_node_inputs.length = sig.num_input_ports then some (c2, node_id) else none

/-- Structural lookup in the interning table (the `HashMap` raw-entry lookup
of the source, with hashing elided). -/
def lookupTerm [DecidableEq S] : List (NodeTerm S × NodeId) → NodeTerm S → Option NodeId
  | [], _ => none
  | (k, v) :: rest, t => if k = t then some v else lookupTerm rest t

/-- `NodeCtxt::mk_node_with`: arity check, interning decision (pure kinds
with `opt_interning` only), then return the interned id or create and
possibly insert. -/
def mk_node_with [Sig S] [DecidableEq S] (c : NodeCtxt S) (kind : NodeKind S)
    (origins : List OriginId) : Option (NodeCtxt S × NodeId) :=
  if kind.sig.num_input_ports = origins.length then
    let region_id : RegionId := 0
    let node_term : NodeTerm S := ⟨region_id, kind, origins⟩
    if c.config.opt_interning && !kind.sig.is_side_effectful then
      match lookupTerm c.interned_nodes node_term with
      | some node_id => some (c, node_id)
      | none =>
        match create_node_with c kind origins region_id with
        | some (c1, node_id) =>
          some ({ c1 with interned_nodes := (node_term, node_id) :: c1.interned_nodes },
                node_id)
        | none => none
    else
      create_node_with c kind origins region_id
  else
    none

/-- `NodeCtxt::mk_node`: convenience constructor for zero-input operation
nodes. -/
def mk_node [Sig S] [DecidableEq S] (c : NodeCtxt S) (op : S) :
    Option (NodeCtxt S × NodeId) :=
  mk_node_with c (.Op op) []

/-- `NodeBuilder<S>`: pins a kind and accumulates value and state origins. -/
structure NodeBuilder (S : Type) where
  node_kind : NodeKind S
  val_origins : List OriginId
  st_origins : List OriginId
deriving DecidableEq

/-- `NodeCtxt::node_builder`. -/
def node_builder (op : S) : NodeBuilder S :=
  { node_kind := .Op op, val_origins := [], st_origins := [] }

/-- `NodeBuilder::operand`: append one value origin (fatal past `val_ins`). -/
def NodeBuilder.operand [Sig S] (b : NodeBuilder S) (v : OriginId) :
    Option (NodeBuilder S) :=
  if b.val_origins.length < b.node_kind.sig.val_ins then
    some { b with val_origins := b.val_origins ++ [v] }
  else none

/-- `NodeBuilder::operands`: set all value origins at once. -/
def NodeBuilder.operands [Sig S] (b : NodeBuilder S) (vs : List OriginId) :
    Option (NodeBuilder S) :=
  if b.val_origins = [] ∧ b.node_kind.sig.val_ins = vs.length then
    some { b with val_origins := b.val_origins ++ vs }
  else none

/-- `NodeBuilder::state`: append one state origin (fatal past `st_ins`). -/
def NodeBuilder.state [Sig S] (b : NodeBuilder S) (v : OriginId) :
    Option (NodeBuilder S) :=
  if b.st_origins.length < b.node_kind.sig.st_ins then
    some { b with st_origins := b.st_origins ++ [v] }
  else none

/-- `NodeBuilder::states`: set all state origins at once. -/
def NodeBuilder.states [Sig S] (b : NodeBuilder S) (vs : List OriginId) :
    Option (NodeBuilder S) :=
  if b.st_origins = [] ∧ b.node_kind.sig.st_ins = vs.length then
    some { b with st_origins := b.st_origins ++ vs }
  else none

/-- `NodeBuilder::finish`: both buffers must be full; value origins are
concatenated before state origins and submitted to `mk_node_with`. -/
def NodeBuilder.finish [Sig S] [DecidableEq S] (c : NodeCtxt S) (b : NodeBuilder S) :
    Option (NodeCtxt S × NodeId) :=
  if b.val_origins.length = b.node_kind.sig.val_ins ∧
     b.st_origins.length = b.node_kind.sig.st_ins then
    let origins := b.val_origins ++ b.st_origins
    if origins.length = b.node_kind.sig.val_ins + b.node_kind.sig.st_ins then
      mk_node_with c b.node_kind origins
    else none
  else none

/-- The `users` cell of an origin, as read through `origin_data`. -/
def userListOf (c : NodeCtxt S) (oid : OriginId) : Option UserIdList :=
  match origin_data c oid with
  | some od => od.users
  | none => none

/-- The `Users` double-ended iterator state: `first_and_last` as in the
source (handles reduced to ids; the context is passed to `next`). -/
structure Users where
  first_and_last : Option (UserId × UserId)
deriving DecidableEq

/-- `Origin::users`: construct the iterator from the origin's `(head, tail)`
pair; the two `user_ref` bounds checks of the source are the two lookups. -/
def users (c : NodeCtxt S) (origin_id : OriginId) : Option Users :=
  match origin_data c origin_id with
  | none => none
  | some od =>
    match od.users with
    | none => some ⟨none⟩
    | some ul =>
      match user_data c ul.first, user_data c ul.last with
      | some _, some _ => some ⟨some (ul.first, ul.last)⟩
      | _, _ => none

/-- `Iterator::next` for `Users`: if `first == last` yield it and terminate;
otherwise yield `first` and advance it along `next_user`.  The outer `Option`
is a panicking lookup; the inner one is the yielded element. -/
def Users.next (c : NodeCtxt S) (it : Users) : Option (Option UserId × Users) :=
  match it.first_and_last with
  | none => some (none, ⟨none⟩)
  | some (first, last) =>
    if first = last then some (some first, ⟨none⟩)
    else
      match user_data c first with
      | none => none
      | some ud =>
        match ud.next_user with
        | some next_u =>
          match user_data c next_u with
          | none => none
          | some _ => some (some first, ⟨some (next_u, last)⟩)
        | none => some (some first, ⟨none⟩)

/-- `DoubleEndedIterator::next_back` for `Users`: yield `last` and retreat it
along `prev_user`. -/
def Users.next_back (c : NodeCtxt S) (it : Users) : Option (Option UserId × Users) :=
  match it.first_and_last with
  | none => some (none, ⟨none⟩)
  | some (first, last) =>
    if first = last then some (some last, ⟨none⟩)
    else
      match user_data c last with
      | none => none
      | some ud =>
        match ud.prev_user with
        | some prev_u =>
          match user_data c prev_u with
          | none => none
          | some _ => some (some last, ⟨some (first, prev_u)⟩)
        | none => some (some last, ⟨none⟩)

/-- Drive the `Users` iterator by a direction word: `true` is `next`,
`false` is `next_back`.  Returns the yielded elements and the final state. -/
def runIter (c : NodeCtxt S) : Users → List Bool → Option (List UserId × Users)
  | it, [] => some ([], it)
  | it, d :: ds =>
    match (if d then Users.next c it else Users.next_back c it) with
    | none => none
    | some (y, it1) =>
      match runIter c it1 ds with
      | none => none
      | some (ys, itf) => some (y.toList ++ ys, itf)

/-- Reference semantics for driving a double-ended iterator over the list
`ul`: `true` consumes the front, `false` consumes the back. -/
def takeMixed : List UserId → List Bool → List UserId
  | _, [] => []
  | ul, true :: ds =>
    match ul with
    | [] => []
    | u :: rest => u :: takeMixed rest ds
  | ul, false :: ds =>
    match ul.getLast? with
    | none => []
    | some u => u :: takeMixed ul.dropLast ds

/-- The part of `ul` left over after `takeMixed ul ds`. -/
def remMixed : List UserId → List Bool → List UserId
  | ul, [] => ul
  | ul, true :: ds =>
    match ul with
    | [] => []
    | _ :: rest => remMixed rest ds
  | ul, false :: ds =>
    match ul.getLast? with
    | none => []
    | some _ => remMixed ul.dropLast ds

/-- The `origin` field of a user slot (`none` when the slot itself does not
exist). -/
def uOrigin (c : NodeCtxt S) (u : UserId) : Option (Option OriginId) :=
  (user_data c u).map UserData.origin

/-- The `prev_user` field of a user slot. -/
def uPrev (c : NodeCtxt S) (u : UserId) : Option (Option UserId) :=
  (user_data c u).map UserData.prev_user

/-- The `next_user` field of a user slot. -/
def uNext (c : NodeCtxt S) (u : UserId) : Option (Option UserId) :=
  (user_data c u).map UserData.next_user

/-- Sequential `Option`-propagating map (the `?`-style loop of the source's
printer: the first failing element aborts the whole run). -/
def optMap {α β : Type} (f : α → Option β) : List α → Option (List β)
  | [] => some []
  | a :: rest =>
    match f a with
    | none => none
    | some b =>
      match optMap f rest with
      | none => none
      | some bs => some (b :: bs)

/-- The `Debug` rendering contract required of the operation vocabulary by
the printer (`format!("\x7b:?\x7d", operation)` in the source). -/
class DebugFmt (S : Type) where
  fmt : S → String

/-- The label escaping of `print`: prefix `\` to every brace of the
operation's debug text. -/
def escape_braces (s : String) : String :=
  s.data.foldl
    (fun acc ch =>
      if ch = Char.ofNat 123 || ch = Char.ofNat 125 then
        acc ++ String.mk [Char.ofNat 92, ch]
      else acc ++ String.mk [ch])
    ""

/-- The record-field text `<t0>0|<t1>1|...` for `k` ports with tag `t`. -/
def port_fields (tag : String) (k : Nat) : String :=
  String.intercalate "|" ((List.range k).map
    (fun i => "<" ++ tag ++ toString i ++ ">" ++ toString i))

/-- One value-edge line of `print` (blue). -/
def val_edge_line (c : NodeCtxt S) (idx i : Nat) : Option String :=
  match user_data c (.In idx i) with
  | none => none
  | some ud =>
    match ud.origin with
    | none => none
    | some oid =>
      match origin_data c oid with
      | none => none
      | some _ =>
        match oid with
        | .Out origin_node_id index =>
          some ("    n" ++ toString origin_node_id ++ ":o" ++ toString index ++
                " -> n" ++ toString idx ++ ":i" ++ toString i ++ " [color=blue]\n")
        | .Arg _ _ => none

/-- One state-edge line of `print` (dashed red); the user-side port index is
`val_ins + i`. -/
def st_edge_line (c : NodeCtxt S) (idx val_ins i : Nat) : Option String :=
  match user_data c (.In idx (val_ins + i)) with
  | none => none
  | some ud =>
    match ud.origin with
    | none => none
    | some oid =>
      match origin_data c oid with
      | none => none
      | some _ =>
        match oid with
        | .Out origin_node_id index =>
          some ("    n" ++ toString origin_node_id ++ ":o" ++ toString index ++
                " -> n" ++ toString idx ++ ":i" ++ toString (val_ins + i) ++
                " [style=dashed, color=red]\n")
        | .Arg _ _ => none

/-- The per-node body of the `print` loop: the record label line followed by
the value-edge and state-edge lines.  Non-`Op` kinds are `unimplemented!`. -/
def print_node [Sig S] [DebugFmt S] (c : NodeCtxt S) (idx : Nat) : Option String :=
  match node_data c idx with
  | none => none
  | some nd =>
    let sig := nd.kind.sig
    match nd.kind with
    | .Op operation =>
      let dot_ins := port_fields "i" sig.num_input_ports
      let dot_outs := port_fields "o" sig.num_output_ports
      let label_op := escape_braces (DebugFmt.fmt operation)
      let label_value := String.intercalate "\x7d|\x7b"
        (([dot_ins, label_op, dot_outs]).filter (fun s => !s.isEmpty))
      let label := "\x7b\x7b" ++ label_value ++ "\x7d\x7d"
      let node_line := "    n" ++ toString idx ++ " [label=\"" ++ label ++ "\"]\n"
      match optMap (val_edge_line c idx) (List.range sig.val_ins),
            optMap (st_edge_line c idx sig.val_ins) (List.range sig.st_ins) with
      | some vs, some ss => some (node_line ++ String.join vs ++ String.join ss)
      | _, _ => none
    | _ => none

/-- `NodeCtxt::print`: the DOT output, assembled in creation order. -/
def print [Sig S] [DebugFmt S] (c : NodeCtxt S) : Option String :=
  match optMap (print_node c) (List.range c.nodes.length) with
  | none => none
  | some bodies =>
    some ("digraph rvsdg \x7b\n    node [shape=record]\n    edge [arrowhead=none]\n"
          ++ String.join bodies ++ "\x7d\n")

/-- Modelled from the spec (§6 output format rules): the `(node, port)` pair
of the `Out` origin feeding input slot `i` of node `idx`. -/
def input_origin (c : NodeCtxt S) (idx i : Nat) : Option (Nat × Nat) :=
  match user_data c (.In idx i) with
  | none => none
  | some ud =>
    match ud.origin with
    | none => none
    | some oid =>
      match origin_data c oid with
      | none => none
      | some _ =>
        match oid with
        | .Out origin_node_id index => some (origin_node_id, index)
        | .Arg _ _ => none

/-- Modelled from the spec: a value edge `nSRC:oP -> nDST:iQ [color=blue]`
where `Q` is the value-port index. -/
def spec_val_edge (src_node src_port dst_node dst_port : Nat) : String :=
  "    n" ++ toString src_node ++ ":o" ++ toString src_port ++ " -> n" ++
  toString dst_node ++ ":i" ++ toString dst_port ++ " [color=blue]\n"

/-- Modelled from the spec: a state edge with `style=dashed, color=red`. -/
def spec_st_edge (src_node src_port dst_node dst_port : Nat) : String :=
  "    n" ++ toString src_node ++ ":o" ++ toString src_port ++ " -> n" ++
  toString dst_node ++ ":i" ++ toString dst_port ++ " [style=dashed, color=red]\n"

/-- Modelled from the spec: the record label — three fields (input-port
list, escaped operation text, output-port list) joined with `\x7d|\x7b`,
dropping any empty field, wrapped in double braces. -/
def spec_label (op_text : String) (n_ins n_outs : Nat) : String :=
  "\x7b\x7b" ++
  String.intercalate "\x7d|\x7b"
    ((List.filter (fun s => !s.isEmpty)
      [port_fields "i" n_ins, escape_braces op_text, port_fields "o" n_outs])) ++
  "\x7d\x7d"

/-- Modelled from the spec: emit one operation node — its label line, a blue
edge for each value input at value index `i`, and a dashed red edge for each
state input at user-side index `val_ins + j`. -/
def print_spec_node [Sig S] [DebugFmt S] (c : NodeCtxt S) (idx : Nat) : Option String :=
  match node_data c idx with
  | none => none
  | some nd =>
    match nd.kind with
    | .Op op =>
      let sig := nd.kind.sig
      match optMap (fun i => (input_origin c idx i).map
              (fun p => spec_val_edge p.1 p.2 idx i)) (List.range sig.val_ins),
            optMap (fun j => (input_origin c idx (sig.val_ins + j)).map
              (fun p => spec_st_edge p.1 p.2 idx (sig.val_ins + j)))
              (List.range sig.st_ins) with
      | some vs, some ss =>
        some ("    n" ++ toString idx ++ " [label=\"" ++
              spec_label (DebugFmt.fmt op) sig.num_input_ports sig.num_output_ports ++
              "\"]\n" ++ String.join vs ++ String.join ss)
      | _, _ => none
    | _ => none

/-- Modelled from the spec: nodes emitted in creation order `n0, n1, ...`
between the fixed DOT header and the closing brace. -/
def print_spec [Sig S] [DebugFmt S] (c : NodeCtxt S) : Option String :=
  match optMap (print_spec_node c) (List.range c.nodes.length) with
  | none => none
  | some bodies =>
    some ("digraph rvsdg \x7b\n    node [shape=record]\n    edge [arrowhead=none]\n"
          ++ String.join bodies ++ "\x7d\n")

/-- One public mutating operation of the context, restricted to the
successful runs (a panic aborts the program, so it reaches no new state). -/
inductive Step [Sig S] [DecidableEq S] : NodeCtxt S → NodeCtxt S → Prop where
  | mk_node_with (c c' : NodeCtxt S) (kind : NodeKind S) (origins : List OriginId)
      (id : NodeId) (h : mk_node_with c kind origins = some (c', id)) : Step c c'
  | connect_ports (c c' : NodeCtxt S) (u : UserId) (o : OriginId)
      (h : connect_ports c u o = some c') : Step c c'
  | create_node (c : NodeCtxt S) (kind : NodeKind S) (rid : RegionId) :
      Step c (create_node c kind rid).1

/-- Contexts reachable from a freshly configured context by successful
operations. -/
def Reachable [Sig S] [DecidableEq S] (c : NodeCtxt S) : Prop :=
  ∃ cfg, Relation.ReflTransGen Step (NodeCtxt.with_config S cfg) c

/-- The doubly-linked user list rooted at origin `o`, starting after an
optional predecessor `p`: every element is a valid slot whose `origin` is
`o`, whose `prev_user` is the preceding element, and whose `next_user` is
the following element (empty at the end). -/
def isChain (c : NodeCtxt S) (o : OriginId) : Option UserId → List UserId → Prop
  | _, [] => True
  | p, u :: rest =>
    uOrigin c u = some (some o) ∧ uPrev c u = some p ∧
      uNext c u = some rest.head? ∧ isChain c o (some u) rest

/-- The user-list integrity invariant for one origin: either the list is
empty and no slot names `o` as its origin, or the `(head, tail)` pair roots
a duplicate-free chain containing exactly the slots connected to `o`. -/
def originOk (c : NodeCtxt S) (o : OriginId) : Prop :=
  (userListOf c o = none → ∀ u, uOrigin c u ≠ some (some o)) ∧
  (∀ f l, userListOf c o = some ⟨f, l⟩ →
    ∃ ul, isChain c o none ul ∧ ul.head? = some f ∧ ul.getLast? = some l ∧
      ul.Nodup ∧ ∀ u, u ∈ ul ↔ uOrigin c u = some (some o))

/-- The global structural invariant: unconnected slots carry no links, every
connected slot names a live origin, and every origin's user list is intact. -/
structure GraphOk (c : NodeCtxt S) : Prop where
  clean : ∀ u, uOrigin c u = some none →
    uPrev c u = some none ∧ uNext c u = some none
  valid_origin : ∀ u o, uOrigin c u = some (some o) → (origin_data c o).isSome
  chains : ∀ o, originOk c o

/-- The arena extended by the in-progress node: during the input-linking
loop of `mk_node_with` the buffer `acc` plays the role of the input slots of
the node being built (its outputs do not exist yet, so they stay absent). -/
def virt (c : NodeCtxt S) (kind : NodeKind S) (rid : RegionId)
    (acc : List UserData) : NodeCtxt S :=
  { c with nodes := c.nodes ++
      [{ ins := acc, outs := [], inner_regions := none,
         outer_region := rid, kind := kind }] }

/-- A contiguous segment of a user list: consecutive elements are linked by
matching `next_user`/`prev_user` pointers (the end links are unconstrained,
as the iterator shrinks a chain from both ends). -/
def segChain (c : NodeCtxt S) : List UserId → Prop
  | [] => True
  | [u] => (user_data c u).isSome
  | u :: v :: rest =>
    uNext c u = some (some v) ∧ uPrev c v = some (some u) ∧
      (user_data c u).isSome ∧ segChain c (v :: rest)

/-- The iterator state standing for the not-yet-yielded segment `ul`. -/
def iterOf (ul : List UserId) : Users :=
  ⟨match ul.head?, ul.getLast? with
   | some f, some l => some (f, l)
   | _, _ => none⟩

/-- The interning-table invariant: every interned id is a live node and
distinct keys intern distinct ids. -/
structure InternOk [DecidableEq S] (c : NodeCtxt S) : Prop where
  lt : ∀ kv ∈ c.interned_nodes, kv.2 < c.nodes.length
  inj : ∀ t1 t2 v, lookupTerm c.interned_nodes t1 = some v →
    lookupTerm c.interned_nodes t2 = some v → t1 = t2

/-- The arity invariant: every node's slot counts match its signature. -/
def ArityOk [Sig S] (c : NodeCtxt S) : Prop :=
  ∀ nd ∈ c.nodes,
    nd.ins.length = nd.kind.sig.val_ins + nd.kind.sig.st_ins ∧
    nd.outs.length = nd.kind.sig.val_outs + nd.kind.sig.st_outs

/-- The operation vocabulary of the source's test module (the subset the
concrete runs need), with its `Sig` table. -/
inductive TestData where
  | Lit (n : Nat)
  | Neg
  | St
  | BinAdd
deriving DecidableEq

instance : Sig TestData where
  sig
    | .Lit _ => { val_outs := 1 }
    | .Neg => { val_ins := 1, val_outs := 1 }
    | .St => { st_outs := 1 }
    | .BinAdd => { val_ins := 2, val_outs := 1 }

instance : DebugFmt TestData where
  fmt
    | .Lit n => "Lit(" ++ toString n ++ ")"
    | .Neg => "Neg"
    | .St => "St"
    | .BinAdd => "BinAdd"

/-- A fresh default-configured context over the test vocabulary. -/
def wNew : NodeCtxt TestData := NodeCtxt.new TestData

/-- `wNew` after `Lit(2)` (the fallback of `getD` is never taken). -/
def wLit2 : NodeCtxt TestData × NodeId :=
  (mk_node_with wNew (.Op (.Lit 2)) []).getD (wNew, 99)

/-- `wLit2` after `Lit(3)`. -/
def wLit23 : NodeCtxt TestData × NodeId :=
  (mk_node_with wLit2.1 (.Op (.Lit 3)) []).getD (wNew, 99)

/-- `wNew` after one side-effectful `St`. -/
def wSt1 : NodeCtxt TestData × NodeId :=
  (mk_node_with wNew (.Op .St) []).getD (wNew, 99)

/-- `wSt1` after a second, structurally identical `St`. -/
def wSt2 : NodeCtxt TestData × NodeId :=
  (mk_node_with wSt1.1 (.Op .St) []).getD (wNew, 99)

/-- A context configured with interning disabled. -/
def wOff : NodeCtxt TestData := NodeCtxt.with_config TestData ⟨false⟩

/-- Fan-out scenario (interning off): `Lit(0)` then three `Neg` consumers of
its single value output. -/
def wFan1 : NodeCtxt TestData × NodeId :=
  (mk_node_with wOff (.Op (.Lit 0)) []).getD (wOff, 99)

def wFan2 : NodeCtxt TestData × NodeId :=
  (mk_node_with wFan1.1 (.Op .Neg) [.Out 0 0]).getD (wOff, 99)

def wFan3 : NodeCtxt TestData × NodeId :=
  (mk_node_with wFan2.1 (.Op .Neg) [.Out 0 0]).getD (wOff, 99)

def wFan4 : NodeCtxt TestData × NodeId :=
  (mk_node_with wFan3.1 (.Op .Neg) [.Out 0 0]).getD (wOff, 99)

/-- Manual-wiring scenario: `Lit(2)` and an unconnected `BinAdd` created
through `create_node`. -/
def wMan1 : NodeCtxt TestData × NodeId := create_node wNew (.Op (.Lit 2)) 0

def wMan2 : NodeCtxt TestData × NodeId := create_node wMan1.1 (.Op .BinAdd) 0

/-- Interning-then-manual scenario: `Lit(0)` built through `mk_node_with`
(hence interned), then a structurally identical manual node. -/
def wC10a : NodeCtxt TestData × NodeId :=
  (mk_node_with wNew (.Op (.Lit 0)) []).getD (wNew, 99)

def wC10b : NodeCtxt TestData × NodeId := create_node wC10a.1 (.Op (.Lit 0)) 0

/-- Manual-first scenario: a manual `Lit(0)` in an otherwise fresh context. -/
def wC10c : NodeCtxt TestData × NodeId := create_node wNew (.Op (.Lit 0)) 0

/-- The bundled reachability invariant. -/
def Inv [Sig S] [DecidableEq S] (c : NodeCtxt S) : Prop :=
  GraphOk c ∧ InternOk c ∧ ArityOk c

/-- `n` is the id of no entry of the interning table of `c`. -/
def NotInterned [DecidableEq S] (c : NodeCtxt S) (n : NodeId) : Prop :=
  ∀ t v, lookupTerm c.interned_nodes t = some v → v ≠ n

/-- Same-origin fan-in: a `BinAdd` whose two inputs consume the same output
(the in-progress-buffer special case of the linking loop). -/
def wDup : NodeCtxt TestData × NodeId :=
  (mk_node_with wLit2.1 (.Op .BinAdd) [.Out 0 0, .Out 0 0]).getD (wNew, 99)

/-- A structurally duplicate `Lit(0)` in the interning-off context. -/
def wC8 : NodeCtxt TestData × NodeId :=
  (mk_node_with wFan1.1 (.Op (.Lit 0)) []).getD (wOff, 99)

/-- `wMan2` after manually wiring the `BinAdd` input 0 to the `Lit(2)`. -/
def wMan3 : NodeCtxt TestData :=
  (connect_ports wMan2.1 (.In 1 0) (.Out 0 0)).getD wNew

/-- A pure consumer of the first `St` node's value output. -/
def wStDown1 : NodeCtxt TestData × NodeId :=
  (mk_node_with wSt2.1 (.Op .Neg) [.Out 0 0]).getD (wNew, 99)

/-- A pure consumer of the second `St` node's value output. -/
def wStDown2 : NodeCtxt TestData × NodeId :=
  (mk_node_with wStDown1.1 (.Op .Neg) [.Out 1 0]).getD (wNew, 99)

/-- `mk_node_with` on the kind and origins of the manual `Lit(0)`. -/
def wC10d : NodeCtxt TestData × NodeId :=
  (mk_node_with wC10c.1 (.Op (.Lit 0)) []).getD (wNew, 99)

/-- `BinAdd` of `Lit(2)` and `Lit(3)` in that operand order. -/
def wBadd1 : NodeCtxt TestData × NodeId :=
  (mk_node_with wLit23.1 (.Op .BinAdd) [.Out 0 0, .Out 1 0]).getD (wNew, 99)

/-- `BinAdd` of the same operands in the opposite order. -/
def wBadd2 : NodeCtxt TestData × NodeId :=
  (mk_node_with wBadd1.1 (.Op .BinAdd) [.Out 1 0, .Out 0 0]).getD (wNew, 99)

/-- A second construction of `Lit(2)`, two states after the first. -/
def wLit2again : NodeCtxt TestData × NodeId :=
  (mk_node_with wLit23.1 (.Op (.Lit 2)) []).getD (wNew, 99)

/-- A repeat construction of `Lit(2)` immediately after the first. -/
def wHit : NodeCtxt TestData × NodeId :=
  (mk_node_with wLit2.1 (.Op (.Lit 2)) []).getD (wNew, 99)

/-- `wMan3` after also wiring the `BinAdd` input 1 to the `Lit(2)`. -/
def wMan4 : NodeCtxt TestData :=
  (connect_ports wMan3 (.In 1 1) (.Out 0 0)).getD wNew

/-! ### Basic lemmas about the primitive state updates -/

theorem listModify?_some {α : Type} {l : List α} {i : Nat} {f : α → α} {l1 : List α}
    (h : listModify? l i f = some l1) :
    ∃ x, l.get? i = some x ∧ l1.length = l.length ∧
      l1.get? i = some (f x) ∧ ∀ j, j ≠ i → l1.get? j = l.get? j := by
  unfold listModify? at h
  cases hx : l.get? i with
  | none => rw [hx] at h; cases h
  | some x =>
    rw [hx] at h
    cases h
    have hlt : i < l.length := (List.get?_eq_some.1 hx).1
    refine ⟨x, rfl, List.length_set l i (f x), ?_, ?_⟩
    · rw [List.get?_set_eq_of_lt _ hlt]
    · intro j hj
      exact List.get?_set_ne _ _ (fun he => hj he.symm)

theorem set_user_some {c : NodeCtxt S} {uid : UserId} {f : UserData → UserData}
    {c1 : NodeCtxt S} (h : set_user c uid f = some c1) :
    ∃ ud, user_data c uid = some ud ∧
      user_data c1 uid = some (f ud) ∧
      (∀ u, u ≠ uid → user_data c1 u = user_data c u) ∧
      (∀ o, origin_data c1 o = origin_data c o) ∧
      c1.interned_nodes = c.interned_nodes ∧ c1.config = c.config ∧
      c1.nodes.length = c.nodes.length ∧
      (∀ n nd, c.nodes.get? n = some nd → ∃ nd1, c1.nodes.get? n = some nd1 ∧
        nd1.kind = nd.kind ∧ nd1.ins.length = nd.ins.length ∧
        nd1.outs = nd.outs) := by
  cases uid with
  | In n i =>
    simp only [set_user] at h
    cases hn : c.nodes.get? n with
    | none => simp only [hn] at h; cases h
    | some nd =>
      simp only [hn] at h
      cases hm : listModify? nd.ins i f with
      | none => simp only [hm] at h; cases h
      | some ins1 =>
        simp only [hm, Option.some.injEq] at h
        subst h
        obtain ⟨ud, hud, hlen, hget, hother⟩ := listModify?_some hm
        have hnlt : n < c.nodes.length := (List.get?_eq_some.1 hn).1
        have hnode : (c.nodes.set n { nd with ins := ins1 }).get? n =
            some { nd with ins := ins1 } := List.get?_set_eq_of_lt _ hnlt
        refine ⟨ud, ?_, ?_, ?_, ?_, rfl, rfl, List.length_set _ _ _, ?_⟩
        · simp only [user_data, node_data, hn, hud]
        · simp only [user_data, node_data, hnode, hget]
        · intro u hu
          cases u with
          | In n' i' =>
            by_cases hnn : n' = n
            · subst hnn
              have hii : i' ≠ i := by
                intro he; subst he; exact hu rfl
              simp only [user_data, node_data, hnode, hn, hother i' hii]
            · simp only [user_data, node_data, List.get?_set_ne _ _ (fun he => hnn he.symm)]
          | Res r j => simp only [user_data, region_data]
        · intro o
          cases o with
          | Out n' j =>
            by_cases hnn : n' = n
            · subst hnn
              simp only [origin_data, node_data, hnode, hn]
            · simp only [origin_data, node_data, List.get?_set_ne _ _ (fun he => hnn he.symm)]
          | Arg r j => simp only [origin_data, region_data]
        · intro m md hmd
          by_cases hmn : m = n
          · subst hmn
            rw [hn] at hmd
            cases hmd
            exact ⟨{ nd with ins := ins1 }, hnode, rfl, hlen, rfl⟩
          · exact ⟨md, by
              rw [List.get?_set_ne _ _ (fun he => hmn he.symm)]; exact hmd, rfl, rfl, rfl⟩
  | Res r i =>
    simp only [set_user] at h
    cases hr : c.regions.get? r with
    | none => simp only [hr] at h; cases h
    | some rd =>
      simp only [hr] at h
      cases hm : listModify? rd.res i f with
      | none => simp only [hm] at h; cases h
      | some res1 =>
        simp only [hm, Option.some.injEq] at h
        subst h
        obtain ⟨ud, hud, hlen, hget, hother⟩ := listModify?_some hm
        have hrlt : r < c.regions.length := (List.get?_eq_some.1 hr).1
        have hreg : (c.regions.set r { rd with res := res1 }).get? r =
            some { rd with res := res1 } := List.get?_set_eq_of_lt _ hrlt
        refine ⟨ud, ?_, ?_, ?_, ?_, rfl, rfl, rfl, ?_⟩
        · simp only [user_data, region_data, hr, hud]
        · simp only [user_data, region_data, hreg, hget]
        · intro u hu
          cases u with
          | In n' i' => simp only [user_data, node_data]
          | Res r' j =>
            by_cases hrr : r' = r
            · subst hrr
              have hjj : j ≠ i := by
                intro he; subst he; exact hu rfl
              simp only [user_data, region_data, hreg, hr, hother j hjj]
            · simp only [user_data, region_data, List.get?_set_ne _ _ (fun he => hrr he.symm)]
        · intro o
          cases o with
          | Out n' j => simp only [origin_data, node_data]
          | Arg r' j =>
            by_cases hrr : r' = r
            · subst hrr
              simp only [origin_data, region_data, hreg, hr]
            · simp only [origin_data, region_data, List.get?_set_ne _ _ (fun he => hrr he.symm)]
        · intro m md hmd
          exact ⟨md, hmd, rfl, rfl, rfl⟩

theorem set_origin_users_some {c : NodeCtxt S} {oid : OriginId} {v : Option UserIdList}
    {c1 : NodeCtxt S} (h : set_origin_users c oid v = some c1) :
    ∃ od, origin_data c oid = some od ∧
      origin_data c1 oid = some { od with users := v } ∧
      (∀ o, o ≠ oid → origin_data c1 o = origin_data c o) ∧
      (∀ u, user_data c1 u = user_data c u) ∧
      c1.interned_nodes = c.interned_nodes ∧ c1.config = c.config ∧
      c1.nodes.length = c.nodes.length ∧
      (∀ n nd, c.nodes.get? n = some nd → ∃ nd1, c1.nodes.get? n = some nd1 ∧
        nd1.kind = nd.kind ∧ nd1.ins = nd.ins ∧
        nd1.outs.length = nd.outs.length) := by
  cases oid with
  | Out n i =>
    simp only [set_origin_users] at h
    cases hn : c.nodes.get? n with
    | none => simp only [hn] at h; cases h
    | some nd =>
      simp only [hn] at h
      cases hm : listModify? nd.outs i (fun od => { od with users := v }) with
      | none => simp only [hm] at h; cases h
      | some outs1 =>
        simp only [hm, Option.some.injEq] at h
        subst h
        obtain ⟨od, hod, hlen, hget, hother⟩ := listModify?_some hm
        have hnlt : n < c.nodes.length := (List.get?_eq_some.1 hn).1
        have hnode : (c.nodes.set n { nd with outs := outs1 }).get? n =
            some { nd with outs := outs1 } := List.get?_set_eq_of_lt _ hnlt
        refine ⟨od, ?_, ?_, ?_, ?_, rfl, rfl, List.length_set _ _ _, ?_⟩
        · simp only [origin_data, node_data, hn, hod]
        · simp only [origin_data, node_data, hnode, hget]
        · intro o ho
          cases o with
          | Out n' j =>
            by_cases hnn : n' = n
            · subst hnn
              have hjj : j ≠ i := by
                intro he; subst he; exact ho rfl
              simp only [origin_data, node_data, hnode, hn, hother j hjj]
            · simp only [origin_data, node_data, List.get?_set_ne _ _ (fun he => hnn he.symm)]
          | Arg r j => simp only [origin_data, region_data]
        · intro u
          cases u with
          | In n' i' =>
            by_cases hnn : n' = n
            · subst hnn
              simp only [user_data, node_data, hnode, hn]
            · simp only [user_data, node_data, List.get?_set_ne _ _ (fun he => hnn he.symm)]
          | Res r j => simp only [user_data, region_data]
        · intro m md hmd
          by_cases hmn : m = n
          · subst hmn
            rw [hn] at hmd
            cases hmd
            exact ⟨{ nd with outs := outs1 }, hnode, rfl, rfl, hlen⟩
          · exact ⟨md, by
              rw [List.get?_set_ne _ _ (fun he => hmn he.symm)]; exact hmd, rfl, rfl, rfl⟩
  | Arg r i =>
    simp only [set_origin_users] at h
    cases hr : c.regions.get? r with
    | none => simp only [hr] at h; cases h
    | some rd =>
      simp only [hr] at h
      cases hm : listModify? rd.args i (fun od => { od with users := v }) with
      | none => simp only [hm] at h; cases h
      | some args1 =>
        simp only [hm, Option.some.injEq] at h
        subst h
        obtain ⟨od, hod, hlen, hget, hother⟩ := listModify?_some hm
        have hrlt : r < c.regions.length := (List.get?_eq_some.1 hr).1
        have hreg : (c.regions.set r { rd with args := args1 }).get? r =
            some { rd with args := args1 } := List.get?_set_eq_of_lt _ hrlt
        refine ⟨od, ?_, ?_, ?_, ?_, rfl, rfl, rfl, ?_⟩
        · simp only [origin_data, region_data, hr, hod]
        · simp only [origin_data, region_data, hreg, hget]
        · intro o ho
          cases o with
          | Out n' j => simp only [origin_data, node_data]
          | Arg r' j =>
            by_cases hrr : r' = r
            · subst hrr
              have hjj : j ≠ i := by
                intro he; subst he; exact ho rfl
              simp only [origin_data, region_data, hreg, hr, hother j hjj]
            · simp only [origin_data, region_data, List.get?_set_ne _ _ (fun he => hrr he.symm)]
        · intro u
          cases u with
          | In n' i' => simp only [user_data, node_data]
          | Res r' j =>
            by_cases hrr : r' = r
            · subst hrr
              simp only [user_data, region_data, hreg, hr]
            · simp only [user_data, region_data, List.get?_set_ne _ _ (fun he => hrr he.symm)]
        · intro m md hmd
          exact ⟨md, hmd, rfl, rfl, rfl⟩

theorem set_user_of_user_data {c : NodeCtxt S} {uid : UserId} {ud : UserData}
    (f : UserData → UserData) (h : user_data c uid = some ud) :
    ∃ c1, set_user c uid f = some c1 := by
  cases uid with
  | In n i =>
    simp only [user_data] at h
    cases hn : node_data c n with
    | none => rw [hn] at h; cases h
    | some nd =>
      simp only [hn] at h
      have hn' : c.nodes.get? n = some nd := hn
      have hs : (set_user c (.In n i) f).isSome := by
        simp only [set_user, hn', listModify?, h, Option.isSome_some]
      exact Option.isSome_iff_exists.1 hs
  | Res r i =>
    simp only [user_data] at h
    cases hr : region_data c r with
    | none => rw [hr] at h; cases h
    | some rd =>
      simp only [hr] at h
      have hr' : c.regions.get? r = some rd := hr
      have hs : (set_user c (.Res r i) f).isSome := by
        simp only [set_user, hr', listModify?, h, Option.isSome_some]
      exact Option.isSome_iff_exists.1 hs

theorem set_origin_users_of_origin_data {c : NodeCtxt S} {oid : OriginId}
    {od : OriginData} (v : Option UserIdList) (h : origin_data c oid = some od) :
    ∃ c1, set_origin_users c oid v = some c1 := by
  cases oid with
  | Out n i =>
    simp only [origin_data] at h
    cases hn : node_data c n with
    | none => rw [hn] at h; cases h
    | some nd =>
      simp only [hn] at h
      have hn' : c.nodes.get? n = some nd := hn
      have hs : (set_origin_users c (.Out n i) v).isSome := by
        simp only [set_origin_users, hn', listModify?, h, Option.isSome_some]
      exact Option.isSome_iff_exists.1 hs
  | Arg r i =>
    simp only [origin_data] at h
    cases hr : region_data c r with
    | none => rw [hr] at h; cases h
    | some rd =>
      simp only [hr] at h
      have hr' : c.regions.get? r = some rd := hr
      have hs : (set_origin_users c (.Arg r i) v).isSome := by
        simp only [set_origin_users, hr', listModify?, h, Option.isSome_some]
      exact Option.isSome_iff_exists.1 hs

/-! ### Lookup lemmas for the extended arena `virt` -/

theorem node_data_virt_lt {c : NodeCtxt S} {kind : NodeKind S} {rid : RegionId}
    {acc : List UserData} {n : Nat} (h : n < c.nodes.length) :
    node_data (virt c kind rid acc) n = node_data c n := by
  simp only [node_data, virt, List.get?_append h]

theorem node_data_virt_eq (c : NodeCtxt S) (kind : NodeKind S) (rid : RegionId)
    (acc : List UserData) :
    node_data (virt c kind rid acc) c.nodes.length =
      some { ins := acc, outs := [], inner_regions := none,
             outer_region := rid, kind := kind } := by
  simp only [node_data, virt, List.get?_append_right (le_refl c.nodes.length),
    Nat.sub_self, List.get?]

theorem node_data_virt_gt {c : NodeCtxt S} {kind : NodeKind S} {rid : RegionId}
    {acc : List UserData} {n : Nat} (h : c.nodes.length < n) :
    node_data (virt c kind rid acc) n = none := by
  have hle : c.nodes.length ≤ n := Nat.le_of_lt h
  have h1 : 1 ≤ n - c.nodes.length := by omega
  simp only [node_data, virt, List.get?_append_right hle]
  cases hv : n - c.nodes.length with
  | zero => omega
  | succ m => simp [List.get?]

theorem user_data_virt_in (c : NodeCtxt S) (kind : NodeKind S) (rid : RegionId)
    (acc : List UserData) (n i : Nat) :
    user_data (virt c kind rid acc) (.In n i) =
      if n = c.nodes.length then acc.get? i else user_data c (.In n i) := by
  by_cases hn : n = c.nodes.length
  · subst hn
    simp [user_data, node_data_virt_eq]
  · rw [if_neg hn]
    rcases Nat.lt_or_ge n c.nodes.length with hlt | hge
    · simp only [user_data, node_data_virt_lt hlt]
    · have hgt : c.nodes.length < n := lt_of_le_of_ne hge (fun he => hn he.symm)
      have hnone : node_data c n = none := by
        simp only [node_data]
        exact List.get?_eq_none.2 (Nat.le_of_lt hgt)
      simp only [user_data, node_data_virt_gt hgt, hnone]

theorem user_data_virt_res (c : NodeCtxt S) (kind : NodeKind S) (rid : RegionId)
    (acc : List UserData) (r i : Nat) :
    user_data (virt c kind rid acc) (.Res r i) = user_data c (.Res r i) := by
  simp only [user_data, region_data, virt]

theorem origin_data_virt_out (c : NodeCtxt S) (kind : NodeKind S) (rid : RegionId)
    (acc : List UserData) (n j : Nat) :
    origin_data (virt c kind rid acc) (.Out n j) =
      if n = c.nodes.length then none else origin_data c (.Out n j) := by
  by_cases hn : n = c.nodes.length
  · subst hn
    simp [origin_data, node_data_virt_eq]
  · rw [if_neg hn]
    rcases Nat.lt_or_ge n c.nodes.length with hlt | hge
    · simp only [origin_data, node_data_virt_lt hlt]
    · have hgt : c.nodes.length < n := lt_of_le_of_ne hge (fun he => hn he.symm)
      have hnone : node_data c n = none := by
        simp only [node_data]
        exact List.get?_eq_none.2 (Nat.le_of_lt hgt)
      simp only [origin_data, node_data_virt_gt hgt, hnone]

theorem origin_data_virt_arg (c : NodeCtxt S) (kind : NodeKind S) (rid : RegionId)
    (acc : List UserData) (r j : Nat) :
    origin_data (virt c kind rid acc) (.Arg r j) = origin_data c (.Arg r j) := by
  simp only [origin_data, region_data, virt]

/-! ### Accessor bridging lemmas -/

theorem uOrigin_of {c : NodeCtxt S} {u : UserId} {ud : UserData}
    (h : user_data c u = some ud) : uOrigin c u = some ud.origin := by
  simp only [uOrigin, h, Option.map_some']

theorem uPrev_of {c : NodeCtxt S} {u : UserId} {ud : UserData}
    (h : user_data c u = some ud) : uPrev c u = some ud.prev_user := by
  simp only [uPrev, h, Option.map_some']

theorem uNext_of {c : NodeCtxt S} {u : UserId} {ud : UserData}
    (h : user_data c u = some ud) : uNext c u = some ud.next_user := by
  simp only [uNext, h, Option.map_some']

theorem uOrigin_elim {c : NodeCtxt S} {u : UserId} {x : Option OriginId}
    (h : uOrigin c u = some x) : ∃ ud, user_data c u = some ud ∧ ud.origin = x := by
  simp only [uOrigin, Option.map_eq_some'] at h
  exact h

theorem uOrigin_congr {c c' : NodeCtxt S} {u : UserId}
    (h : user_data c' u = user_data c u) : uOrigin c' u = uOrigin c u := by
  simp only [uOrigin, h]

theorem uPrev_congr {c c' : NodeCtxt S} {u : UserId}
    (h : user_data c' u = user_data c u) : uPrev c' u = uPrev c u := by
  simp only [uPrev, h]

theorem uNext_congr {c c' : NodeCtxt S} {u : UserId}
    (h : user_data c' u = user_data c u) : uNext c' u = uNext c u := by
  simp only [uNext, h]

theorem userListOf_isSome {c : NodeCtxt S} {o : OriginId} {x : UserIdList}
    (h : userListOf c o = some x) : (origin_data c o).isSome := by
  simp only [userListOf] at h
  cases ho : origin_data c o with
  | none => rw [ho] at h; cases h
  | some od => simp

/-! ### Chain lemmas -/

theorem isChain_congr {c c' : NodeCtxt S} {o : OriginId} :
    ∀ (ul : List UserId) (p : Option UserId),
      (∀ u ∈ ul, user_data c' u = user_data c u) →
      isChain c o p ul → isChain c' o p ul := by
  intro ul
  induction ul with
  | nil => intro p _ _; trivial
  | cons u rest ih =>
    intro p hag h
    simp only [isChain] at h ⊢
    obtain ⟨h1, h2, h3, h4⟩ := h
    have hu : user_data c' u = user_data c u := hag u (by simp)
    exact ⟨by rw [uOrigin_congr hu]; exact h1, by rw [uPrev_congr hu]; exact h2,
           by rw [uNext_congr hu]; exact h3,
           ih (some u) (fun x hx => hag x (by simp [hx])) h4⟩

theorem isChain_mem_origin {c : NodeCtxt S} {o : OriginId} :
    ∀ {ul : List UserId} {p : Option UserId} {u : UserId},
      isChain c o p ul → u ∈ ul → uOrigin c u = some (some o) := by
  intro ul
  induction ul with
  | nil => intro p u _ hu; cases hu
  | cons v rest ih =>
    intro p u h hu
    simp only [isChain] at h
    obtain ⟨h1, _, _, h4⟩ := h
    rcases List.mem_cons.1 hu with he | hm
    · subst he; exact h1
    · exact ih h4 hm

theorem isChain_mem_valid {c : NodeCtxt S} {o : OriginId} {ul : List UserId}
    {p : Option UserId} {u : UserId}
    (h : isChain c o p ul) (hu : u ∈ ul) : (user_data c u).isSome := by
  obtain ⟨ud, hud, _⟩ := uOrigin_elim (isChain_mem_origin h hu)
  simp [hud]

theorem isChain_snoc {c c' : NodeCtxt S} {o : OriginId} {l w : UserId}
    {ld : UserData} :
    ∀ (ul : List UserId) (p : Option UserId),
      isChain c o p ul → ul.getLast? = some l → ul.Nodup →
      (∀ u ∈ ul, u ≠ l → user_data c' u = user_data c u) →
      user_data c l = some ld →
      user_data c' l = some { ld with next_user := some w } →
      uOrigin c' w = some (some o) →
      uPrev c' w = some (some l) →
      uNext c' w = some none →
      isChain c' o p (ul ++ [w]) := by
  intro ul
  induction ul with
  | nil => intro p _ hlast; cases hlast
  | cons u rest ih =>
    intro p h hlast hnd hag hld hld' hwo hwp hwn
    simp only [isChain] at h
    obtain ⟨h1, h2, h3, h4⟩ := h
    cases rest with
    | nil =>
      have hul : u = l := by
        simp only [List.getLast?_singleton, Option.some.injEq] at hlast
        exact hlast
      subst hul
      have hudl : ld.origin = some o ∧ ld.prev_user = p := by
        rw [uOrigin_of hld] at h1
        rw [uPrev_of hld] at h2
        exact ⟨Option.some.inj h1, Option.some.inj h2⟩
      simp only [List.cons_append, List.nil_append, isChain]
      refine ⟨?_, ?_, ?_, ?_, ?_, ?_, trivial⟩
      · rw [uOrigin_of hld']; simp [hudl.1]
      · rw [uPrev_of hld']; simp [hudl.2]
      · rw [uNext_of hld']; simp
      · exact hwo
      · exact hwp
      · simpa using hwn
    | cons v rest2 =>
      have hlast2 : (v :: rest2).getLast? = some l := by
        rw [List.getLast?_cons_cons] at hlast
        exact hlast
      have hlmem : l ∈ v :: rest2 := List.mem_of_mem_getLast? hlast2
      have hune : u ≠ l := by
        intro he
        subst he
        exact (List.nodup_cons.1 hnd).1 hlmem
      have hu : user_data c' u = user_data c u := hag u (by simp) hune
      simp only [List.cons_append, isChain]
      refine ⟨?_, ?_, ?_, ?_⟩
      · rw [uOrigin_congr hu]; exact h1
      · rw [uPrev_congr hu]; exact h2
      · rw [uNext_congr hu]; simpa using h3
      · exact ih (some u) h4 hlast2 (List.nodup_cons.1 hnd).2
          (fun x hx hne => hag x (by simp [hx]) hne) hld hld' hwo hwp hwn

/-! ### GraphOk preservation building blocks -/

theorem GraphOk_extend {v v' : NodeCtxt S}
    (husers : ∀ u, user_data v' u = user_data v u ∨
      (user_data v u = none ∧ user_data v' u = some UserData.empty))
    (hul : ∀ o, (origin_data v o).isSome → userListOf v' o = userListOf v o)
    (hmore : ∀ o, (origin_data v' o).isSome →
      (origin_data v o).isSome ∨ userListOf v' o = none)
    (hup : ∀ o, (origin_data v o).isSome → (origin_data v' o).isSome)
    (hG : GraphOk v) : GraphOk v' := by
  have hnew_origin : ∀ u, user_data v u = none → user_data v' u = some UserData.empty →
      uOrigin v' u = some none := by
    intro u _ h2
    rw [uOrigin_of h2]
    rfl
  refine ⟨?_, ?_, ?_⟩
  · intro u h
    rcases husers u with he | ⟨h1, h2⟩
    · have := hG.clean u (by rw [← uOrigin_congr he]; exact h)
      exact ⟨by rw [uPrev_congr he]; exact this.1, by rw [uNext_congr he]; exact this.2⟩
    · exact ⟨by rw [uPrev_of h2]; rfl, by rw [uNext_of h2]; rfl⟩
  · intro u o h
    rcases husers u with he | ⟨h1, h2⟩
    · exact hup o (hG.valid_origin u o (by rw [← uOrigin_congr he]; exact h))
    · rw [hnew_origin u h1 h2] at h
      cases h
  · intro o
    constructor
    · intro hnone u huo
      rcases husers u with he | ⟨h1, h2⟩
      · have huo' : uOrigin v u = some (some o) := by rw [← uOrigin_congr he]; exact huo
        have hvs : (origin_data v o).isSome := hG.valid_origin u o huo'
        have := (hG.chains o).1 (by rw [← hul o hvs]; exact hnone) u
        exact this huo'
      · rw [hnew_origin u h1 h2] at huo
        cases huo
    · intro f l heq
      have hvs' : (origin_data v' o).isSome := userListOf_isSome heq
      rcases hmore o hvs' with hvs | hn
      · have heqv : userListOf v o = some ⟨f, l⟩ := by rw [← hul o hvs]; exact heq
        obtain ⟨ul, hch, hh, hl, hnd, hiff⟩ := (hG.chains o).2 f l heqv
        have hmem_eq : ∀ u ∈ ul, user_data v' u = user_data v u := by
          intro u hu
          rcases husers u with he | ⟨h1, h2⟩
          · exact he
          · have := isChain_mem_valid hch hu
            rw [h1] at this
            cases this
        refine ⟨ul, isChain_congr ul none hmem_eq hch, hh, hl, hnd, ?_⟩
        intro u
        rcases husers u with he | ⟨h1, h2⟩
        · rw [uOrigin_congr he]; exact hiff u
        · rw [hnew_origin u h1 h2]
          constructor
          · intro hu
            have := isChain_mem_valid hch hu
            rw [h1] at this
            cases this
          · intro hcontra
            cases hcontra
      · rw [hn] at heq
        cases heq

theorem nodup_concat {α : Type} {l : List α} {a : α}
    (h : l.Nodup) (ha : a ∉ l) : (l ++ [a]).Nodup := by
  rw [List.nodup_append]
  refine ⟨h, List.nodup_singleton a, ?_⟩
  intro x hx hxa
  rw [List.mem_singleton] at hxa
  subst hxa
  exact ha hx

theorem head?_concat {α : Type} {l : List α} {a b : α}
    (h : l.head? = some b) : (l ++ [a]).head? = some b := by
  cases l with
  | nil => cases h
  | cons x xs => simpa using h

/-- The central linked-list step: the graph invariant survives appending one
user `w` at the tail of origin `o`'s user list, no matter whether `w` was a
fresh in-progress slot (`mk_node_with`) or an unconnected committed slot
(`connect_ports`). -/
theorem GraphOk_append_user {v v' : NodeCtxt S} {o : OriginId} {w : UserId}
    (hG : GraphOk v)
    (hwclean : ∀ x, uOrigin v w = some x → x = none)
    (hov : (origin_data v o).isSome)
    (hvo : ∀ o', (origin_data v' o').isSome ↔ (origin_data v o').isSome)
    (hoth : ∀ o', o' ≠ o → userListOf v' o' = userListOf v o')
    (hwo : uOrigin v' w = some (some o))
    (hwn : uNext v' w = some none)
    (hcase :
      (userListOf v o = none ∧ uPrev v' w = some none ∧
        (∀ u, u ≠ w → user_data v' u = user_data v u) ∧
        userListOf v' o = some ⟨w, w⟩) ∨
      (∃ f l ld, userListOf v o = some ⟨f, l⟩ ∧ uPrev v' w = some (some l) ∧
        user_data v l = some ld ∧
        user_data v' l = some { ld with next_user := some w } ∧
        (∀ u, u ≠ w → u ≠ l → user_data v' u = user_data v u) ∧
        userListOf v' o = some ⟨f, w⟩)) :
    GraphOk v' := by
  rcases hcase with ⟨hnoneV, hwp, hagree, hul'⟩ | ⟨f, l, ld, hsomeV, hwp, hld, hld', hagree, hul'⟩
  · -- the origin had no users: `w` becomes both head and tail
    refine ⟨?_, ?_, ?_⟩
    · intro u h
      by_cases huw : u = w
      · subst huw
        rw [hwo] at h
        cases h
      · have he := hagree u huw
        have := hG.clean u (by rw [← uOrigin_congr he]; exact h)
        exact ⟨by rw [uPrev_congr he]; exact this.1, by rw [uNext_congr he]; exact this.2⟩
    · intro u o'' h
      by_cases huw : u = w
      · subst huw
        rw [hwo] at h
        have ho'' : o'' = o := by
          have := Option.some.inj h
          exact (Option.some.inj this).symm
        subst ho''
        exact (hvo o'').2 hov
      · have he := hagree u huw
        exact (hvo o'').2 (hG.valid_origin u o'' (by rw [← uOrigin_congr he]; exact h))
    · intro o'
      by_cases ho' : o' = o
      · subst ho'
        constructor
        · intro hn
          rw [hul'] at hn
          cases hn
        · intro f' l' heq
          rw [hul'] at heq
          have hf : w = f' := congrArg UserIdList.first (Option.some.inj heq)
          have hl : w = l' := congrArg UserIdList.last (Option.some.inj heq)
          subst hf
          subst hl
          refine ⟨[w], ?_, rfl, rfl, List.nodup_singleton w, ?_⟩
          · simp only [isChain]
            exact ⟨hwo, by simpa using hwp, by simpa using hwn, trivial⟩
          · intro u
            constructor
            · intro hu
              rw [List.mem_singleton] at hu
              subst hu
              exact hwo
            · intro hu
              by_cases huw : u = w
              · simp [huw]
              · have he := hagree u huw
                rw [uOrigin_congr he] at hu
                exact absurd hu ((hG.chains o').1 hnoneV u)
      · constructor
        · intro hn u hu
          by_cases huw : u = w
          · subst huw
            rw [hwo] at hu
            exact ho' (Option.some.inj (Option.some.inj hu)).symm
          · have he := hagree u huw
            rw [uOrigin_congr he] at hu
            rw [hoth o' ho'] at hn
            exact (hG.chains o').1 hn u hu
        · intro f' l' heq
          rw [hoth o' ho'] at heq
          obtain ⟨ul, hch, hh, hl, hnd, hiff⟩ := (hG.chains o').2 f' l' heq
          have hwnot : w ∉ ul := by
            intro hw
            have := isChain_mem_origin hch hw
            have := hwclean (some o') this
            cases this
          have hmem_eq : ∀ u ∈ ul, user_data v' u = user_data v u := by
            intro u hu
            have huw : u ≠ w := fun he => hwnot (he ▸ hu)
            exact hagree u huw
          refine ⟨ul, isChain_congr ul none hmem_eq hch, hh, hl, hnd, ?_⟩
          intro u
          by_cases huw : u = w
          · subst huw
            rw [hwo]
            constructor
            · intro hu; exact absurd hu hwnot
            · intro hu
              exact absurd (Option.some.inj (Option.some.inj hu)).symm ho'
          · rw [uOrigin_congr (hagree u huw)]
            exact hiff u
  · -- the origin had users `[.. l]`: `w` is appended after the old tail `l`
    obtain ⟨ul, hch, hh, hl, hnd, hiff⟩ := (hG.chains o).2 f l hsomeV
    have hlmem : l ∈ ul := List.mem_of_mem_getLast? hl
    have hlo : uOrigin v l = some (some o) := isChain_mem_origin hch hlmem
    have hldo : ld.origin = some o := by
      rw [uOrigin_of hld] at hlo
      exact Option.some.inj hlo
    have hlw : l ≠ w := by
      intro he
      subst he
      have := hwclean (some o) hlo
      cases this
    have hwnot : w ∉ ul := by
      intro hw
      have := hwclean (some o) (isChain_mem_origin hch hw)
      cases this
    have hlo' : uOrigin v' l = some (some o) := by
      rw [uOrigin_of hld']
      simpa using hldo
    refine ⟨?_, ?_, ?_⟩
    · intro u h
      by_cases huw : u = w
      · subst huw
        rw [hwo] at h
        cases h
      · by_cases hul2 : u = l
        · subst hul2
          rw [hlo'] at h
          cases h
        · have he := hagree u huw hul2
          have := hG.clean u (by rw [← uOrigin_congr he]; exact h)
          exact ⟨by rw [uPrev_congr he]; exact this.1, by rw [uNext_congr he]; exact this.2⟩
    · intro u o'' h
      by_cases huw : u = w
      · subst huw
        rw [hwo] at h
        have ho'' : o'' = o := (Option.some.inj (Option.some.inj h)).symm
        subst ho''
        exact (hvo o'').2 hov
      · by_cases hul2 : u = l
        · subst hul2
          rw [hlo'] at h
          have ho'' : o'' = o := (Option.some.inj (Option.some.inj h)).symm
          subst ho''
          exact (hvo o'').2 hov
        · have he := hagree u huw hul2
          exact (hvo o'').2 (hG.valid_origin u o'' (by rw [← uOrigin_congr he]; exact h))
    · intro o'
      by_cases ho' : o' = o
      · subst ho'
        constructor
        · intro hn
          rw [hul'] at hn
          cases hn
        · intro f' l' heq
          rw [hul'] at heq
          have hf : f = f' := congrArg UserIdList.first (Option.some.inj heq)
          have hlw' : w = l' := congrArg UserIdList.last (Option.some.inj heq)
          subst hf
          subst hlw'
          have hchain' : isChain v' o' none (ul ++ [w]) := by
            refine isChain_snoc ul none hch hl hnd ?_ hld hld' hwo hwp hwn
            intro u hu hne
            have huw : u ≠ w := fun he => hwnot (he ▸ hu)
            exact hagree u huw hne
          refine ⟨ul ++ [w], hchain', head?_concat hh, List.getLast?_concat ul,
            nodup_concat hnd hwnot, ?_⟩
          intro u
          constructor
          · intro hu
            rcases List.mem_append.1 hu with hu1 | hu2
            · by_cases hul2 : u = l
              · subst hul2
                exact hlo'
              · have huw : u ≠ w := fun he => hwnot (he ▸ hu1)
                rw [uOrigin_congr (hagree u huw hul2)]
                exact (hiff u).1 hu1
            · rw [List.mem_singleton] at hu2
              subst hu2
              exact hwo
          · intro hu
            by_cases huw : u = w
            · subst huw
              exact List.mem_append.2 (Or.inr (by simp))
            · by_cases hul2 : u = l
              · subst hul2
                exact List.mem_append.2 (Or.inl hlmem)
              · rw [uOrigin_congr (hagree u huw hul2)] at hu
                exact List.mem_append.2 (Or.inl ((hiff u).2 hu))
      · constructor
        · intro hn u hu
          by_cases huw : u = w
          · subst huw
            rw [hwo] at hu
            exact ho' (Option.some.inj (Option.some.inj hu)).symm
          · by_cases hul2 : u = l
            · subst hul2
              rw [hlo'] at hu
              exact ho' (Option.some.inj (Option.some.inj hu)).symm
            · rw [uOrigin_congr (hagree u huw hul2)] at hu
              rw [hoth o' ho'] at hn
              exact (hG.chains o').1 hn u hu
        · intro f' l' heq
          rw [hoth o' ho'] at heq
          obtain ⟨ul2, hch2, hh2, hl2, hnd2, hiff2⟩ := (hG.chains o').2 f' l' heq
          have hwnot2 : w ∉ ul2 := by
            intro hw
            have := hwclean (some o') (isChain_mem_origin hch2 hw)
            cases this
          have hlnot2 : l ∉ ul2 := by
            intro hw
            have := isChain_mem_origin hch2 hw
            rw [hlo] at this
            exact ho' (Option.some.inj (Option.some.inj this)).symm
          have hmem_eq : ∀ u ∈ ul2, user_data v' u = user_data v u := by
            intro u hu
            exact hagree u (fun he => hwnot2 (he ▸ hu)) (fun he => hlnot2 (he ▸ hu))
          refine ⟨ul2, isChain_congr ul2 none hmem_eq hch2, hh2, hl2, hnd2, ?_⟩
          intro u
          by_cases huw : u = w
          · subst huw
            rw [hwo]
            constructor
            · intro hu; exact absurd hu hwnot2
            · intro hu
              exact absurd (Option.some.inj (Option.some.inj hu)).symm ho'
          · by_cases hul2 : u = l
            · subst hul2
              rw [hlo']
              constructor
              · intro hu; exact absurd hu hlnot2
              · intro hu
                exact absurd (Option.some.inj (Option.some.inj hu)).symm ho'
            · rw [uOrigin_congr (hagree u huw hul2)]
              exact hiff2 u

/-- Full characterization of a successful `connect_ports` run: the
preconditions the asserts enforced, the new linkage, and the frame. -/
theorem connect_ports_spec {c : NodeCtxt S} {u : UserId} {o : OriginId}
    {c' : NodeCtxt S} (h : connect_ports c u o = some c') :
    ∃ ud, user_data c u = some ud ∧ ud.origin = none ∧ ud.prev_user = none ∧
      ud.next_user = none ∧
      (origin_data c o).isSome ∧
      (∀ o', (origin_data c' o').isSome ↔ (origin_data c o').isSome) ∧
      (∀ o', o' ≠ o → userListOf c' o' = userListOf c o') ∧
      uOrigin c' u = some (some o) ∧
      c'.interned_nodes = c.interned_nodes ∧ c'.config = c.config ∧
      c'.nodes.length = c.nodes.length ∧
      (∀ n nd, c.nodes.get? n = some nd → ∃ nd1, c'.nodes.get? n = some nd1 ∧
        nd1.kind = nd.kind ∧ nd1.ins.length = nd.ins.length ∧
        nd1.outs.length = nd.outs.length) ∧
      ((userListOf c o = none ∧ userListOf c' o = some ⟨u, u⟩ ∧
        uPrev c' u = some none ∧ uNext c' u = some none ∧
        (∀ x, x ≠ u → user_data c' x = user_data c x)) ∨
       (∃ f l, userListOf c o = some ⟨f, l⟩ ∧ userListOf c' o = some ⟨f, u⟩ ∧
         uNext c' l = some (some u) ∧ uPrev c' u = some (some l) ∧
         (l ≠ u → uNext c' u = some none ∧
           ∃ ld, user_data c l = some ld ∧
             user_data c' l = some { ld with next_user := some u } ∧
             ∀ x, x ≠ u → x ≠ l → user_data c' x = user_data c x))) := by
  simp only [connect_ports] at h
  cases hud : user_data c u with
  | none => rw [hud] at h; cases h
  | some ud =>
    simp only [hud] at h
    by_cases hcond : ud.origin = none ∧ ud.prev_user = none ∧ ud.next_user = none
    · rw [if_pos hcond] at h
      cases hc1m : set_user c u fun x => { x with origin := some o } with
      | none => rw [hc1m] at h; cases h
      | some c1 =>
        simp only [hc1m] at h
        obtain ⟨ud1, hud1, hc1u, hc1oth, hc1or, hc1int, hc1cfg, hc1len, hc1shape⟩ :=
          set_user_some hc1m
        have hudeq : ud1 = ud := by rw [hud1] at hud; exact Option.some.inj hud
        rw [hudeq] at hc1u
        cases hodm : origin_data c1 o with
        | none => simp only [hodm] at h; cases h
        | some od =>
          simp only [hodm] at h
          have hodc : origin_data c o = some od := by rw [← hc1or o]; exact hodm
          have hov : (origin_data c o).isSome := by simp [hodc]
          have hulc : userListOf c o = od.users := by
            simp only [userListOf, hodc]
          cases hus : od.users with
          | none =>
            simp only [hus] at h
            obtain ⟨od4, hod4, hato, hooth, husers, hint, hcfg, hlen, hshape⟩ :=
              set_origin_users_some h
            have hod4eq : od4 = od := by
              rw [hod4] at hodm; exact Option.some.inj hodm
            subst hod4eq
            have hcu : user_data c' u = some { ud with origin := some o } := by
              rw [husers u, hc1u]
            refine ⟨ud, rfl, hcond.1, hcond.2.1, hcond.2.2, hov, ?_, ?_, ?_, ?_, ?_, ?_, ?_,
              Or.inl ⟨hulc.trans hus, ?_, ?_, ?_, ?_⟩⟩
            · intro o'
              by_cases ho' : o' = o
              · rw [ho']
                simp [hato, hodc]
              · rw [hooth o' ho', hc1or o']
            · intro o' ho'
              simp only [userListOf, hooth o' ho', hc1or o']
            · rw [uOrigin_of hcu]
            · rw [hint, hc1int]
            · rw [hcfg, hc1cfg]
            · rw [hlen, hc1len]
            · intro n nd hnd
              obtain ⟨nd1, h1, h2, h3, h4⟩ := hc1shape n nd hnd
              obtain ⟨nd2, g1, g2, g3, g4⟩ := hshape n nd1 h1
              exact ⟨nd2, g1, g2.trans h2, by rw [g3]; exact h3, by rw [g4, h4]⟩
            · simp only [userListOf, hato]
            · rw [uPrev_of hcu]; simp [hcond.2.1]
            · rw [uNext_of hcu]; simp [hcond.2.2]
            · intro x hx
              rw [husers x, hc1oth x hx]
          | some ul =>
            simp only [hus] at h
            cases hc2m : set_user c1 ul.last fun x => { x with next_user := some u } with
            | none => simp only [hc2m] at h; cases h
            | some c2 =>
              simp only [hc2m] at h
              obtain ⟨ld1, hld1, hc2l, hc2oth, hc2or, hc2int, hc2cfg, hc2len, hc2shape⟩ :=
                set_user_some hc2m
              cases hc3m : set_user c2 u fun x => { x with prev_user := some ul.last } with
              | none => simp only [hc3m] at h; cases h
              | some c3 =>
                simp only [hc3m] at h
                obtain ⟨ud3, hud3, hc3u, hc3oth, hc3or, hc3int, hc3cfg, hc3len, hc3shape⟩ :=
                  set_user_some hc3m
                obtain ⟨od4, hod4, hato, hooth, husers, hint, hcfg, hlen, hshape⟩ :=
                  set_origin_users_some h
                have hcu : user_data c' u = some { ud3 with prev_user := some ul.last } := by
                  rw [husers u, hc3u]
                refine ⟨ud, rfl, hcond.1, hcond.2.1, hcond.2.2, hov, ?_, ?_, ?_, ?_, ?_, ?_, ?_,
                  Or.inr ⟨ul.first, ul.last, hulc.trans (by rw [hus]), ?_, ?_, ?_, ?_⟩⟩
                · intro o'
                  by_cases ho' : o' = o
                  · rw [ho']
                    simp [hato, hodc]
                  · rw [hooth o' ho', hc3or o', hc2or o', hc1or o']
                · intro o' ho'
                  simp only [userListOf, hooth o' ho', hc3or o', hc2or o', hc1or o']
                · rw [uOrigin_of hcu]
                  simp only [Option.some.injEq]
                  by_cases hlu : ul.last = u
                  · have hud3e : ud3 = { ld1 with next_user := some u } := by
                      rw [hlu] at hc2l
                      rw [hc2l] at hud3
                      exact (Option.some.inj hud3).symm
                    have hld1e : ld1 = { ud with origin := some o } := by
                      rw [hlu] at hld1
                      rw [hc1u] at hld1
                      exact (Option.some.inj hld1).symm
                    rw [hud3e, hld1e]
                  · have hud3e : ud3 = { ud with origin := some o } := by
                      have := hc2oth u (fun he => hlu he.symm)
                      rw [this, hc1u] at hud3
                      exact (Option.some.inj hud3).symm
                    rw [hud3e]
                · rw [hint, hc3int, hc2int, hc1int]
                · rw [hcfg, hc3cfg, hc2cfg, hc1cfg]
                · rw [hlen, hc3len, hc2len, hc1len]
                · intro n nd hnd
                  obtain ⟨nd1, h1, h2, h3, h4⟩ := hc1shape n nd hnd
                  obtain ⟨nd2, g1, g2, g3, g4⟩ := hc2shape n nd1 h1
                  obtain ⟨nd3, k1, k2, k3, k4⟩ := hc3shape n nd2 g1
                  obtain ⟨nd4, m1, m2, m3, m4⟩ := hshape n nd3 k1
                  refine ⟨nd4, m1, ?_, ?_, ?_⟩
                  · rw [m2, k2, g2, h2]
                  · rw [m3, k3, g3, h3]
                  · rw [m4, k4, g4, h4]
                · simp only [userListOf, hato]
                · by_cases hlu : ul.last = u
                  · rw [hlu]
                    rw [uNext_of hcu]
                    have hud3e : ud3 = { ld1 with next_user := some u } := by
                      rw [hlu] at hc2l
                      rw [hc2l] at hud3
                      exact (Option.some.inj hud3).symm
                    rw [hud3e]
                  · have hc3l : user_data c3 ul.last = user_data c2 ul.last :=
                      hc3oth ul.last (fun he => hlu he)
                    have hcl : user_data c' ul.last = some { ld1 with next_user := some u } := by
                      rw [husers ul.last, hc3l, hc2l]
                    rw [uNext_of hcl]
                · rw [uPrev_of hcu]
                · intro hlu
                  constructor
                  · rw [uNext_of hcu]
                    have hud3e : ud3 = { ud with origin := some o } := by
                      have := hc2oth u (fun he => hlu he.symm)
                      rw [this, hc1u] at hud3
                      exact (Option.some.inj hud3).symm
                    rw [hud3e]
                    simp [hcond.2.2]
                  · have hldc : user_data c ul.last = some ld1 := by
                      rw [← hc1oth ul.last hlu]
                      exact hld1
                    refine ⟨ld1, hldc, ?_, ?_⟩
                    · have hc3l : user_data c3 ul.last = user_data c2 ul.last :=
                        hc3oth ul.last hlu
                      rw [husers ul.last, hc3l, hc2l]
                    · intro x hxu hxl
                      rw [husers x, hc3oth x hxu, hc2oth x hxl, hc1oth x hxu]
    · rw [if_neg hcond] at h
      cases h

theorem connect_ports_fails {c : NodeCtxt S} {u : UserId} {o : OriginId}
    {ud : UserData} (hud : user_data c u = some ud)
    (hbad : ¬(ud.origin = none ∧ ud.prev_user = none ∧ ud.next_user = none)) :
    connect_ports c u o = none := by
  simp only [connect_ports, hud]
  rw [if_neg hbad]

theorem get?_concat_ne {α : Type} {l : List α} {x : α} {j : Nat}
    (h : j ≠ l.length) : (l ++ [x]).get? j = l.get? j := by
  rcases Nat.lt_or_ge j l.length with hlt | hge
  · exact List.get?_append hlt
  · have hgt : l.length < j := lt_of_le_of_ne hge (fun he => h he.symm)
    rw [List.get?_eq_none.2 (Nat.le_of_lt hgt),
      List.get?_eq_none.2 (by simp; omega)]

theorem get?_concat_len {α : Type} (l : List α) (x : α) :
    (l ++ [x]).get? l.length = some x := by
  rw [List.get?_append_right (le_refl l.length), Nat.sub_self]
  rfl

/-- `connect_ports` preserves the structural invariant. -/
theorem connect_ports_graphOk {c c' : NodeCtxt S} {u : UserId} {o : OriginId}
    (hG : GraphOk c) (h : connect_ports c u o = some c') : GraphOk c' := by
  obtain ⟨ud, hud, ho1, ho2, ho3, hov, hvo, hoth, hwo, _, _, _, _, hcase⟩ :=
    connect_ports_spec h
  have hwclean : ∀ x, uOrigin c u = some x → x = none := by
    intro x hx
    rw [uOrigin_of hud] at hx
    rw [← Option.some.inj hx]
    exact ho1
  rcases hcase with ⟨hn, hul', hp, hx, hagree⟩ | ⟨f, l, hulo, hul', hnl, hpu, hrest⟩
  · exact GraphOk_append_user hG hwclean hov hvo hoth hwo hx
      (Or.inl ⟨hn, hp, hagree, hul'⟩)
  · have hlne : l ≠ u := by
      intro he
      obtain ⟨ulist, hch, hh, hl, hnd, hiff⟩ := (hG.chains o).2 f l hulo
      have hmem : l ∈ ulist := List.mem_of_mem_getLast? hl
      have := isChain_mem_origin hch hmem
      rw [he, uOrigin_of hud, ho1] at this
      cases this
    obtain ⟨hwn, ld, hld, hld', hagree⟩ := hrest hlne
    exact GraphOk_append_user hG hwclean hov hvo hoth hwo hwn
      (Or.inr ⟨f, l, ld, hulo, hpu, hld, hld', hagree, hul'⟩)

theorem node_data_append {c : NodeCtxt S} {nd : NodeData S} (n : Nat) :
    node_data { c with nodes := c.nodes ++ [nd] } n =
      if n = c.nodes.length then some nd else node_data c n := by
  by_cases hn : n = c.nodes.length
  · subst hn
    simp only [node_data, if_pos rfl]
    rw [List.get?_append_right (le_refl c.nodes.length), Nat.sub_self]
    rfl
  · rw [if_neg hn]
    rcases Nat.lt_or_ge n c.nodes.length with hlt | hge
    · simp only [node_data, List.get?_append hlt]
    · have hgt : c.nodes.length < n := lt_of_le_of_ne hge (fun he => hn he.symm)
      simp only [node_data]
      rw [List.get?_eq_none.2 (Nat.le_of_lt hgt), List.get?_eq_none.2 (by simp; omega)]

theorem user_data_append {c : NodeCtxt S} {nd : NodeData S} (n i : Nat) :
    user_data { c with nodes := c.nodes ++ [nd] } (.In n i) =
      if n = c.nodes.length then nd.ins.get? i else user_data c (.In n i) := by
  by_cases hn : n = c.nodes.length
  · simp only [user_data, node_data_append, if_pos hn]
  · simp only [user_data, node_data_append, if_neg hn]

theorem origin_data_append {c : NodeCtxt S} {nd : NodeData S} (n j : Nat) :
    origin_data { c with nodes := c.nodes ++ [nd] } (.Out n j) =
      if n = c.nodes.length then nd.outs.get? j else origin_data c (.Out n j) := by
  by_cases hn : n = c.nodes.length
  · simp only [origin_data, node_data_append, if_pos hn]
  · simp only [origin_data, node_data_append, if_neg hn]

theorem user_data_append_res {c : NodeCtxt S} {nd : NodeData S} (r i : Nat) :
    user_data { c with nodes := c.nodes ++ [nd] } (.Res r i) =
      user_data c (.Res r i) := by
  simp only [user_data, region_data]

theorem origin_data_append_arg {c : NodeCtxt S} {nd : NodeData S} (r j : Nat) :
    origin_data { c with nodes := c.nodes ++ [nd] } (.Arg r j) =
      origin_data c (.Arg r j) := by
  simp only [origin_data, region_data]

/-- `create_node` preserves the structural invariant: its new slots are all
empty. -/
theorem create_node_graphOk [Sig S] {c : NodeCtxt S} {kind : NodeKind S}
    {rid : RegionId} (hG : GraphOk c) : GraphOk (create_node c kind rid).1 := by
  refine GraphOk_extend ?_ ?_ ?_ ?_ hG
  · intro u
    cases u with
    | In n i =>
      rw [show (create_node c kind rid).1 = { c with nodes := c.nodes ++ [_] } from rfl,
        user_data_append]
      by_cases hn : n = c.nodes.length
      · rw [if_pos hn]
        cases hgi : (List.replicate kind.sig.num_input_ports UserData.empty).get? i with
        | none =>
          left
          subst hn
          simp only [user_data, node_data, List.get?_eq_none.2 (le_refl c.nodes.length)]
        | some x =>
          right
          have hx : x = UserData.empty := by
            have := List.get?_mem hgi
            exact (List.eq_of_mem_replicate this)
          constructor
          · subst hn
            simp only [user_data, node_data, List.get?_eq_none.2 (le_refl c.nodes.length)]
          · rw [hx]
      · rw [if_neg hn]
        left
        rfl
    | Res r i =>
      left
      exact user_data_append_res r i
  · intro o ho
    cases o with
    | Out n j =>
      have hn : n < c.nodes.length := by
        rcases Nat.lt_or_ge n c.nodes.length with hlt | hge
        · exact hlt
        · exfalso
          have hnone : node_data c n = none := by
            simp only [node_data]
            exact List.get?_eq_none.2 hge
          simp only [origin_data, hnone] at ho
          cases ho
      simp only [userListOf]
      rw [show (create_node c kind rid).1 = { c with nodes := c.nodes ++ [_] } from rfl,
        origin_data_append]
      rw [if_neg (Nat.ne_of_lt hn)]
    | Arg r j =>
      simp only [userListOf]
      rw [show (create_node c kind rid).1 = { c with nodes := c.nodes ++ [_] } from rfl,
        origin_data_append_arg]
  · intro o ho
    cases o with
    | Out n j =>
      rw [show (create_node c kind rid).1 = { c with nodes := c.nodes ++ [_] } from rfl,
        origin_data_append] at ho
      by_cases hn : n = c.nodes.length
      · rw [if_pos hn] at ho
        right
        simp only [userListOf]
        rw [show (create_node c kind rid).1 = { c with nodes := c.nodes ++ [_] } from rfl,
          origin_data_append, if_pos hn]
        cases hgj : (List.replicate kind.sig.num_output_ports OriginData.empty).get? j with
        | none => rfl
        | some x =>
          have hx : x = OriginData.empty := List.eq_of_mem_replicate (List.get?_mem hgj)
          rw [hx]
          rfl
      · rw [if_neg hn] at ho
        exact Or.inl ho
    | Arg r j =>
      rw [show (create_node c kind rid).1 = { c with nodes := c.nodes ++ [_] } from rfl,
        origin_data_append_arg] at ho
      exact Or.inl ho
  · intro o ho
    cases o with
    | Out n j =>
      have hn : n < c.nodes.length := by
        rcases Nat.lt_or_ge n c.nodes.length with hlt | hge
        · exact hlt
        · exfalso
          have hnone : node_data c n = none := by
            simp only [node_data]
            exact List.get?_eq_none.2 hge
          simp only [origin_data, hnone] at ho
          cases ho
      rw [show (create_node c kind rid).1 = { c with nodes := c.nodes ++ [_] } from rfl,
        origin_data_append]
      rw [if_neg (Nat.ne_of_lt hn)]
      exact ho
    | Arg r j =>
      rw [show (create_node c kind rid).1 = { c with nodes := c.nodes ++ [_] } from rfl,
        origin_data_append_arg]
      exact ho

theorem origin_data_virt_of_some {c : NodeCtxt S} {kind : NodeKind S} {rid : RegionId}
    {acc : List UserData} {origin : OriginId} {od : OriginData}
    (h : origin_data c origin = some od) :
    origin_data (virt c kind rid acc) origin = some od := by
  cases origin with
  | Out n j =>
    have hn : n < c.nodes.length := by
      rcases Nat.lt_or_ge n c.nodes.length with hlt | hge
      · exact hlt
      · exfalso
        have hnone : node_data c n = none := by
          simp only [node_data]
          exact List.get?_eq_none.2 hge
        simp only [origin_data, hnone] at h
        cases h
    rw [origin_data_virt_out, if_neg (Nat.ne_of_lt hn)]
    exact h
  | Arg r j =>
    rw [origin_data_virt_arg]
    exact h

theorem user_data_virt_of_some {c : NodeCtxt S} {kind : NodeKind S} {rid : RegionId}
    {acc : List UserData} {u : UserId} {ud : UserData}
    (h : user_data c u = some ud) :
    user_data (virt c kind rid acc) u = some ud := by
  cases u with
  | In n j =>
    have hn : n < c.nodes.length := by
      rcases Nat.lt_or_ge n c.nodes.length with hlt | hge
      · exact hlt
      · exfalso
        have hnone : node_data c n = none := by
          simp only [node_data]
          exact List.get?_eq_none.2 hge
        simp only [user_data, hnone] at h
        cases h
    rw [user_data_virt_in, if_neg (Nat.ne_of_lt hn)]
    exact h
  | Res r j =>
    rw [user_data_virt_res]
    exact h

theorem linkInputs_arena_step [Sig S] {kind : NodeKind S} {rid : RegionId}
    {c cB cC : NodeCtxt S} {origin : OriginId} {od : OriginData} {ul : UserIdList}
    {l : UserId} {node_id i : Nat} {acc : List UserData}
    (hnode : node_id = c.nodes.length) (hi : acc.length = i)
    (hG : GraphOk (virt c kind rid acc))
    (hodm : origin_data c origin = some od)
    (hus : od.users = some ul)
    (hleq : ul.last = l)
    (hsu : set_user c l (fun x => { x with next_user := some (UserId.In node_id i) }) =
      some cB)
    (hso : set_origin_users cB origin (some ⟨ul.first, .In node_id i⟩) = some cC) :
    GraphOk (virt cC kind rid (acc ++ [mkSlot origin (some l)])) ∧
    cC.nodes.length = c.nodes.length ∧
    cC.interned_nodes = c.interned_nodes ∧ cC.config = c.config ∧
    (∀ n nd, c.nodes.get? n = some nd → ∃ nd1, cC.nodes.get? n = some nd1 ∧
      nd1.kind = nd.kind ∧ nd1.ins.length = nd.ins.length ∧
      nd1.outs.length = nd.outs.length) := by
  obtain ⟨ldB, hldB, hBat, hBoth, hBor, hBint, hBcfg, hBlen, hBshape⟩ := set_user_some hsu
  obtain ⟨odC, hodC, hCato, hCoth, hCusers, hCint, hCcfg, hClen, hCshape⟩ :=
    set_origin_users_some hso
  have hodCe : odC = od := by
    rw [hBor origin, hodm] at hodC
    exact (Option.some.inj hodC).symm
  rw [hodCe] at hCato
  have hvod : origin_data (virt c kind rid acc) origin = some od :=
    origin_data_virt_of_some hodm
  have hvw : user_data (virt c kind rid acc) (.In node_id i) = none := by
    rw [hnode, user_data_virt_in, if_pos rfl, ← hi]
    exact List.get?_eq_none.2 (le_refl acc.length)
  have hwclean : ∀ x, uOrigin (virt c kind rid acc) (.In node_id i) = some x →
      x = none := by
    intro x hx
    rw [uOrigin, hvw] at hx
    cases hx
  have hov : (origin_data (virt c kind rid acc) origin).isSome := by simp [hvod]
  have hulv : userListOf (virt c kind rid acc) origin = some ul := by
    simp only [userListOf, hvod, hus]
  have hldv : user_data (virt c kind rid acc) l = some ldB :=
    user_data_virt_of_some hldB
  have hlenCC : cC.nodes.length = c.nodes.length := by rw [hClen, hBlen]
  have hnodeC : node_id = cC.nodes.length := by rw [hlenCC]; exact hnode
  have hlnotnew : ∀ j, l ≠ UserId.In node_id j := by
    intro j he
    subst he
    have : node_data c node_id = none := by
      simp only [node_data]
      exact List.get?_eq_none.2 (by rw [hnode])
    simp only [user_data, this] at hldB
    cases hldB
  have hvnew : ∀ j, user_data (virt cC kind rid (acc ++ [mkSlot origin (some l)]))
      (.In node_id j) = (acc ++ [mkSlot origin (some l)]).get? j := by
    intro j
    rw [hnodeC, user_data_virt_in, if_pos rfl]
  have hwrec : user_data (virt cC kind rid (acc ++ [mkSlot origin (some l)]))
      (.In node_id i) = some (mkSlot origin (some l)) := by
    rw [hvnew i, ← hi]
    exact get?_concat_len acc _
  have hlrec : user_data (virt cC kind rid (acc ++ [mkSlot origin (some l)])) l =
      some { ldB with next_user := some (UserId.In node_id i) } := by
    have hCl : user_data cC l = some { ldB with next_user := some (UserId.In node_id i) } := by
      rw [hCusers l]
      exact hBat
    exact user_data_virt_of_some hCl
  have hagree : ∀ u, u ≠ UserId.In node_id i → u ≠ l →
      user_data (virt cC kind rid (acc ++ [mkSlot origin (some l)])) u =
      user_data (virt c kind rid acc) u := by
    intro u hu hul2
    cases u with
    | In n j =>
      by_cases hn : n = node_id
      · subst hn
        have hj : j ≠ i := by
          intro he
          subst he
          exact hu rfl
        rw [hvnew j, hnode, user_data_virt_in, if_pos rfl,
          get?_concat_ne (by rw [hi]; exact hj)]
      · rw [user_data_virt_in, user_data_virt_in,
          if_neg (fun he => hn (by rw [hnodeC]; exact he)),
          if_neg (fun he => hn (by rw [hnode]; exact he))]
        rw [hCusers (.In n j), hBoth (.In n j) hul2]
    | Res r j =>
      rw [user_data_virt_res, user_data_virt_res, hCusers (.Res r j),
        hBoth (.Res r j) hul2]
  have hoodC : ∀ o', origin_data (virt cC kind rid (acc ++ [mkSlot origin (some l)])) o' =
      if o' = origin then
        some { od with users := some ⟨ul.first, .In node_id i⟩ }
      else origin_data (virt c kind rid acc) o' := by
    intro o'
    by_cases ho' : o' = origin
    · rw [if_pos ho', ho']
      exact origin_data_virt_of_some hCato
    · rw [if_neg ho']
      cases o' with
      | Out n j =>
        rw [origin_data_virt_out, origin_data_virt_out]
        by_cases hn : n = c.nodes.length
        · rw [if_pos (by rw [hlenCC]; exact hn), if_pos hn]
        · rw [if_neg (fun he => hn (by rw [← hlenCC]; exact he)), if_neg hn]
          rw [hCoth (.Out n j) ho', hBor (.Out n j)]
      | Arg r j =>
        rw [origin_data_virt_arg, origin_data_virt_arg, hCoth (.Arg r j) ho',
          hBor (.Arg r j)]
  have hGC : GraphOk (virt cC kind rid (acc ++ [mkSlot origin (some l)])) := by
    refine GraphOk_append_user hG hwclean hov ?_ ?_ ?_ ?_ ?_
    · intro o'
      rw [hoodC o']
      by_cases ho' : o' = origin
      · rw [if_pos ho', ho']
        simp [hvod]
      · rw [if_neg ho']
    · intro o' ho'
      simp only [userListOf]
      rw [hoodC o', if_neg ho']
    · rw [uOrigin_of hwrec]
      rfl
    · rw [uNext_of hwrec]
      rfl
    · refine Or.inr ⟨ul.first, l, ldB, ?_, ?_, hldv, hlrec, hagree, ?_⟩
      · rw [hulv, ← hleq]
      · rw [uPrev_of hwrec]
        rfl
      · simp only [userListOf]
        rw [hoodC origin, if_pos rfl]
  refine ⟨hGC, hlenCC, by rw [hCint, hBint], by rw [hCcfg, hBcfg], ?_⟩
  intro n nd hnd
  obtain ⟨nd1, h1, h2, h3, h4⟩ := hBshape n nd hnd
  obtain ⟨nd2, g1, g2, g3, g4⟩ := hCshape n nd1 h1
  refine ⟨nd2, g1, g2.trans h2, ?_, ?_⟩
  · rw [g3]
    exact h3
  · rw [g4, h4]

theorem linkInputs_buffer_step [Sig S] {kind : NodeKind S} {rid : RegionId}
    {c cC : NodeCtxt S} {origin : OriginId} {od : OriginData} {ul : UserIdList}
    {node_id i idx : Nat} {acc accB : List UserData}
    (hnode : node_id = c.nodes.length) (hi : acc.length = i)
    (hG : GraphOk (virt c kind rid acc))
    (hodm : origin_data c origin = some od)
    (hus : od.users = some ul)
    (hleq : ul.last = UserId.In node_id idx)
    (hlm : listModify? acc idx
      (fun x => { x with next_user := some (UserId.In node_id i) }) = some accB)
    (hso : set_origin_users c origin (some ⟨ul.first, .In node_id i⟩) = some cC) :
    GraphOk (virt cC kind rid (accB ++ [mkSlot origin (some ul.last)])) ∧
    cC.nodes.length = c.nodes.length ∧ accB.length = acc.length ∧
    cC.interned_nodes = c.interned_nodes ∧ cC.config = c.config ∧
    (∀ n nd, c.nodes.get? n = some nd → ∃ nd1, cC.nodes.get? n = some nd1 ∧
      nd1.kind = nd.kind ∧ nd1.ins.length = nd.ins.length ∧
      nd1.outs.length = nd.outs.length) := by
  obtain ⟨ldB, hldB, hlenB, hgetB, hothB⟩ := listModify?_some hlm
  obtain ⟨odC, hodC, hCato, hCoth, hCusers, hCint, hCcfg, hClen, hCshape⟩ :=
    set_origin_users_some hso
  have hodCe : odC = od := by
    rw [hodm] at hodC
    exact (Option.some.inj hodC).symm
  rw [hodCe] at hCato
  have hvod : origin_data (virt c kind rid acc) origin = some od :=
    origin_data_virt_of_some hodm
  have hvw : user_data (virt c kind rid acc) (.In node_id i) = none := by
    rw [hnode, user_data_virt_in, if_pos rfl, ← hi]
    exact List.get?_eq_none.2 (le_refl acc.length)
  have hwclean : ∀ x, uOrigin (virt c kind rid acc) (.In node_id i) = some x →
      x = none := by
    intro x hx
    rw [uOrigin, hvw] at hx
    cases hx
  have hov : (origin_data (virt c kind rid acc) origin).isSome := by simp [hvod]
  have hulv : userListOf (virt c kind rid acc) origin = some ul := by
    simp only [userListOf, hvod, hus]
  have hidx : idx < acc.length := (List.get?_eq_some.1 hldB).1
  have hidxi : idx ≠ i := by omega
  have hldv : user_data (virt c kind rid acc) (.In node_id idx) = some ldB := by
    rw [hnode, user_data_virt_in, if_pos rfl]
    exact hldB
  have hnodeC : node_id = cC.nodes.length := by rw [hClen]; exact hnode
  have hvnew : ∀ j, user_data (virt cC kind rid (accB ++ [mkSlot origin (some ul.last)]))
      (.In node_id j) = (accB ++ [mkSlot origin (some ul.last)]).get? j := by
    intro j
    rw [hnodeC, user_data_virt_in, if_pos rfl]
  have hwrec : user_data (virt cC kind rid (accB ++ [mkSlot origin (some ul.last)]))
      (.In node_id i) = some (mkSlot origin (some ul.last)) := by
    rw [hvnew i]
    rw [show i = accB.length from by omega]
    exact get?_concat_len accB _
  have hlrec : user_data (virt cC kind rid (accB ++ [mkSlot origin (some ul.last)]))
      (.In node_id idx) =
      some { ldB with next_user := some (UserId.In node_id i) } := by
    rw [hvnew idx, get?_concat_ne (by omega)]
    exact hgetB
  have hagree : ∀ u, u ≠ UserId.In node_id i → u ≠ UserId.In node_id idx →
      user_data (virt cC kind rid (accB ++ [mkSlot origin (some ul.last)])) u =
      user_data (virt c kind rid acc) u := by
    intro u hu hul2
    cases u with
    | In n j =>
      by_cases hn : n = node_id
      · subst hn
        have hj : j ≠ i := by
          intro he
          subst he
          exact hu rfl
        have hj2 : j ≠ idx := by
          intro he
          subst he
          exact hul2 rfl
        rw [hvnew j, hnode, user_data_virt_in, if_pos rfl,
          get?_concat_ne (by omega), hothB j hj2]
      · rw [user_data_virt_in, user_data_virt_in,
          if_neg (fun he => hn (by rw [hnodeC]; exact he)),
          if_neg (fun he => hn (by rw [hnode]; exact he))]
        exact hCusers (.In n j)
    | Res r j =>
      rw [user_data_virt_res, user_data_virt_res]
      exact hCusers (.Res r j)
  have hoodC : ∀ o', origin_data (virt cC kind rid (accB ++ [mkSlot origin (some ul.last)])) o' =
      if o' = origin then
        some { od with users := some ⟨ul.first, .In node_id i⟩ }
      else origin_data (virt c kind rid acc) o' := by
    intro o'
    by_cases ho' : o' = origin
    · rw [if_pos ho', ho']
      exact origin_data_virt_of_some hCato
    · rw [if_neg ho']
      cases o' with
      | Out n j =>
        rw [origin_data_virt_out, origin_data_virt_out]
        by_cases hn : n = c.nodes.length
        · rw [if_pos (by rw [hClen]; exact hn), if_pos hn]
        · rw [if_neg (fun he => hn (by rw [← hClen]; exact he)), if_neg hn]
          rw [hCoth (.Out n j) ho']
      | Arg r j =>
        rw [origin_data_virt_arg, origin_data_virt_arg, hCoth (.Arg r j) ho']
  have hGC : GraphOk (virt cC kind rid (accB ++ [mkSlot origin (some ul.last)])) := by
    refine GraphOk_append_user hG hwclean hov ?_ ?_ ?_ ?_ ?_
    · intro o'
      rw [hoodC o']
      by_cases ho' : o' = origin
      · rw [if_pos ho', ho']
        simp [hvod]
      · rw [if_neg ho']
    · intro o' ho'
      simp only [userListOf]
      rw [hoodC o', if_neg ho']
    · rw [uOrigin_of hwrec]
      rfl
    · rw [uNext_of hwrec]
      rfl
    · refine Or.inr ⟨ul.first, ul.last, ldB, ?_, ?_, ?_, ?_, ?_, ?_⟩
      · rw [hulv]
      · rw [uPrev_of hwrec]
        rfl
      · have h3 := hldv
        rw [← hleq] at h3
        exact h3
      · have h4 := hlrec
        rw [← hleq] at h4
        exact h4
      · intro u hu hul2
        refine hagree u hu ?_
        rw [← hleq]
        exact hul2
      · simp only [userListOf]
        rw [hoodC origin, if_pos rfl]
  refine ⟨hGC, hClen, hlenB, hCint, hCcfg, ?_⟩
  intro n nd hnd
  obtain ⟨nd1, h1, h2, h3, h4⟩ := hCshape n nd hnd
  refine ⟨nd1, h1, h2, ?_, h4⟩
  rw [h3]

theorem linkInputs_spec [Sig S] {kind : NodeKind S} {rid : RegionId} :
    ∀ (origins : List OriginId) (node_id : Nat) (c : NodeCtxt S) (i : Nat)
      (acc : List UserData) (c1 : NodeCtxt S) (acc1 : List UserData),
      linkInputs node_id c origins i acc = some (c1, acc1) →
      node_id = c.nodes.length → acc.length = i →
      GraphOk (virt c kind rid acc) →
      GraphOk (virt c1 kind rid acc1) ∧
      c1.nodes.length = c.nodes.length ∧
      acc1.length = acc.length + origins.length ∧
      c1.interned_nodes = c.interned_nodes ∧ c1.config = c.config ∧
      (∀ n nd, c.nodes.get? n = some nd → ∃ nd1, c1.nodes.get? n = some nd1 ∧
        nd1.kind = nd.kind ∧ nd1.ins.length = nd.ins.length ∧
        nd1.outs.length = nd.outs.length) := by
  intro origins
  induction origins with
  | nil =>
    intro node_id c i acc c1 acc1 h hnode hi hG
    simp only [linkInputs, Option.some.injEq, Prod.mk.injEq] at h
    obtain ⟨hc, ha⟩ := h
    subst hc
    subst ha
    exact ⟨hG, rfl, by simp, rfl, rfl, fun n nd hnd => ⟨nd, hnd, rfl, rfl, rfl⟩⟩
  | cons origin rest ih =>
    intro node_id c i acc c1 acc1 h hnode hi hG
    simp only [linkInputs] at h
    cases hodm : origin_data c origin with
    | none => simp only [hodm] at h; cases h
    | some od =>
      simp only [hodm] at h
      have hvod : origin_data (virt c kind rid acc) origin = some od :=
        origin_data_virt_of_some hodm
      have hvw : user_data (virt c kind rid acc) (.In node_id i) = none := by
        rw [hnode, user_data_virt_in, if_pos rfl, ← hi]
        exact List.get?_eq_none.2 (le_refl acc.length)
      have hwclean : ∀ x, uOrigin (virt c kind rid acc) (.In node_id i) = some x →
          x = none := by
        intro x hx
        rw [uOrigin, hvw] at hx
        cases hx
      cases hus : od.users with
      | none =>
        simp only [hus] at h
        cases hsm : set_origin_users c origin
            (some ⟨.In node_id i, .In node_id i⟩) with
        | none => simp only [hsm] at h; cases h
        | some cA =>
          simp only [hsm] at h
          obtain ⟨odA, hodA, hatoA, hothA, husersA, hintA, hcfgA, hlenA, hshapeA⟩ :=
            set_origin_users_some hsm
          have hodAe : odA = od := by
            rw [hodA] at hodm
            exact Option.some.inj hodm
          rw [hodAe] at hatoA
          have hnodeA : node_id = cA.nodes.length := by rw [hlenA]; exact hnode
          have hvnew : ∀ j, user_data (virt cA kind rid (acc ++ [mkSlot origin none]))
              (.In node_id j) = (acc ++ [mkSlot origin none]).get? j := by
            intro j
            rw [hnodeA, user_data_virt_in, if_pos rfl]
          have hwrec : user_data (virt cA kind rid (acc ++ [mkSlot origin none]))
              (.In node_id i) = some (mkSlot origin none) := by
            rw [hvnew i, ← hi]
            exact get?_concat_len acc _
          have hagree : ∀ u, u ≠ UserId.In node_id i →
              user_data (virt cA kind rid (acc ++ [mkSlot origin none])) u =
              user_data (virt c kind rid acc) u := by
            intro u hu
            cases u with
            | In n j =>
              by_cases hn : n = node_id
              · subst hn
                have hj : j ≠ i := by
                  intro he
                  subst he
                  exact hu rfl
                rw [hvnew j, hnode, user_data_virt_in, if_pos rfl,
                  get?_concat_ne (by rw [hi]; exact hj)]
              · rw [user_data_virt_in, user_data_virt_in,
                  if_neg (fun he => hn (by rw [hnodeA]; exact he)),
                  if_neg (fun he => hn (by rw [hnode]; exact he))]
                exact husersA (.In n j)
            | Res r j =>
              rw [user_data_virt_res, user_data_virt_res]
              exact husersA (.Res r j)
          have hoodA : ∀ o', origin_data (virt cA kind rid (acc ++ [mkSlot origin none])) o' =
              if o' = origin then
                some { od with users := some ⟨.In node_id i, .In node_id i⟩ }
              else origin_data (virt c kind rid acc) o' := by
            intro o'
            by_cases ho' : o' = origin
            · rw [if_pos ho']
              rw [ho']
              exact origin_data_virt_of_some hatoA
            · rw [if_neg ho']
              cases o' with
              | Out n j =>
                rw [origin_data_virt_out, origin_data_virt_out]
                by_cases hn : n = c.nodes.length
                · rw [if_pos (by rw [hlenA]; exact hn), if_pos hn]
                · rw [if_neg (fun he => hn (by rw [← hlenA]; exact he)), if_neg hn]
                  exact hothA (.Out n j) ho'
              | Arg r j =>
                rw [origin_data_virt_arg, origin_data_virt_arg]
                exact hothA (.Arg r j) ho'
          have hov : (origin_data (virt c kind rid acc) origin).isSome := by
            simp [hvod]
          have hGA : GraphOk (virt cA kind rid (acc ++ [mkSlot origin none])) := by
            refine GraphOk_append_user hG hwclean hov ?_ ?_ ?_ ?_ ?_
            · intro o'
              rw [hoodA o']
              by_cases ho' : o' = origin
              · rw [if_pos ho', ho']
                simp [hvod]
              · rw [if_neg ho']
            · intro o' ho'
              simp only [userListOf]
              rw [hoodA o', if_neg ho']
            · rw [uOrigin_of hwrec]
              rfl
            · rw [uNext_of hwrec]
              rfl
            · refine Or.inl ⟨?_, ?_, hagree, ?_⟩
              · simp only [userListOf, hvod, hus]
              · rw [uPrev_of hwrec]
                rfl
              · simp only [userListOf]
                rw [hoodA origin, if_pos rfl]
          obtain ⟨hg1, hg2, hg3, hg4, hg5, hg6⟩ :=
            ih node_id cA (i + 1) _ c1 acc1 h hnodeA (by simp [hi]) hGA
          refine ⟨hg1, by rw [hg2, hlenA], ?_, by rw [hg4, hintA], by rw [hg5, hcfgA], ?_⟩
          · rw [hg3]
            simp
            omega
          · intro n nd hnd
            obtain ⟨nd1, h1, h2, h3, h4⟩ := hshapeA n nd hnd
            obtain ⟨nd2, g1, g2, g3, g4⟩ := hg6 n nd1 h1
            refine ⟨nd2, g1, g2.trans h2, ?_, g4.trans h4⟩
            rw [g3, h3]
      | some ul =>
        simp only [hus] at h
        cases hlast : ul.last with
        | In n idx =>
          simp only [hlast] at h
          by_cases hn : n = node_id
          · subst hn
            rw [if_pos rfl] at h
            cases hlm : listModify? acc idx
                (fun x => { x with next_user := some (UserId.In n i) }) with
            | none => simp only [hlm] at h; cases h
            | some accB =>
              simp only [hlm] at h
              cases hso : set_origin_users c origin
                  (some ⟨ul.first, .In n i⟩) with
              | none => simp only [hso] at h; cases h
              | some cC =>
                simp only [hso] at h
                obtain ⟨hGC, hlenC, hlenB, hintC, hcfgC, hshapeC⟩ :=
                  linkInputs_buffer_step hnode hi hG hodm hus hlast hlm hso
                rw [hlast] at hGC
                obtain ⟨hg1, hg2, hg3, hg4, hg5, hg6⟩ :=
                  ih n cC (i + 1) _ c1 acc1 h (by rw [hlenC]; exact hnode)
                    (by simp [hlenB, hi]) hGC
                refine ⟨hg1, by rw [hg2, hlenC], ?_, by rw [hg4, hintC],
                  by rw [hg5, hcfgC], ?_⟩
                · rw [hg3]
                  simp [hlenB]
                  omega
                · intro m nd hnd
                  obtain ⟨nd1, h1, h2, h3, h4⟩ := hshapeC m nd hnd
                  obtain ⟨nd2, g1, g2, g3, g4⟩ := hg6 m nd1 h1
                  exact ⟨nd2, g1, g2.trans h2, by rw [g3, h3], by rw [g4, h4]⟩
          · rw [if_neg hn] at h
            cases hsu : set_user c (.In n idx)
                (fun x => { x with next_user := some (UserId.In node_id i) }) with
            | none => simp only [hsu] at h; cases h
            | some cB =>
              simp only [hsu] at h
              cases hso : set_origin_users cB origin
                  (some ⟨ul.first, .In node_id i⟩) with
              | none => simp only [hso] at h; cases h
              | some cC =>
                simp only [hso] at h
                obtain ⟨hGC, hlenC, hintC, hcfgC, hshapeC⟩ :=
                  linkInputs_arena_step hnode hi hG hodm hus hlast hsu hso
                obtain ⟨hg1, hg2, hg3, hg4, hg5, hg6⟩ :=
                  ih node_id cC (i + 1) _ c1 acc1 h (by rw [hlenC]; exact hnode)
                    (by simp [hi]) hGC
                refine ⟨hg1, by rw [hg2, hlenC], ?_, by rw [hg4, hintC],
                  by rw [hg5, hcfgC], ?_⟩
                · rw [hg3]
                  simp
                  omega
                · intro m nd hnd
                  obtain ⟨nd1, h1, h2, h3, h4⟩ := hshapeC m nd hnd
                  obtain ⟨nd2, g1, g2, g3, g4⟩ := hg6 m nd1 h1
                  exact ⟨nd2, g1, g2.trans h2, by rw [g3, h3], by rw [g4, h4]⟩
        | Res r idx =>
          simp only [hlast] at h
          cases hsu : set_user c (.Res r idx)
              (fun x => { x with next_user := some (UserId.In node_id i) }) with
          | none => simp only [hsu] at h; cases h
          | some cB =>
            simp only [hsu] at h
            cases hso : set_origin_users cB origin
                (some ⟨ul.first, .In node_id i⟩) with
            | none => simp only [hso] at h; cases h
            | some cC =>
              simp only [hso] at h
              obtain ⟨hGC, hlenC, hintC, hcfgC, hshapeC⟩ :=
                linkInputs_arena_step hnode hi hG hodm hus hlast hsu hso
              obtain ⟨hg1, hg2, hg3, hg4, hg5, hg6⟩ :=
                ih node_id cC (i + 1) _ c1 acc1 h (by rw [hlenC]; exact hnode)
                  (by simp [hi]) hGC
              refine ⟨hg1, by rw [hg2, hlenC], ?_, by rw [hg4, hintC],
                by rw [hg5, hcfgC], ?_⟩
              · rw [hg3]
                simp
                omega
              · intro m nd hnd
                obtain ⟨nd1, h1, h2, h3, h4⟩ := hshapeC m nd hnd
                obtain ⟨nd2, g1, g2, g3, g4⟩ := hg6 m nd1 h1
                exact ⟨nd2, g1, g2.trans h2, by rw [g3, h3], by rw [g4, h4]⟩

theorem linkInputs_frame :
    ∀ (origins : List OriginId) (node_id : Nat) (c : NodeCtxt S) (i : Nat)
      (acc : List UserData) (c1 : NodeCtxt S) (acc1 : List UserData),
      linkInputs node_id c origins i acc = some (c1, acc1) →
      c1.nodes.length = c.nodes.length ∧
      acc1.length = acc.length + origins.length ∧
      c1.interned_nodes = c.interned_nodes ∧ c1.config = c.config ∧
      (∀ n nd, c.nodes.get? n = some nd → ∃ nd1, c1.nodes.get? n = some nd1 ∧
        nd1.kind = nd.kind ∧ nd1.ins.length = nd.ins.length ∧
        nd1.outs.length = nd.outs.length) := by
  intro origins
  induction origins with
  | nil =>
    intro node_id c i acc c1 acc1 h
    simp only [linkInputs, Option.some.injEq, Prod.mk.injEq] at h
    obtain ⟨hc, ha⟩ := h
    subst hc
    subst ha
    exact ⟨rfl, by simp, rfl, rfl, fun n nd hnd => ⟨nd, hnd, rfl, rfl, rfl⟩⟩
  | cons origin rest ih =>
    intro node_id c i acc c1 acc1 h
    simp only [linkInputs] at h
    cases hodm : origin_data c origin with
    | none => simp only [hodm] at h; cases h
    | some od =>
      simp only [hodm] at h
      cases hus : od.users with
      | none =>
        simp only [hus] at h
        cases hsm : set_origin_users c origin
            (some ⟨.In node_id i, .In node_id i⟩) with
        | none => simp only [hsm] at h; cases h
        | some cA =>
          simp only [hsm] at h
          obtain ⟨odA, _, _, _, _, hintA, hcfgA, hlenA, hshapeA⟩ :=
            set_origin_users_some hsm
          obtain ⟨hg1, hg2, hg3, hg4, hg5⟩ := ih node_id cA (i + 1) _ c1 acc1 h
          refine ⟨by rw [hg1, hlenA], by rw [hg2]; simp; omega,
            by rw [hg3, hintA], by rw [hg4, hcfgA], ?_⟩
          intro n nd hnd
          obtain ⟨nd1, h1, h2, h3, h4⟩ := hshapeA n nd hnd
          obtain ⟨nd2, g1, g2, g3, g4⟩ := hg5 n nd1 h1
          exact ⟨nd2, g1, g2.trans h2, by rw [g3, h3], g4.trans h4⟩
      | some ul =>
        simp only [hus] at h
        cases hlast : ul.last with
        | In n idx =>
          simp only [hlast] at h
          by_cases hn : n = node_id
          · subst hn
            rw [if_pos rfl] at h
            cases hlm : listModify? acc idx
                (fun x => { x with next_user := some (UserId.In n i) }) with
            | none => simp only [hlm] at h; cases h
            | some accB =>
              simp only [hlm] at h
              cases hso : set_origin_users c origin
                  (some ⟨ul.first, .In n i⟩) with
              | none => simp only [hso] at h; cases h
              | some cC =>
                simp only [hso] at h
                obtain ⟨_, hldB, hlenB, _, _⟩ := listModify?_some hlm
                obtain ⟨odC, _, _, _, _, hintC, hcfgC, hlenC, hshapeC⟩ :=
                  set_origin_users_some hso
                obtain ⟨hg1, hg2, hg3, hg4, hg5⟩ := ih n cC (i + 1) _ c1 acc1 h
                refine ⟨by rw [hg1, hlenC], by rw [hg2]; simp [hlenB]; omega,
                  by rw [hg3, hintC], by rw [hg4, hcfgC], ?_⟩
                intro m nd hnd
                obtain ⟨nd1, h1, h2, h3, h4⟩ := hshapeC m nd hnd
                obtain ⟨nd2, g1, g2, g3, g4⟩ := hg5 m nd1 h1
                exact ⟨nd2, g1, g2.trans h2, by rw [g3, h3], by rw [g4, h4]⟩
          · rw [if_neg hn] at h
            cases hsu : set_user c (.In n idx)
                (fun x => { x with next_user := some (UserId.In node_id i) }) with
            | none => simp only [hsu] at h; cases h
            | some cB =>
              simp only [hsu] at h
              cases hso : set_origin_users cB origin
                  (some ⟨ul.first, .In node_id i⟩) with
              | none => simp only [hso] at h; cases h
              | some cC =>
                simp only [hso] at h
                obtain ⟨_, _, _, _, _, hintB, hcfgB, hlenB, hshapeB⟩ :=
                  set_user_some hsu
                obtain ⟨odC, _, _, _, _, hintC, hcfgC, hlenC, hshapeC⟩ :=
                  set_origin_users_some hso
                obtain ⟨hg1, hg2, hg3, hg4, hg5⟩ := ih node_id cC (i + 1) _ c1 acc1 h
                refine ⟨by rw [hg1, hlenC, hlenB], by rw [hg2]; simp; omega,
                  by rw [hg3, hintC, hintB], by rw [hg4, hcfgC, hcfgB], ?_⟩
                intro m nd hnd
                obtain ⟨nd1, h1, h2, h3, h4⟩ := hshapeB m nd hnd
                obtain ⟨nd2, g1, g2, g3, g4⟩ := hshapeC m nd1 h1
                obtain ⟨nd3, k1, k2, k3, k4⟩ := hg5 m nd2 g1
                refine ⟨nd3, k1, k2.trans (g2.trans h2), ?_, ?_⟩
                · rw [k3, g3, h3]
                · rw [k4, g4, h4]
        | Res r idx =>
          simp only [hlast] at h
          cases hsu : set_user c (.Res r idx)
              (fun x => { x with next_user := some (UserId.In node_id i) }) with
          | none => simp only [hsu] at h; cases h
          | some cB =>
            simp only [hsu] at h
            cases hso : set_origin_users cB origin
                (some ⟨ul.first, .In node_id i⟩) with
            | none => simp only [hso] at h; cases h
            | some cC =>
              simp only [hso] at h
              obtain ⟨_, _, _, _, _, hintB, hcfgB, hlenB, hshapeB⟩ :=
                set_user_some hsu
              obtain ⟨odC, _, _, _, _, hintC, hcfgC, hlenC, hshapeC⟩ :=
                set_origin_users_some hso
              obtain ⟨hg1, hg2, hg3, hg4, hg5⟩ := ih node_id cC (i + 1) _ c1 acc1 h
              refine ⟨by rw [hg1, hlenC, hlenB], by rw [hg2]; simp; omega,
                by rw [hg3, hintC, hintB], by rw [hg4, hcfgC, hcfgB], ?_⟩
              intro m nd hnd
              obtain ⟨nd1, h1, h2, h3, h4⟩ := hshapeB m nd hnd
              obtain ⟨nd2, g1, g2, g3, g4⟩ := hshapeC m nd1 h1
              obtain ⟨nd3, k1, k2, k3, k4⟩ := hg5 m nd2 g1
              refine ⟨nd3, k1, k2.trans (g2.trans h2), ?_, ?_⟩
              · rw [k3, g3, h3]
              · rw [k4, g4, h4]

theorem graphOk_virt_nil {c : NodeCtxt S} {kind : NodeKind S} {rid : RegionId}
    (hG : GraphOk c) : GraphOk (virt c kind rid []) := by
  refine GraphOk_extend ?_ ?_ ?_ ?_ hG
  · intro u
    left
    cases u with
    | In n i =>
      rw [user_data_virt_in]
      by_cases hn : n = c.nodes.length
      · rw [if_pos hn]
        subst hn
        have : node_data c c.nodes.length = none := by
          simp only [node_data]
          exact List.get?_eq_none.2 (le_refl _)
        simp only [user_data, this]
        rfl
      · rw [if_neg hn]
    | Res r i => exact user_data_virt_res c kind rid [] r i
  · intro o ho
    cases o with
    | Out n j =>
      have hn : n < c.nodes.length := by
        rcases Nat.lt_or_ge n c.nodes.length with hlt | hge
        · exact hlt
        · exfalso
          have hnone : node_data c n = none := by
            simp only [node_data]
            exact List.get?_eq_none.2 hge
          simp only [origin_data, hnone] at ho
          cases ho
      simp only [userListOf]
      rw [origin_data_virt_out, if_neg (Nat.ne_of_lt hn)]
    | Arg r j =>
      simp only [userListOf]
      rw [origin_data_virt_arg]
  · intro o ho
    cases o with
    | Out n j =>
      rw [origin_data_virt_out] at ho
      by_cases hn : n = c.nodes.length
      · rw [if_pos hn] at ho
        cases ho
      · rw [if_neg hn] at ho
        exact Or.inl ho
    | Arg r j =>
      rw [origin_data_virt_arg] at ho
      exact Or.inl ho
  · intro o ho
    cases o with
    | Out n j =>
      have hn : n < c.nodes.length := by
        rcases Nat.lt_or_ge n c.nodes.length with hlt | hge
        · exact hlt
        · exfalso
          have hnone : node_data c n = none := by
            simp only [node_data]
            exact List.get?_eq_none.2 hge
          simp only [origin_data, hnone] at ho
          cases ho
      rw [origin_data_virt_out, if_neg (Nat.ne_of_lt hn)]
      exact ho
    | Arg r j =>
      rw [origin_data_virt_arg]
      exact ho

theorem graphOk_commit {c : NodeCtxt S} {kind : NodeKind S} {rid : RegionId}
    {acc : List UserData} {m : Nat}
    (hG : GraphOk (virt c kind rid acc)) :
    GraphOk { c with nodes := c.nodes ++
      [{ ins := acc, outs := List.replicate m OriginData.empty,
         inner_regions := none, outer_region := rid, kind := kind }] } := by
  refine GraphOk_extend ?_ ?_ ?_ ?_ hG
  · intro u
    left
    cases u with
    | In n i =>
      rw [user_data_append, user_data_virt_in]
    | Res r i =>
      rw [user_data_append_res, user_data_virt_res]
  · intro o ho
    cases o with
    | Out n j =>
      have hn : n ≠ c.nodes.length := by
        intro he
        rw [origin_data_virt_out, if_pos he] at ho
        cases ho
      simp only [userListOf]
      rw [origin_data_append, if_neg hn, origin_data_virt_out, if_neg hn]
    | Arg r j =>
      simp only [userListOf]
      rw [origin_data_append_arg, origin_data_virt_arg]
  · intro o ho
    cases o with
    | Out n j =>
      by_cases hn : n = c.nodes.length
      · right
        simp only [userListOf]
        rw [origin_data_append, if_pos hn]
        cases hgj : (List.replicate m OriginData.empty).get? j with
        | none => rfl
        | some x =>
          have hx : x = OriginData.empty := List.eq_of_mem_replicate (List.get?_mem hgj)
          rw [hx]
          rfl
      · left
        rw [origin_data_append, if_neg hn] at ho
        rw [origin_data_virt_out, if_neg hn]
        exact ho
    | Arg r j =>
      rw [origin_data_append_arg] at ho
      left
      rw [origin_data_virt_arg]
      exact ho
  · intro o ho
    cases o with
    | Out n j =>
      have hn : n ≠ c.nodes.length := by
        intro he
        rw [origin_data_virt_out, if_pos he] at ho
        cases ho
      rw [origin_data_append, if_neg hn]
      rw [origin_data_virt_out, if_neg hn] at ho
      exact ho
    | Arg r j =>
      rw [origin_data_append_arg]
      rw [origin_data_virt_arg] at ho
      exact ho

/-- Characterization of a successful run of the `create_node` closure of
`mk_node_with`: fresh id, one new node of the right shape, untouched
interning table, structural invariant preserved. -/
theorem create_node_with_spec [Sig S] {c : NodeCtxt S} {kind : NodeKind S}
    {origins : List OriginId} {rid : RegionId} {c' : NodeCtxt S} {id : NodeId}
    (h : create_node_with c kind origins rid = some (c', id)) :
    id = c.nodes.length ∧ c'.nodes.length = c.nodes.length + 1 ∧
    c'.interned_nodes = c.interned_nodes ∧ c'.config = c.config ∧
    (GraphOk c → GraphOk c') ∧
    (∀ n nd, c.nodes.get? n = some nd → ∃ nd1, c'.nodes.get? n = some nd1 ∧
      nd1.kind = nd.kind ∧ nd1.ins.length = nd.ins.length ∧
      nd1.outs.length = nd.outs.length) ∧
    (∃ ndN, c'.nodes.get? id = some ndN ∧ ndN.kind = kind ∧
      ndN.ins.length = kind.sig.num_input_ports ∧
      ndN.outs.length = kind.sig.num_output_ports) := by
  simp only [create_node_with] at h
  cases hli : linkInputs c.nodes.length c origins 0 [] with
  | none => simp only [hli] at h; cases h
  | some p =>
    obtain ⟨cF, accF⟩ := p
    simp only [hli] at h
    by_cases hlen : accF.length = kind.sig.num_input_ports
    · rw [if_pos hlen] at h
      simp only [Option.some.injEq, Prod.mk.injEq] at h
      obtain ⟨hc, hid⟩ := h
      subst hc
      obtain ⟨hf1, hf2, hf3, hf4, hf5⟩ := linkInputs_frame origins c.nodes.length c 0 [] cF accF hli
      refine ⟨hid.symm, by simp [hf1], hf3, hf4, ?_, ?_, ?_⟩
      · intro hG
        have hGv : GraphOk (virt cF kind rid accF) :=
          (linkInputs_spec origins c.nodes.length c 0 [] cF accF hli rfl rfl
            (graphOk_virt_nil hG)).1
        have := graphOk_commit (m := kind.sig.num_output_ports) hGv
        have hre : ({ cF with nodes := cF.nodes ++
            [{ ins := accF, outs := List.replicate kind.sig.num_output_ports OriginData.empty,
               inner_regions := none, outer_region := rid, kind := kind }] } : NodeCtxt S) =
            { nodes := cF.nodes ++
                [{ ins := accF,
                   outs := List.replicate kind.sig.num_output_ports OriginData.empty,
                   inner_regions := none, outer_region := rid, kind := kind }],
              regions := cF.regions, interned_nodes := cF.interned_nodes,
              config := cF.config } := rfl
        exact this
      · intro n nd hnd
        obtain ⟨nd1, h1, h2, h3, h4⟩ := hf5 n nd hnd
        refine ⟨nd1, ?_, h2, h3, h4⟩
        have hn : n < cF.nodes.length := (List.get?_eq_some.1 h1).1
        rw [List.get?_append hn]
        exact h1
      · rw [← hid, ← hf1]
        exact ⟨_, get?_concat_len cF.nodes _, rfl, hlen, by simp⟩
    · rw [if_neg hlen] at h
      cases h

/-- Master characterization of `mk_node_with`: arity must match; the result
is either an interning hit (context unchanged) or a fresh node, with the
interning table extended exactly on the vacant pure path. -/
theorem mk_node_with_spec [Sig S] [DecidableEq S] {c : NodeCtxt S}
    {kind : NodeKind S} {origins : List OriginId} {c' : NodeCtxt S} {id : NodeId}
    (h : mk_node_with c kind origins = some (c', id)) :
    kind.sig.num_input_ports = origins.length ∧
    c'.config = c.config ∧
    (GraphOk c → GraphOk c') ∧
    (∀ n nd, c.nodes.get? n = some nd → ∃ nd1, c'.nodes.get? n = some nd1 ∧
      nd1.kind = nd.kind ∧ nd1.ins.length = nd.ins.length ∧
      nd1.outs.length = nd.outs.length) ∧
    ((c.config.opt_interning = true ∧ kind.sig.is_side_effectful = false ∧
      lookupTerm c.interned_nodes ⟨0, kind, origins⟩ = some id ∧ c' = c) ∨
     (id = c.nodes.length ∧ c'.nodes.length = c.nodes.length + 1 ∧
      (∃ ndN, c'.nodes.get? id = some ndN ∧ ndN.kind = kind ∧
        ndN.ins.length = kind.sig.num_input_ports ∧
        ndN.outs.length = kind.sig.num_output_ports) ∧
      ((c.config.opt_interning = true ∧ kind.sig.is_side_effectful = false ∧
        lookupTerm c.interned_nodes ⟨0, kind, origins⟩ = none ∧
        c'.interned_nodes = (⟨0, kind, origins⟩, id) :: c.interned_nodes) ∨
       (¬(c.config.opt_interning = true ∧ kind.sig.is_side_effectful = false) ∧
        c'.interned_nodes = c.interned_nodes)))) := by
  simp only [mk_node_with] at h
  by_cases harity : kind.sig.num_input_ports = origins.length
  · rw [if_pos harity] at h
    by_cases hflag : (c.config.opt_interning && !kind.sig.is_side_effectful) = true
    · rw [if_pos hflag] at h
      rw [Bool.and_eq_true, Bool.not_eq_true'] at hflag
      cases hlook : lookupTerm c.interned_nodes ⟨0, kind, origins⟩ with
      | some nid =>
        simp only [hlook, Option.some.injEq, Prod.mk.injEq] at h
        obtain ⟨hc, hid⟩ := h
        subst hc
        subst hid
        exact ⟨harity, rfl, fun hG => hG,
          fun n nd hnd => ⟨nd, hnd, rfl, rfl, rfl⟩,
          Or.inl ⟨hflag.1, hflag.2, rfl, rfl⟩⟩
      | none =>
        simp only [hlook] at h
        cases hcr : create_node_with c kind origins 0 with
        | none => simp only [hcr] at h; cases h
        | some p =>
          obtain ⟨c1, nid⟩ := p
          simp only [hcr, Option.some.injEq, Prod.mk.injEq] at h
          obtain ⟨hc, hid⟩ := h
          subst hid
          obtain ⟨hs1, hs2, hs3, hs4, hs5, hs6, hs7⟩ := create_node_with_spec hcr
          have hnodes : c'.nodes = c1.nodes := by rw [← hc]
          have hcfg : c'.config = c1.config := by rw [← hc]
          have hregs : c'.regions = c1.regions := by rw [← hc]
          have hint : c'.interned_nodes = (⟨0, kind, origins⟩, nid) :: c1.interned_nodes := by
            rw [← hc]
          refine ⟨harity, by rw [hcfg, hs4], ?_, ?_, ?_⟩
          · intro hG
            have hG1 := hs5 hG
            refine ⟨?_, ?_, ?_⟩
            · intro u
              have : user_data c' u = user_data c1 u := by
                cases u with
                | In n i => simp only [user_data, node_data, hnodes]
                | Res r i => simp only [user_data, region_data, hregs]
              intro hu
              rw [uOrigin_congr this] at hu
              have := hG1.clean u hu
              rw [uPrev_congr ‹user_data c' u = user_data c1 u›,
                uNext_congr ‹user_data c' u = user_data c1 u›]
              exact this
            · intro u o hu
              have heq : user_data c' u = user_data c1 u := by
                cases u with
                | In n i => simp only [user_data, node_data, hnodes]
                | Res r i => simp only [user_data, region_data, hregs]
              rw [uOrigin_congr heq] at hu
              have := hG1.valid_origin u o hu
              have heqo : origin_data c' o = origin_data c1 o := by
                cases o with
                | Out n j => simp only [origin_data, node_data, hnodes]
                | Arg r j => simp only [origin_data, region_data, hregs]
              rw [heqo]
              exact this
            · intro o
              have heqo : origin_data c' o = origin_data c1 o := by
                cases o with
                | Out n j => simp only [origin_data, node_data, hnodes]
                | Arg r j => simp only [origin_data, region_data, hregs]
              have heap : ∀ u, user_data c' u = user_data c1 u := by
                intro u
                cases u with
                | In n i => simp only [user_data, node_data, hnodes]
                | Res r i => simp only [user_data, region_data, hregs]
              constructor
              · intro hn u
                rw [uOrigin_congr (heap u)]
                refine ((hG1.chains o).1 ?_ u)
                simp only [userListOf, heqo] at hn
                simp only [userListOf]
                exact hn
              · intro f l hfl
                simp only [userListOf, heqo] at hfl
                obtain ⟨ulx, hch, hh, hl, hnd, hiff⟩ := (hG1.chains o).2 f l hfl
                refine ⟨ulx, isChain_congr ulx none (fun u _ => heap u) hch, hh, hl, hnd, ?_⟩
                intro u
                rw [uOrigin_congr (heap u)]
                exact hiff u
          · intro n nd hnd
            obtain ⟨nd1, h1, h2, h3, h4⟩ := hs6 n nd hnd
            refine ⟨nd1, ?_, h2, h3, h4⟩
            rw [hnodes]
            exact h1
          · refine Or.inr ⟨hs1, by rw [hnodes]; exact hs2, ?_, Or.inl ⟨hflag.1, hflag.2, rfl, by rw [hint, hs3]⟩⟩
            obtain ⟨ndN, k1, k2, k3, k4⟩ := hs7
            exact ⟨ndN, by rw [hnodes]; exact k1, k2, k3, k4⟩
    · rw [if_neg hflag] at h
      obtain ⟨hs1, hs2, hs3, hs4, hs5, hs6, hs7⟩ := create_node_with_spec h
      refine ⟨harity, hs4, hs5, hs6, Or.inr ⟨hs1, hs2, hs7, Or.inr ⟨?_, hs3⟩⟩⟩
      rintro ⟨ha, hb⟩
      rw [Bool.and_eq_true, Bool.not_eq_true'] at hflag
      exact hflag ⟨ha, hb⟩
  · rw [if_neg harity] at h
    cases h

theorem lookupTerm_mem [DecidableEq S] :
    ∀ {m : List (NodeTerm S × NodeId)} {t : NodeTerm S} {v : NodeId},
      lookupTerm m t = some v → (t, v) ∈ m := by
  intro m
  induction m with
  | nil => intro t v h; cases h
  | cons kv rest ih =>
    intro t v h
    obtain ⟨k, w⟩ := kv
    simp only [lookupTerm] at h
    by_cases hk : k = t
    · rw [if_pos hk] at h
      subst hk
      rw [Option.some.inj h]
      exact List.mem_cons_self _ _
    · rw [if_neg hk] at h
      exact List.mem_cons_of_mem _ (ih h)

theorem mk_node_with_internOk [Sig S] [DecidableEq S] {c c' : NodeCtxt S}
    {kind : NodeKind S} {origins : List OriginId} {id : NodeId}
    (hI : InternOk c) (h : mk_node_with c kind origins = some (c', id)) :
    InternOk c' := by
  obtain ⟨_, _, _, _, hdisj⟩ := mk_node_with_spec h
  rcases hdisj with ⟨_, _, _, hc⟩ | ⟨hid, hlen, _, hint⟩
  · rw [hc]
    exact hI
  · rcases hint with ⟨_, _, hlook, hins⟩ | ⟨_, hins⟩
    · constructor
      · intro kv hkv
        obtain ⟨tk, vk⟩ := kv
        rw [hins] at hkv
        rcases List.mem_cons.1 hkv with he | hm
        · injection he with he1 he2
          show vk < c'.nodes.length
          rw [he2, hid, hlen]
          exact Nat.lt_succ_self _
        · have h2 : vk < c.nodes.length := hI.lt (tk, vk) hm
          show vk < c'.nodes.length
          rw [hlen]
          exact Nat.lt_succ_of_lt h2
      · intro t1 t2 v h1 h2
        rw [hins] at h1 h2
        simp only [lookupTerm] at h1 h2
        by_cases hk1 : (⟨0, kind, origins⟩ : NodeTerm S) = t1
        · rw [if_pos hk1] at h1
          by_cases hk2 : (⟨0, kind, origins⟩ : NodeTerm S) = t2
          · rw [← hk1, ← hk2]
          · rw [if_neg hk2] at h2
            exfalso
            have hv : v = id := (Option.some.inj h1).symm
            have hlt2 : v < c.nodes.length := hI.lt (t2, v) (lookupTerm_mem h2)
            rw [hv, hid] at hlt2
            exact Nat.lt_irrefl _ hlt2
        · rw [if_neg hk1] at h1
          by_cases hk2 : (⟨0, kind, origins⟩ : NodeTerm S) = t2
          · rw [if_pos hk2] at h2
            exfalso
            have hv : v = id := (Option.some.inj h2).symm
            have hlt2 : v < c.nodes.length := hI.lt (t1, v) (lookupTerm_mem h1)
            rw [hv, hid] at hlt2
            exact Nat.lt_irrefl _ hlt2
          · rw [if_neg hk2] at h2
            exact hI.inj t1 t2 v h1 h2
    · constructor
      · intro kv hkv
        obtain ⟨tk, vk⟩ := kv
        rw [hins] at hkv
        have h2 : vk < c.nodes.length := hI.lt (tk, vk) hkv
        show vk < c'.nodes.length
        rw [hlen]
        exact Nat.lt_succ_of_lt h2
      · intro t1 t2 v h1 h2
        rw [hins] at h1 h2
        exact hI.inj t1 t2 v h1 h2

theorem mk_node_with_lookup_mono [Sig S] [DecidableEq S] {c c' : NodeCtxt S}
    {kind : NodeKind S} {origins : List OriginId} {id : NodeId}
    {t : NodeTerm S} {v : NodeId}
    (h : mk_node_with c kind origins = some (c', id))
    (hl : lookupTerm c.interned_nodes t = some v) :
    lookupTerm c'.interned_nodes t = some v := by
  obtain ⟨_, _, _, _, hdisj⟩ := mk_node_with_spec h
  rcases hdisj with ⟨_, _, _, hc⟩ | ⟨hid, hlen, _, hint⟩
  · rw [hc]
    exact hl
  · rcases hint with ⟨_, _, hlook, hins⟩ | ⟨_, hins⟩
    · rw [hins]
      simp only [lookupTerm]
      have hne : (⟨0, kind, origins⟩ : NodeTerm S) ≠ t := by
        intro he
        rw [he, hl] at hlook
        cases hlook
      rw [if_neg hne]
      exact hl
    · rw [hins]
      exact hl

theorem arityOk_of_shape [Sig S] {c c' : NodeCtxt S} (hA : ArityOk c)
    (hlen : c'.nodes.length = c.nodes.length)
    (hshape : ∀ n nd, c.nodes.get? n = some nd → ∃ nd1, c'.nodes.get? n = some nd1 ∧
      nd1.kind = nd.kind ∧ nd1.ins.length = nd.ins.length ∧
      nd1.outs.length = nd.outs.length) : ArityOk c' := by
  intro nd' hmem
  obtain ⟨⟨n, hnlt⟩, hn⟩ := List.mem_iff_get.1 hmem
  have hn' : c'.nodes.get? n = some nd' := by
    rw [List.get?_eq_get hnlt, hn]
  have hlt : n < c.nodes.length := by rw [← hlen]; exact hnlt
  obtain ⟨nd, hnd⟩ : ∃ nd, c.nodes.get? n = some nd := by
    cases hx : c.nodes.get? n with
    | none =>
      exfalso
      rw [List.get?_eq_none] at hx
      omega
    | some nd => exact ⟨nd, rfl⟩
  obtain ⟨nd1, h1, h2, h3, h4⟩ := hshape n nd hnd
  have hnd1 : nd1 = nd' := by
    rw [hn'] at h1
    exact (Option.some.inj h1).symm
  subst hnd1
  have := hA nd (List.get?_mem hnd)
  rw [h2, h3, h4]
  exact this

theorem arityOk_snoc [Sig S] {c c' : NodeCtxt S} {kind : NodeKind S}
    (hA : ArityOk c)
    (hlen : c'.nodes.length = c.nodes.length + 1)
    (hshape : ∀ n nd, c.nodes.get? n = some nd → ∃ nd1, c'.nodes.get? n = some nd1 ∧
      nd1.kind = nd.kind ∧ nd1.ins.length = nd.ins.length ∧
      nd1.outs.length = nd.outs.length)
    (hnew : ∃ ndN, c'.nodes.get? c.nodes.length = some ndN ∧ ndN.kind = kind ∧
      ndN.ins.length = kind.sig.num_input_ports ∧
      ndN.outs.length = kind.sig.num_output_ports) : ArityOk c' := by
  intro nd' hmem
  obtain ⟨⟨n, hnlt⟩, hn⟩ := List.mem_iff_get.1 hmem
  have hn' : c'.nodes.get? n = some nd' := by
    rw [List.get?_eq_get hnlt, hn]
  by_cases hend : n = c.nodes.length
  · obtain ⟨ndN, k1, k2, k3, k4⟩ := hnew
    subst hend
    rw [hn'] at k1
    have : nd' = ndN := Option.some.inj k1
    subst this
    rw [k2, k3, k4]
    exact ⟨rfl, rfl⟩
  · have hlt : n < c.nodes.length := by
      have : n < c'.nodes.length := hnlt
      omega
    obtain ⟨nd, hnd⟩ : ∃ nd, c.nodes.get? n = some nd := by
      cases hx : c.nodes.get? n with
      | none =>
        exfalso
        rw [List.get?_eq_none] at hx
        omega
      | some nd => exact ⟨nd, rfl⟩
    obtain ⟨nd1, h1, h2, h3, h4⟩ := hshape n nd hnd
    have hnd1 : nd1 = nd' := by
      rw [hn'] at h1
      exact (Option.some.inj h1).symm
    subst hnd1
    have := hA nd (List.get?_mem hnd)
    rw [h2, h3, h4]
    exact this

theorem step_preserves_inv [Sig S] [DecidableEq S] {c c' : NodeCtxt S}
    (hI : Inv c) (hs : Step c c') : Inv c' := by
  obtain ⟨hG, hIn, hA⟩ := hI
  cases hs with
  | mk_node_with c' kind origins id h =>
    obtain ⟨harity, hcfg, hGp, hshape, hdisj⟩ := mk_node_with_spec h
    refine ⟨hGp hG, mk_node_with_internOk hIn h, ?_⟩
    rcases hdisj with ⟨_, _, _, hc⟩ | ⟨hid, hlen, hnew, _⟩
    · rw [hc]
      exact hA
    · refine @arityOk_snoc S _ c c' kind hA hlen hshape ?_
      rw [← hid]
      exact hnew
  | connect_ports c' u o h =>
    obtain ⟨ud, _, _, _, _, _, _, _, _, hint, hcfg, hlen, hshape, _⟩ :=
      connect_ports_spec h
    refine ⟨connect_ports_graphOk hG h, ?_, arityOk_of_shape hA hlen hshape⟩
    constructor
    · intro kv hkv
      rw [hint] at hkv
      rw [hlen]
      exact hIn.lt kv hkv
    · intro t1 t2 v h1 h2
      rw [hint] at h1 h2
      exact hIn.inj t1 t2 v h1 h2
  | create_node kind rid =>
    refine ⟨create_node_graphOk hG, ?_, ?_⟩
    · constructor
      · intro kv hkv
        obtain ⟨tk, vk⟩ := kv
        have hlen : (create_node c kind rid).1.nodes.length = c.nodes.length + 1 := by
          simp [create_node]
        have h2 : vk < c.nodes.length := hIn.lt (tk, vk) hkv
        show vk < (create_node c kind rid).1.nodes.length
        rw [hlen]
        exact Nat.lt_succ_of_lt h2
      · intro t1 t2 v h1 h2
        exact hIn.inj t1 t2 v h1 h2
    · refine @arityOk_snoc S _ c (create_node c kind rid).1 kind hA (by simp [create_node]) ?_ ?_
      · intro n nd hnd
        refine ⟨nd, ?_, rfl, rfl, rfl⟩
        have hn : n < c.nodes.length := (List.get?_eq_some.1 hnd).1
        show (c.nodes ++ [_]).get? n = some nd
        rw [List.get?_append hn]
        exact hnd
      · exact ⟨_, get?_concat_len c.nodes _, rfl, by simp, by simp⟩

theorem with_config_inv [Sig S] [DecidableEq S] (cfg : NodeCtxtConfig) :
    Inv (NodeCtxt.with_config S cfg) := by
  refine ⟨⟨?_, ?_, ?_⟩, ⟨?_, ?_⟩, ?_⟩
  · intro u hu
    cases u with
    | In n i => simp [uOrigin, user_data, node_data, NodeCtxt.with_config] at hu
    | Res r i => simp [uOrigin, user_data, region_data, NodeCtxt.with_config] at hu
  · intro u o hu
    cases u with
    | In n i => simp [uOrigin, user_data, node_data, NodeCtxt.with_config] at hu
    | Res r i => simp [uOrigin, user_data, region_data, NodeCtxt.with_config] at hu
  · intro o
    constructor
    · intro _ u hu
      cases u with
      | In n i => simp [uOrigin, user_data, node_data, NodeCtxt.with_config] at hu
      | Res r i => simp [uOrigin, user_data, region_data, NodeCtxt.with_config] at hu
    · intro f l hfl
      exfalso
      cases o with
      | Out n j => simp [userListOf, origin_data, node_data, NodeCtxt.with_config] at hfl
      | Arg r j => simp [userListOf, origin_data, region_data, NodeCtxt.with_config] at hfl
  · intro kv hkv
    simp [NodeCtxt.with_config] at hkv
  · intro t1 t2 v h1 h2
    simp [lookupTerm, NodeCtxt.with_config] at h1
  · intro nd hnd
    simp [NodeCtxt.with_config] at hnd

theorem reachable_inv [Sig S] [DecidableEq S] {c : NodeCtxt S}
    (h : Reachable c) : Inv c := by
  obtain ⟨cfg, hsteps⟩ := h
  induction hsteps with
  | refl => exact with_config_inv cfg
  | tail _ hstep ih => exact step_preserves_inv ih hstep

theorem step_config [Sig S] [DecidableEq S] {c c' : NodeCtxt S}
    (hs : Step c c') : c'.config = c.config := by
  cases hs with
  | mk_node_with c' kind origins id h => exact (mk_node_with_spec h).2.1
  | connect_ports c' u o h =>
    obtain ⟨_, _, _, _, _, _, _, _, _, _, hcfg, _⟩ := connect_ports_spec h
    exact hcfg
  | create_node kind rid => rfl

theorem step_len_mono [Sig S] [DecidableEq S] {c c' : NodeCtxt S}
    (hs : Step c c') : c.nodes.length ≤ c'.nodes.length := by
  cases hs with
  | mk_node_with c' kind origins id h =>
    obtain ⟨_, _, _, _, hdisj⟩ := mk_node_with_spec h
    rcases hdisj with ⟨_, _, _, hc⟩ | ⟨_, hlen, _, _⟩
    · rw [hc]
    · omega
  | connect_ports c' u o h =>
    obtain ⟨_, _, _, _, _, _, _, _, _, _, _, hlen, _⟩ := connect_ports_spec h
    omega
  | create_node kind rid => simp [create_node]

theorem step_lookup_mono [Sig S] [DecidableEq S] {c c' : NodeCtxt S}
    {t : NodeTerm S} {v : NodeId} (hs : Step c c')
    (hl : lookupTerm c.interned_nodes t = some v) :
    lookupTerm c'.interned_nodes t = some v := by
  cases hs with
  | mk_node_with c' kind origins id h => exact mk_node_with_lookup_mono h hl
  | connect_ports c' u o h =>
    obtain ⟨_, _, _, _, _, _, _, _, _, hint, _⟩ := connect_ports_spec h
    rw [hint]
    exact hl
  | create_node kind rid => exact hl

theorem steps_config [Sig S] [DecidableEq S] {c c' : NodeCtxt S}
    (hs : Relation.ReflTransGen Step c c') : c'.config = c.config := by
  induction hs with
  | refl => rfl
  | tail _ hstep ih => rw [step_config hstep, ih]

theorem steps_len_mono [Sig S] [DecidableEq S] {c c' : NodeCtxt S}
    (hs : Relation.ReflTransGen Step c c') : c.nodes.length ≤ c'.nodes.length := by
  induction hs with
  | refl => exact le_refl _
  | tail _ hstep ih => exact le_trans ih (step_len_mono hstep)

theorem steps_lookup_mono [Sig S] [DecidableEq S] {c c' : NodeCtxt S}
    {t : NodeTerm S} {v : NodeId} (hs : Relation.ReflTransGen Step c c')
    (hl : lookupTerm c.interned_nodes t = some v) :
    lookupTerm c'.interned_nodes t = some v := by
  induction hs with
  | refl => exact hl
  | tail _ hstep ih => exact step_lookup_mono hstep ih

theorem steps_inv [Sig S] [DecidableEq S] {c c' : NodeCtxt S}
    (hI : Inv c) (hs : Relation.ReflTransGen Step c c') : Inv c' := by
  induction hs with
  | refl => exact hI
  | tail _ hstep ih => exact step_preserves_inv ih hstep

/-! ### Iterator semantics -/

theorem segChain_cons_tail {c : NodeCtxt S} {u : UserId} {rest : List UserId}
    (h : segChain c (u :: rest)) : segChain c rest := by
  cases rest with
  | nil => trivial
  | cons v t => exact h.2.2.2

theorem segChain_head_some {c : NodeCtxt S} {u : UserId} {rest : List UserId}
    (h : segChain c (u :: rest)) : (user_data c u).isSome := by
  cases rest with
  | nil => exact h
  | cons v t => exact h.2.2.1

theorem segChain_append_left {c : NodeCtxt S} {l1 l2 : List UserId}
    (h : segChain c (l1 ++ l2)) : segChain c l1 := by
  induction l1 with
  | nil => trivial
  | cons a t ih =>
    cases t with
    | nil =>
      show (user_data c a).isSome
      exact segChain_head_some h
    | cons b t2 =>
      obtain ⟨h1, h2, h3, h4⟩ := h
      exact ⟨h1, h2, h3, ih h4⟩

theorem segChain_append_right {c : NodeCtxt S} {l1 l2 : List UserId}
    (h : segChain c (l1 ++ l2)) : segChain c l2 := by
  induction l1 with
  | nil => exact h
  | cons a t ih => exact ih (segChain_cons_tail h)

theorem segChain_last_prev {c : NodeCtxt S} {ys : List UserId} {w u : UserId}
    (h : segChain c (ys ++ [w, u])) :
    uPrev c u = some (some w) ∧ (user_data c w).isSome ∧ (user_data c u).isSome := by
  have h2 : segChain c [w, u] := segChain_append_right h
  obtain ⟨hn, hp, hw, hu⟩ := h2
  exact ⟨hp, hw, hu⟩

theorem isChain_segChain {c : NodeCtxt S} {o : OriginId} :
    ∀ (ul : List UserId) (p : Option UserId), isChain c o p ul → segChain c ul := by
  intro ul
  induction ul with
  | nil => intro p _; trivial
  | cons u rest ih =>
    intro p h
    obtain ⟨ho, hp, hn, hrest⟩ := h
    have hu : (user_data c u).isSome := by
      cases hud : user_data c u with
      | none => rw [uOrigin, hud] at ho; cases ho
      | some ud => rfl
    cases rest with
    | nil => exact hu
    | cons v t =>
      refine ⟨?_, ?_, hu, ih (some u) hrest⟩
      · rw [hn]; rfl
      · exact hrest.2.1

theorem iter_next_step {c : NodeCtxt S} {u : UserId} {rest : List UserId}
    (hs : segChain c (u :: rest)) (hnd : (u :: rest).Nodup) :
    Users.next c (iterOf (u :: rest)) = some (some u, iterOf rest) := by
  cases rest with
  | nil => simp [iterOf, Users.next]
  | cons v t =>
    obtain ⟨hnx, hpv, hu, hs2⟩ := hs
    obtain ⟨l, hl⟩ : ∃ l, (v :: t).getLast? = some l := by
      cases hx : (v :: t).getLast? with
      | none => exact absurd (List.getLast?_eq_none.1 hx) (by simp)
      | some l => exact ⟨l, rfl⟩
    have hio : iterOf (u :: v :: t) = ⟨some (u, l)⟩ := by
      simp [iterOf, List.getLast?_cons_cons, hl]
    have hlm : l ∈ v :: t := List.mem_of_mem_getLast? (by simp [hl])
    have hne : u ≠ l := by
      intro he
      exact (List.nodup_cons.1 hnd).1 (he ▸ hlm)
    obtain ⟨ud, hud⟩ := Option.isSome_iff_exists.1 hu
    have hnxu : ud.next_user = some v := by
      rw [uNext, hud] at hnx
      exact Option.some.inj hnx
    obtain ⟨vd, hvd⟩ := Option.isSome_iff_exists.1 (segChain_head_some hs2)
    rw [hio]
    show Users.next c ⟨some (u, l)⟩ = _
    simp only [Users.next]
    rw [if_neg hne, hud]
    simp only [hnxu, hvd]
    have hiv : iterOf (v :: t) = ⟨some (v, l)⟩ := by
      simp [iterOf, hl]
    rw [hiv]

theorem iter_back_single (c : NodeCtxt S) (u : UserId) :
    Users.next_back c (iterOf [u]) = some (some u, iterOf []) := by
  simp [iterOf, Users.next_back]

theorem iter_back_step {c : NodeCtxt S} {ys : List UserId} {w u : UserId}
    (hs : segChain c (ys ++ [w, u])) (hnd : (ys ++ [w, u]).Nodup) :
    Users.next_back c (iterOf (ys ++ [w, u])) = some (some u, iterOf (ys ++ [w])) := by
  obtain ⟨hp, hw, hu⟩ := segChain_last_prev hs
  obtain ⟨ud, hud⟩ := Option.isSome_iff_exists.1 hu
  have hpu : ud.prev_user = some w := by
    rw [uPrev, hud] at hp
    exact Option.some.inj hp
  obtain ⟨wd, hwd⟩ := Option.isSome_iff_exists.1 hw
  cases ys with
  | nil =>
    have hne : w ≠ u := by
      intro he
      exact (List.nodup_cons.1 hnd).1 (by simp [he])
    have hio : iterOf [w, u] = ⟨some (w, u)⟩ := by
      simp [iterOf, List.getLast?_cons_cons]
    rw [List.nil_append, hio]
    show Users.next_back c ⟨some (w, u)⟩ = _
    simp only [Users.next_back]
    rw [if_neg hne, hud]
    simp only [hpu, hwd]
    have hiw : iterOf [w] = ⟨some (w, w)⟩ := by simp [iterOf]
    rw [List.nil_append, hiw]
  | cons y t =>
    have hlast : (y :: (t ++ [w, u])).getLast? = some u := by
      rw [← List.cons_append, List.getLast?_append]
      rfl
    have hio : iterOf (y :: (t ++ [w, u])) = ⟨some (y, u)⟩ := by
      simp only [iterOf, hlast, List.head?_cons]
    have hum : u ∈ t ++ [w, u] := by simp
    have hlast2 : (y :: (t ++ [w])).getLast? = some w := by
      rw [← List.cons_append, List.getLast?_append]
      rfl
    have hio2 : iterOf (y :: (t ++ [w])) = ⟨some (y, w)⟩ := by
      simp only [iterOf, hlast2, List.head?_cons]
    simp only [List.cons_append] at hnd ⊢
    have hne : y ≠ u := by
      intro he
      exact (List.nodup_cons.1 hnd).1 (he ▸ hum)
    rw [hio, hio2]
    show Users.next_back c ⟨some (y, u)⟩ = _
    simp only [Users.next_back]
    rw [if_neg hne, hud]
    simp only [hpu, hwd]

theorem takeMixed_nil (ds : List Bool) : takeMixed [] ds = [] := by
  cases ds with
  | nil => rfl
  | cons d t => cases d <;> rfl

theorem remMixed_nil (ds : List Bool) : remMixed [] ds = [] := by
  cases ds with
  | nil => rfl
  | cons d t => cases d <;> rfl

theorem runIter_none (c : NodeCtxt S) (ds : List Bool) :
    runIter c (⟨none⟩ : Users) ds = some ([], ⟨none⟩) := by
  induction ds with
  | nil => rfl
  | cons d t ih =>
    cases d <;> simp [runIter, Users.next, Users.next_back, ih]

theorem runIter_spec {c : NodeCtxt S} (dirs : List Bool) :
    ∀ ul : List UserId, segChain c ul → ul.Nodup →
    runIter c (iterOf ul) dirs = some (takeMixed ul dirs, iterOf (remMixed ul dirs)) := by
  induction dirs with
  | nil => intro ul _ _; rfl
  | cons d ds ih =>
    intro ul hs hnd
    cases d
    · cases ul using List.reverseRecOn with
      | nil =>
        show runIter c (iterOf []) (false :: ds) = _
        rw [show iterOf ([] : List UserId) = ⟨none⟩ from rfl, runIter_none,
          takeMixed_nil, remMixed_nil]
        rfl
      | append_singleton ys u _ =>
        have hsy : segChain c ys := segChain_append_left hs
        have hndy : ys.Nodup := (List.sublist_append_left ys [u]).nodup hnd
        have htk : takeMixed (ys ++ [u]) (false :: ds) = u :: takeMixed ys ds := by
          rw [takeMixed, List.getLast?_concat, List.dropLast_concat]
        have hrm : remMixed (ys ++ [u]) (false :: ds) = remMixed ys ds := by
          rw [remMixed, List.getLast?_concat, List.dropLast_concat]
        have hstep : Users.next_back c (iterOf (ys ++ [u])) = some (some u, iterOf ys) := by
          cases ys using List.reverseRecOn with
          | nil => exact iter_back_single c u
          | append_singleton zs w _ =>
            have ha : (zs ++ [w]) ++ [u] = zs ++ [w, u] := by simp
            rw [ha] at hs hnd ⊢
            exact iter_back_step hs hnd
        show runIter c (iterOf (ys ++ [u])) (false :: ds) = _
        rw [htk, hrm]
        simp only [runIter, Bool.false_eq_true, if_false, hstep, ih ys hsy hndy]
        rfl
    · cases ul with
      | nil =>
        show runIter c (iterOf []) (true :: ds) = _
        rw [show iterOf ([] : List UserId) = ⟨none⟩ from rfl, runIter_none,
          takeMixed_nil, remMixed_nil]
        rfl
      | cons u rest =>
        have hstep := iter_next_step hs hnd
        have hrest := ih rest (segChain_cons_tail hs) (List.nodup_cons.1 hnd).2
        show runIter c (iterOf (u :: rest)) (true :: ds) = _
        simp only [runIter, if_true, hstep, hrest]
        rfl

theorem takeMixed_all_true (ul : List UserId) :
    takeMixed ul (List.replicate ul.length true) = ul := by
  induction ul with
  | nil => rfl
  | cons u rest ih =>
    rw [List.length_cons, List.replicate_succ, takeMixed, ih]

theorem remMixed_long (ds : List Bool) : ∀ ul : List UserId, ul.length ≤ ds.length →
    remMixed ul ds = [] := by
  induction ds with
  | nil =>
    intro ul h
    have : ul = [] := List.eq_nil_of_length_eq_zero (Nat.le_zero.1 h)
    rw [this]
    rfl
  | cons d t ih =>
    intro ul h
    cases d
    · cases hlast : ul.getLast? with
      | none =>
        rw [remMixed, hlast]
      | some u =>
        rw [remMixed, hlast]
        refine ih _ ?_
        rw [List.length_dropLast]
        simp only [List.length_cons] at h
        omega
    · cases ul with
      | nil => rfl
      | cons u rest =>
        refine ih rest ?_
        simp only [List.length_cons] at h
        omega

theorem takeMixed_all_false (ul : List UserId) :
    takeMixed ul (List.replicate ul.length false) = ul.reverse := by
  induction ul using List.reverseRecOn with
  | nil => rfl
  | append_singleton ys u ih =>
    have hlen : (ys ++ [u]).length = ys.length + 1 := by simp
    rw [hlen, List.replicate_succ, takeMixed, List.getLast?_concat, List.dropLast_concat,
      ih, List.reverse_concat]

theorem takeMixed_perm (ds : List Bool) : ∀ ul : List UserId,
    (takeMixed ul ds ++ remMixed ul ds).Perm ul := by
  induction ds with
  | nil => intro ul; exact List.Perm.refl ul
  | cons d t ih =>
    intro ul
    cases d
    · cases hlast : ul.getLast? with
      | none =>
        have he : ul = [] := List.getLast?_eq_none.1 hlast
        subst he
        rw [takeMixed_nil, remMixed_nil]
        exact List.Perm.refl _
      | some u =>
        have hne : ul ≠ [] := by
          intro he
          rw [he] at hlast
          cases hlast
        have h3 : ul.getLast hne = u := by
          have h4 := List.getLast?_eq_getLast ul hne
          rw [h4] at hlast
          exact Option.some.inj hlast
        have hul : ul.dropLast ++ [u] = ul := by
          have h2 := List.dropLast_concat_getLast hne
          rw [h3] at h2
          exact h2
        simp only [takeMixed, remMixed, hlast]
        have h5 : (u :: ul.dropLast).Perm ul := by
          conv_rhs => rw [← hul]
          exact (List.perm_append_singleton u ul.dropLast).symm
        exact List.Perm.trans ((ih ul.dropLast).cons u) h5
    · cases ul with
      | nil =>
        rw [takeMixed_nil, remMixed_nil]
        exact List.Perm.refl _
      | cons u rest =>
        show ((u :: takeMixed rest t) ++ remMixed rest t).Perm (u :: rest)
        exact (ih rest).cons u

/-! ### Printer equivalence -/

theorem optMap_congr {α β : Type} {f g : α → Option β} : ∀ {l : List α},
    (∀ a ∈ l, f a = g a) → optMap f l = optMap g l := by
  intro l
  induction l with
  | nil => intro _; rfl
  | cons a t ih =>
    intro h
    unfold optMap
    rw [h a (by simp)]
    cases g a with
    | none => rfl
    | some b => rw [ih (fun x hx => h x (by simp [hx]))]

theorem val_edge_line_eq (c : NodeCtxt S) (idx i : Nat) :
    val_edge_line c idx i = (input_origin c idx i).map
      (fun p => spec_val_edge p.1 p.2 idx i) := by
  unfold val_edge_line input_origin
  cases user_data c (.In idx i) with
  | none => rfl
  | some ud =>
    dsimp only
    cases ud.origin with
    | none => rfl
    | some oid =>
      dsimp only
      cases origin_data c oid with
      | none => rfl
      | some od =>
        dsimp only
        cases oid with
        | Out n j => rfl
        | Arg r j => rfl

theorem st_edge_line_eq (c : NodeCtxt S) (idx vi i : Nat) :
    st_edge_line c idx vi i = (input_origin c idx (vi + i)).map
      (fun p => spec_st_edge p.1 p.2 idx (vi + i)) := by
  unfold st_edge_line input_origin
  cases user_data c (.In idx (vi + i)) with
  | none => rfl
  | some ud =>
    dsimp only
    cases ud.origin with
    | none => rfl
    | some oid =>
      dsimp only
      cases origin_data c oid with
      | none => rfl
      | some od =>
        dsimp only
        cases oid with
        | Out n j => rfl
        | Arg r j => rfl

theorem print_node_eq [Sig S] [DebugFmt S] (c : NodeCtxt S) (idx : Nat) :
    print_node c idx = print_spec_node c idx := by
  unfold print_node print_spec_node
  cases node_data c idx with
  | none => rfl
  | some nd =>
    dsimp only
    cases hk : nd.kind with
    | Op op =>
      dsimp only
      rw [optMap_congr (fun a _ => val_edge_line_eq c idx a),
          optMap_congr (fun a _ => st_edge_line_eq c idx _ a)]
      rfl
    | Apply a b d e => rfl
    | Gamma a b d e => rfl
    | Omega a b => rfl

theorem print_eq_print_spec [Sig S] [DebugFmt S] (c : NodeCtxt S) :
    print c = print_spec c := by
  unfold print print_spec
  rw [optMap_congr (fun a _ => print_node_eq c a)]

/-! ### Interning helpers -/

theorem lookupTerm_cons_self [DecidableEq S] (t : NodeTerm S) (v : NodeId)
    (rest : List (NodeTerm S × NodeId)) : lookupTerm ((t, v) :: rest) t = some v := by
  simp [lookupTerm]

theorem lookupTerm_cons_ne [DecidableEq S] {t t' : NodeTerm S} (v : NodeId)
    (rest : List (NodeTerm S × NodeId)) (h : t ≠ t') :
    lookupTerm ((t, v) :: rest) t' = lookupTerm rest t' := by
  simp [lookupTerm, h]

theorem mk_lookup_after [Sig S] [DecidableEq S] {c c1 : NodeCtxt S} {kind : NodeKind S}
    {origins : List OriginId} {id1 : NodeId}
    (hon : c.config.opt_interning = true) (hp : kind.sig.is_side_effectful = false)
    (h1 : mk_node_with c kind origins = some (c1, id1)) :
    lookupTerm c1.interned_nodes ⟨0, kind, origins⟩ = some id1 := by
  obtain ⟨_, _, _, _, hdisj⟩ := mk_node_with_spec h1
  rcases hdisj with ⟨_, _, hl, hc⟩ | ⟨hid, hlen, _, hsub⟩
  · rw [hc]
    exact hl
  · rcases hsub with ⟨_, _, _, hint⟩ | ⟨hno, _⟩
    · rw [hint]
      exact lookupTerm_cons_self _ _ _
    · exact absurd ⟨hon, hp⟩ hno

theorem mk_same_id [Sig S] [DecidableEq S] {c c1 c2 c3 : NodeCtxt S}
    {kind : NodeKind S} {origins : List OriginId} {id1 id2 : NodeId}
    (hon : c.config.opt_interning = true) (hp : kind.sig.is_side_effectful = false)
    (h1 : mk_node_with c kind origins = some (c1, id1))
    (hst : Relation.ReflTransGen Step c1 c2)
    (h2 : mk_node_with c2 kind origins = some (c3, id2)) : id2 = id1 := by
  have hl1 := mk_lookup_after hon hp h1
  have hl2 := steps_lookup_mono hst hl1
  have hcfg1 : c1.config = c.config := (mk_node_with_spec h1).2.1
  have hcfg2 : c2.config = c1.config := steps_config hst
  obtain ⟨_, _, _, _, hdisj⟩ := mk_node_with_spec h2
  rcases hdisj with ⟨_, _, hl, _⟩ | ⟨_, _, _, hsub⟩
  · rw [hl2] at hl
    exact (Option.some.inj hl).symm
  · rcases hsub with ⟨_, _, hlnone, _⟩ | ⟨hno, _⟩
    · rw [hl2] at hlnone
      cases hlnone
    · exact absurd ⟨by rw [hcfg2, hcfg1]; exact hon, hp⟩ hno

theorem mk_distinct_ids [Sig S] [DecidableEq S] {c c1 c2 : NodeCtxt S}
    {k1 k2 : NodeKind S} {o1 o2 : List OriginId} {id1 id2 : NodeId}
    (hI : Inv c)
    (hk : (⟨0, k1, o1⟩ : NodeTerm S) ≠ ⟨0, k2, o2⟩)
    (h1 : mk_node_with c k1 o1 = some (c1, id1))
    (h2 : mk_node_with c1 k2 o2 = some (c2, id2)) : id1 ≠ id2 := by
  have hIn : InternOk c := hI.2.1
  obtain ⟨_, _, _, _, hdisj1⟩ := mk_node_with_spec h1
  obtain ⟨_, _, _, _, hdisj2⟩ := mk_node_with_spec h2
  rcases hdisj1 with ⟨_, _, hl1, hc1⟩ | ⟨hid1, hlen1, _, hsub1⟩
  · have hlt1 : id1 < c.nodes.length := hIn.lt _ (lookupTerm_mem hl1)
    rcases hdisj2 with ⟨_, _, hl2, _⟩ | ⟨hid2, _, _, _⟩
    · rw [hc1] at hl2
      intro he
      subst he
      exact hk (hIn.inj _ _ _ hl1 hl2)
    · rw [hc1] at hid2
      intro he
      rw [hid2] at he
      rw [he] at hlt1
      exact Nat.lt_irrefl _ hlt1
  · rcases hdisj2 with ⟨_, _, hl2, _⟩ | ⟨hid2, _, _, _⟩
    · have hl2o : lookupTerm c.interned_nodes ⟨0, k2, o2⟩ = some id2 := by
        rcases hsub1 with ⟨_, _, _, hint⟩ | ⟨_, hint⟩
        · rw [hint, lookupTerm_cons_ne _ _ hk] at hl2
          exact hl2
        · rw [hint] at hl2
          exact hl2
      have hlt2 : id2 < c.nodes.length := hIn.lt _ (lookupTerm_mem hl2o)
      intro he
      rw [← he, hid1] at hlt2
      exact Nat.lt_irrefl _ hlt2
    · intro he
      rw [hid1, hid2, hlen1] at he
      exact absurd he (Nat.ne_of_lt (Nat.lt_succ_self _))

theorem create_node_not_interned [Sig S] [DecidableEq S] {c : NodeCtxt S}
    (hIn : InternOk c) (kind : NodeKind S) (rid : RegionId) :
    NotInterned (create_node c kind rid).1 (create_node c kind rid).2 := by
  intro t v hv
  have hlt : v < c.nodes.length := hIn.lt _ (lookupTerm_mem hv)
  show v ≠ c.nodes.length
  exact Nat.ne_of_lt hlt

theorem step_not_interned [Sig S] [DecidableEq S] {c c' : NodeCtxt S} {n : NodeId}
    (hs : Step c c') (hlt : n < c.nodes.length) (hN : NotInterned c n) :
    NotInterned c' n := by
  cases hs with
  | mk_node_with c' kind origins id h =>
    obtain ⟨_, _, _, _, hdisj⟩ := mk_node_with_spec h
    rcases hdisj with ⟨_, _, _, hc⟩ | ⟨hid, hlen, _, hsub⟩
    · rw [hc]
      exact hN
    · rcases hsub with ⟨_, _, _, hint⟩ | ⟨_, hint⟩
      · intro t v hv
        rw [hint] at hv
        simp only [lookupTerm] at hv
        by_cases he : (⟨0, kind, origins⟩ : NodeTerm S) = t
        · rw [if_pos he] at hv
          have hv2 : v = id := (Option.some.inj hv).symm
          rw [hv2, hid]
          exact (Nat.ne_of_lt hlt).symm
        · rw [if_neg he] at hv
          exact hN t v hv
      · intro t v hv
        rw [hint] at hv
        exact hN t v hv
  | connect_ports c' u o h =>
    obtain ⟨_, _, _, _, _, _, _, _, _, hint, _⟩ := connect_ports_spec h
    intro t v hv
    rw [hint] at hv
    exact hN t v hv
  | create_node kind rid =>
    intro t v hv
    exact hN t v hv

theorem steps_not_interned [Sig S] [DecidableEq S] {c c' : NodeCtxt S} {n : NodeId}
    (hs : Relation.ReflTransGen Step c c') (hlt : n < c.nodes.length)
    (hN : NotInterned c n) : NotInterned c' n := by
  induction hs with
  | refl => exact hN
  | tail hsteps hstep ih =>
    exact step_not_interned hstep (Nat.lt_of_lt_of_le hlt (steps_len_mono hsteps)) ih

/-! ### Reachability of the concrete contexts -/

theorem reach_wNew : Reachable wNew := ⟨NodeCtxtConfig.default, .refl⟩

theorem step_new_lit2 : Step wNew wLit2.1 :=
  .mk_node_with wNew wLit2.1 (.Op (.Lit 2)) [] wLit2.2 rfl

theorem step_lit2_lit23 : Step wLit2.1 wLit23.1 :=
  .mk_node_with wLit2.1 wLit23.1 (.Op (.Lit 3)) [] wLit23.2 rfl

theorem step_lit2_dup : Step wLit2.1 wDup.1 :=
  .mk_node_with wLit2.1 wDup.1 (.Op .BinAdd) [.Out 0 0, .Out 0 0] wDup.2 rfl

theorem step_off_fan1 : Step wOff wFan1.1 :=
  .mk_node_with wOff wFan1.1 (.Op (.Lit 0)) [] wFan1.2 rfl

theorem step_fan1_fan2 : Step wFan1.1 wFan2.1 :=
  .mk_node_with wFan1.1 wFan2.1 (.Op .Neg) [.Out 0 0] wFan2.2 rfl

theorem step_fan2_fan3 : Step wFan2.1 wFan3.1 :=
  .mk_node_with wFan2.1 wFan3.1 (.Op .Neg) [.Out 0 0] wFan3.2 rfl

theorem step_fan3_fan4 : Step wFan3.1 wFan4.1 :=
  .mk_node_with wFan3.1 wFan4.1 (.Op .Neg) [.Out 0 0] wFan4.2 rfl

theorem reach_wLit2 : Reachable wLit2.1 :=
  ⟨NodeCtxtConfig.default, .tail .refl step_new_lit2⟩

theorem reach_wLit23 : Reachable wLit23.1 :=
  ⟨NodeCtxtConfig.default, .tail (.tail .refl step_new_lit2) step_lit2_lit23⟩

theorem reach_wDup : Reachable wDup.1 :=
  ⟨NodeCtxtConfig.default, .tail (.tail .refl step_new_lit2) step_lit2_dup⟩

theorem reach_wFan4 : Reachable wFan4.1 :=
  ⟨⟨false⟩, .tail (.tail (.tail (.tail .refl step_off_fan1) step_fan1_fan2)
    step_fan2_fan3) step_fan3_fan4⟩

/-! ### The claims -/

/-- **C1.** With interning enabled, a pure construction repeated with the
same kind and the same ordered origins vector (directly or through the
builder, which delegates to `mk_node_with`) returns the same `NodeId` even
after further successful operations, while constructions whose
`(kind, origins)` keys differ — in particular the same kind with the
origins in a different order, as in `BinAdd(a,b)` vs `BinAdd(b,a)` —
return distinct `NodeId`s. -/
theorem C1_interning_key_identity [Sig S] [DecidableEq S] {c : NodeCtxt S}
    (hR : Reachable c) (hon : c.config.opt_interning = true) :
    (∀ (kind : NodeKind S) (origins : List OriginId) (c1 c2 c3 : NodeCtxt S)
      (id1 id2 : NodeId), kind.sig.is_side_effectful = false →
      mk_node_with c kind origins = some (c1, id1) →
      Relation.ReflTransGen Step c1 c2 →
      mk_node_with c2 kind origins = some (c3, id2) → id2 = id1) ∧
    (∀ (k1 k2 : NodeKind S) (o1 o2 : List OriginId) (c1 c2 : NodeCtxt S)
      (id1 id2 : NodeId), (k1 ≠ k2 ∨ o1 ≠ o2) →
      mk_node_with c k1 o1 = some (c1, id1) →
      mk_node_with c1 k2 o2 = some (c2, id2) → id1 ≠ id2) ∧
    (∀ b : NodeBuilder S, b.val_origins.length = b.node_kind.sig.val_ins →
      b.st_origins.length = b.node_kind.sig.st_ins →
      NodeBuilder.finish c b =
        mk_node_with c b.node_kind (b.val_origins ++ b.st_origins)) := by
  refine ⟨?_, ?_, ?_⟩
  · intro kind origins c1 c2 c3 id1 id2 hp h1 hst h2
    exact mk_same_id hon hp h1 hst h2
  · intro k1 k2 o1 o2 c1 c2 id1 id2 hk h1 h2
    refine mk_distinct_ids (reachable_inv hR) ?_ h1 h2
    intro he
    rw [NodeTerm.mk.injEq] at he
    rcases hk with hk | hk
    · exact hk he.2.1
    · exact hk he.2.2
  · intro b hv hs
    simp only [NodeBuilder.finish]
    rw [if_pos ⟨hv, hs⟩, if_pos (by rw [List.length_append, hv, hs])]

/-- Witness for C1: `Lit(2)` re-interned two states later yields the same
id, while `BinAdd(Lit 2, Lit 3)` and `BinAdd(Lit 3, Lit 2)` get distinct
ids. -/
theorem C1_witness : wLit2again.2 = wLit2.2 ∧ wBadd1.2 ≠ wBadd2.2 :=
  ⟨(C1_interning_key_identity reach_wNew rfl).1 (.Op (.Lit 2)) [] wLit2.1
      wLit23.1 wLit2again.1 wLit2.2 wLit2again.2 rfl rfl
      (.tail .refl step_lit2_lit23) rfl,
   (C1_interning_key_identity reach_wLit23 rfl).2.1 (.Op .BinAdd) (.Op .BinAdd)
      [.Out 0 0, .Out 1 0] [.Out 1 0, .Out 0 0] wBadd1.1 wBadd2.1 wBadd1.2
      wBadd2.2 (Or.inr (by decide)) rfl rfl⟩

/-- **C2.** A side-effectful kind (`st_outs > 0`) is never entered into the
interning table: two structurally identical constructions leave the table
untouched and return distinct ids, and pure consumers of the corresponding
outputs of those two nodes are themselves distinct (their origin vectors
differ). -/
theorem C2_side_effect_exclusion [Sig S] [DecidableEq S] {c : NodeCtxt S}
    (hR : Reachable c) {kind : NodeKind S}
    (hse : kind.sig.is_side_effectful = true)
    {origins : List OriginId} {c1 c2 : NodeCtxt S} {id1 id2 : NodeId}
    (h1 : mk_node_with c kind origins = some (c1, id1))
    (h2 : mk_node_with c1 kind origins = some (c2, id2)) :
    id1 ≠ id2 ∧ c1.interned_nodes = c.interned_nodes ∧
    c2.interned_nodes = c1.interned_nodes ∧
    (∀ (pk : NodeKind S) (p : Nat) (c3 c4 : NodeCtxt S) (id3 id4 : NodeId),
      mk_node_with c2 pk [.Out id1 p] = some (c3, id3) →
      mk_node_with c3 pk [.Out id2 p] = some (c4, id4) → id3 ≠ id4) := by
  have hI := reachable_inv hR
  have hI1 : Inv c1 := step_preserves_inv hI (.mk_node_with c c1 kind origins id1 h1)
  have hI2 : Inv c2 := step_preserves_inv hI1 (.mk_node_with c1 c2 kind origins id2 h2)
  obtain ⟨_, _, _, _, hdisj1⟩ := mk_node_with_spec h1
  obtain ⟨_, _, _, _, hdisj2⟩ := mk_node_with_spec h2
  have hfresh1 : id1 = c.nodes.length ∧ c1.nodes.length = c.nodes.length + 1 ∧
      c1.interned_nodes = c.interned_nodes := by
    rcases hdisj1 with ⟨_, hp, _, _⟩ | ⟨hid, hlen, _, hsub⟩
    · rw [hse] at hp; cases hp
    · rcases hsub with ⟨_, hp, _, _⟩ | ⟨_, hint⟩
      · rw [hse] at hp; cases hp
      · exact ⟨hid, hlen, hint⟩
  have hfresh2 : id2 = c1.nodes.length ∧ c2.nodes.length = c1.nodes.length + 1 ∧
      c2.interned_nodes = c1.interned_nodes := by
    rcases hdisj2 with ⟨_, hp, _, _⟩ | ⟨hid, hlen, _, hsub⟩
    · rw [hse] at hp; cases hp
    · rcases hsub with ⟨_, hp, _, _⟩ | ⟨_, hint⟩
      · rw [hse] at hp; cases hp
      · exact ⟨hid, hlen, hint⟩
  have hne : id1 ≠ id2 := by
    rw [hfresh1.1, hfresh2.1, hfresh1.2.1]
    exact Nat.ne_of_lt (Nat.lt_succ_self _)
  refine ⟨hne, hfresh1.2.2, hfresh2.2.2, ?_⟩
  intro pk p c3 c4 id3 id4 h3 h4
  refine mk_distinct_ids hI2 ?_ h3 h4
  intro he
  rw [NodeTerm.mk.injEq] at he
  have ho := he.2.2
  have ho2 : OriginId.Out id1 p = OriginId.Out id2 p := by injection ho
  have ho3 : id1 = id2 := by injection ho2
  exact hne ho3

/-- Witness for C2: the two `St` nodes get ids 0 and 1, and the two `Neg`
consumers of their value outputs get distinct ids. -/
theorem C2_witness : wSt1.2 ≠ wSt2.2 ∧ wStDown1.2 ≠ wStDown2.2 := by
  have h := C2_side_effect_exclusion reach_wNew
    (show ((.Op .St : NodeKind TestData)).sig.is_side_effectful = true from rfl)
    (show mk_node_with wNew (.Op .St) [] = some (wSt1.1, wSt1.2) from rfl)
    (show mk_node_with wSt1.1 (.Op .St) [] = some (wSt2.1, wSt2.2) from rfl)
  exact ⟨h.1, h.2.2.2 (.Op .Neg) 0 wStDown1.1 wStDown2.1 wStDown1.2 wStDown2.2
    rfl rfl⟩

/-- **C3.** In every reachable context, every origin satisfies the
user-list integrity invariant: an empty list means no slot names the
origin, and a non-empty `(head, tail)` pair roots a duplicate-free chain —
head first, tail last, `prev`/`next` mutually inverse along it, empty end
links — containing exactly the connected slots in connection order. -/
theorem C3_user_list_integrity [Sig S] [DecidableEq S] {c : NodeCtxt S}
    (hR : Reachable c) : ∀ o, originOk c o :=
  (reachable_inv hR).1.chains

/-- Witness for C3: the integrity invariant at the `Lit(2)` output consumed
twice by the same `BinAdd` (the in-progress-buffer special case: the list
holds the two inputs of node 1 in connection order). -/
theorem C3_witness : userListOf wDup.1 (.Out 0 0) = some ⟨.In 1 0, .In 1 1⟩ ∧
    originOk wDup.1 (.Out 0 0) :=
  ⟨rfl, C3_user_list_integrity reach_wDup (.Out 0 0)⟩

/-- **C5.** When a pure construction with interning enabled finds its
structural key in the table, it returns the recorded id and the context is
left completely unchanged: same state, hence equal `num_nodes` and
`num_edges` and identical user lists at every origin. -/
theorem C5_interning_hit_frame [Sig S] [DecidableEq S] {c : NodeCtxt S}
    (hon : c.config.opt_interning = true) {kind : NodeKind S}
    (hp : kind.sig.is_side_effectful = false) {origins : List OriginId}
    {id : NodeId} (hl : lookupTerm c.interned_nodes ⟨0, kind, origins⟩ = some id)
    {c' : NodeCtxt S} {id' : NodeId}
    (h : mk_node_with c kind origins = some (c', id')) :
    id' = id ∧ c' = c ∧ num_nodes c' = num_nodes c ∧
    num_edges c' = num_edges c ∧ ∀ o, userListOf c' o = userListOf c o := by
  obtain ⟨_, _, _, _, hdisj⟩ := mk_node_with_spec h
  rcases hdisj with ⟨_, _, hl2, hc⟩ | ⟨_, _, _, hsub⟩
  · rw [hl] at hl2
    exact ⟨(Option.some.inj hl2).symm, hc, by rw [hc], by rw [hc],
      fun o => by rw [hc]⟩
  · rcases hsub with ⟨_, _, hln, _⟩ | ⟨hno, _⟩
    · rw [hl] at hln
      cases hln
    · exact absurd ⟨hon, hp⟩ hno

/-- Witness for C5: re-making `Lit(2)` right after its first construction
returns id 0 and the very same context. -/
theorem C5_witness : wHit.2 = 0 ∧ wHit.1 = wLit2.1 ∧
    num_nodes wHit.1 = num_nodes wLit2.1 ∧
    num_edges wHit.1 = num_edges wLit2.1 ∧
    ∀ o, userListOf wHit.1 o = userListOf wLit2.1 o :=
  C5_interning_hit_frame rfl
    (show ((.Op (.Lit 2) : NodeKind TestData)).sig.is_side_effectful = false from rfl)
    (show lookupTerm wLit2.1.interned_nodes ⟨0, .Op (.Lit 2), []⟩ = some 0 from rfl)
    (show mk_node_with wLit2.1 (.Op (.Lit 2)) [] = some (wHit.1, wHit.2) from rfl)

/-- **C6.** A successful `connect_ports` presupposes a fully-unconnected
slot; it sets the slot origin and appends the slot at the tail of the
origin user list (head and tail at once when the list was empty); and
calling it on a slot with any of `origin`, `prev`, `next` already set is
the panic, modelled as `none`. -/
theorem C6_connect_ports_contract {c c' : NodeCtxt S} {u : UserId}
    {o : OriginId} (h : connect_ports c u o = some c') :
    (∃ ud, user_data c u = some ud ∧ ud.origin = none ∧ ud.prev_user = none ∧
      ud.next_user = none) ∧
    uOrigin c' u = some (some o) ∧
    ((userListOf c o = none ∧ userListOf c' o = some ⟨u, u⟩ ∧
      uPrev c' u = some none ∧ uNext c' u = some none) ∨
     (∃ f l, userListOf c o = some ⟨f, l⟩ ∧ userListOf c' o = some ⟨f, u⟩ ∧
       uNext c' l = some (some u) ∧ uPrev c' u = some (some l))) ∧
    (∀ (x : UserId) (ud : UserData), user_data c x = some ud →
      ¬(ud.origin = none ∧ ud.prev_user = none ∧ ud.next_user = none) →
      ∀ o2, connect_ports c x o2 = none) := by
  obtain ⟨ud, hud, h1, h2, h3, _, _, _, hwo, _, _, _, _, hcase⟩ :=
    connect_ports_spec h
  refine ⟨⟨ud, hud, h1, h2, h3⟩, hwo, ?_,
    fun x ud2 hx hbad o2 => connect_ports_fails hx hbad⟩
  rcases hcase with ⟨ha, hb, hp, hn, _⟩ | ⟨f, l, ha, hb, hnl, hpu, _⟩
  · exact Or.inl ⟨ha, hb, hp, hn⟩
  · exact Or.inr ⟨f, l, ha, hb, hnl, hpu⟩

/-- Witness for C6: wiring the manual `BinAdd` input 0 to `Lit(2)` sets its
origin, and a second `connect_ports` on that same slot panics. -/
theorem C6_witness : uOrigin wMan3 (.In 1 0) = some (some (.Out 0 0)) ∧
    connect_ports wMan3 (.In 1 0) (.Out 0 0) = none :=
  ⟨(C6_connect_ports_contract
      (show connect_ports wMan2.1 (.In 1 0) (.Out 0 0) = some wMan3 from rfl)).2.1,
   (C6_connect_ports_contract
      (show connect_ports wMan3 (.In 1 1) (.Out 0 0) = some wMan4 from rfl)).2.2.2
     (.In 1 0) _ rfl (by decide) (.Out 0 0)⟩

/-- **C7.** In every reachable context each node carries exactly
`val_ins + st_ins` input slots and `val_outs + st_outs` output slots, and
`mk_node_with` with an origins vector of any other length is the arity
panic, modelled as `none`. -/
theorem C7_arity [Sig S] [DecidableEq S] {c : NodeCtxt S} (hR : Reachable c) :
    (∀ nd ∈ c.nodes, nd.ins.length = nd.kind.sig.val_ins + nd.kind.sig.st_ins ∧
      nd.outs.length = nd.kind.sig.val_outs + nd.kind.sig.st_outs) ∧
    (∀ (kind : NodeKind S) (origins : List OriginId),
      origins.length ≠ kind.sig.val_ins + kind.sig.st_ins →
      mk_node_with c kind origins = none) := by
  refine ⟨(reachable_inv hR).2.2, ?_⟩
  intro kind origins hne
  cases hm : mk_node_with c kind origins with
  | none => rfl
  | some p =>
    obtain ⟨c', id⟩ := p
    exact absurd (mk_node_with_spec hm).1.symm hne

/-- Witness for C7: `BinAdd` with an empty origins vector is refused. -/
theorem C7_witness : mk_node_with wLit23.1 (.Op .BinAdd) ([] : List OriginId) = none :=
  (C7_arity reach_wLit23).2 (.Op .BinAdd) [] (by decide)

/-- **C8.** With `opt_interning = false` every successful construction
allocates a fresh node: the returned id is the old node count and the node
count grows by one — also for a pure node structurally identical to an
existing one. -/
theorem C8_interning_disabled_fresh [Sig S] [DecidableEq S] {c : NodeCtxt S}
    (hoff : c.config.opt_interning = false) {kind : NodeKind S}
    {origins : List OriginId} {c' : NodeCtxt S} {id : NodeId}
    (h : mk_node_with c kind origins = some (c', id)) :
    id = num_nodes c ∧ num_nodes c' = num_nodes c + 1 := by
  obtain ⟨_, _, _, _, hdisj⟩ := mk_node_with_spec h
  rcases hdisj with ⟨hon, _, _, _⟩ | ⟨hid, hlen, _, _⟩
  · rw [hoff] at hon
    cases hon
  · exact ⟨hid, hlen⟩

/-- Witness for C8: in the interning-off context a duplicate `Lit(0)`
still allocates node 1. -/
theorem C8_witness : wC8.2 = num_nodes wFan1.1 ∧
    num_nodes wC8.1 = num_nodes wFan1.1 + 1 :=
  C8_interning_disabled_fresh rfl
    (show mk_node_with wFan1.1 (.Op (.Lit 0)) [] = some (wC8.1, wC8.2) from rfl)

/-- **C9.** The DOT printer agrees with the output format rules of the
spec, modelled verbatim by `print_spec`: nodes in creation order, record
labels joined with the brace separator dropping empty fields, blue value
edges indexed by value-port position and dashed red state edges indexed by
`val_ins + state_index`. -/
theorem C9_print_format [Sig S] [DebugFmt S] (c : NodeCtxt S) :
    print c = print_spec c :=
  print_eq_print_spec c

/-- **C10 (amended).** A node created by `create_node` is never entered
into the interning table, so no later `mk_node_with` — with any kind and
origins — can return the manual node's id; and the call allocates a fresh
node exactly when its structural key is absent from the table.  (The
original claim's universal "allocates a fresh node" is refuted by
`C10_counterexample`: the key can hit a previously interned twin.) -/
theorem C10_manual_nodes_not_interned [Sig S] [DecidableEq S]
    {c c1 c2 c3 : NodeCtxt S} {kind kind2 : NodeKind S} {rid : RegionId}
    {n id : NodeId} {origins : List OriginId}
    (hR : Reachable c) (h1 : create_node c kind rid = (c1, n))
    (hst : Relation.ReflTransGen Step c1 c2)
    (h2 : mk_node_with c2 kind2 origins = some (c3, id)) :
    NotInterned c2 n ∧ id ≠ n ∧
    (lookupTerm c2.interned_nodes ⟨0, kind2, origins⟩ = none →
      id = num_nodes c2 ∧ num_nodes c3 = num_nodes c2 + 1) := by
  have hI := reachable_inv hR
  have hc1 : c1 = (create_node c kind rid).1 := by rw [h1]
  have hn : n = (create_node c kind rid).2 := by rw [h1]
  have hN1 : NotInterned c1 n := by
    rw [hc1, hn]
    exact create_node_not_interned hI.2.1 kind rid
  have hlt1 : n < c1.nodes.length := by
    rw [hc1, hn]
    simp [create_node]
  have hN2 : NotInterned c2 n := steps_not_interned hst hlt1 hN1
  have hlt2 : n < c2.nodes.length := Nat.lt_of_lt_of_le hlt1 (steps_len_mono hst)
  obtain ⟨_, _, _, _, hdisj⟩ := mk_node_with_spec h2
  refine ⟨hN2, ?_, ?_⟩
  · rcases hdisj with ⟨_, _, hl, _⟩ | ⟨hid, _, _, _⟩
    · exact hN2 _ _ hl
    · rw [hid]
      exact (Nat.ne_of_lt hlt2).symm
  · intro hlk
    rcases hdisj with ⟨_, _, hl, _⟩ | ⟨hid, hlen, _, _⟩
    · rw [hlk] at hl
      cases hl
    · exact ⟨hid, hlen⟩

/-- Witness for C10: the manual `Lit(0)` (id 0) is not interned, and the
later `mk_node_with` on the same key returns a different id. -/
theorem C10_witness : NotInterned wC10c.1 wC10c.2 ∧ wC10d.2 ≠ wC10c.2 := by
  have h := C10_manual_nodes_not_interned reach_wNew
    (show create_node wNew (.Op (.Lit 0)) 0 = (wC10c.1, wC10c.2) from rfl) .refl
    (show mk_node_with wC10c.1 (.Op (.Lit 0)) [] = some (wC10d.1, wC10d.2) from rfl)
  exact ⟨h.1, h.2.1⟩

/-- Counterexample to C10 as stated: after `Lit(0)` was built through
`mk_node_with` (interned as id 0) and a structurally identical manual node
(id 1) was added, a later `mk_node_with` on the same key does NOT allocate
a fresh node — it returns the interned id 0 with the context unchanged. -/
theorem C10_counterexample : wC10b.2 = 1 ∧ num_nodes wC10b.1 = 2 ∧
    mk_node_with wC10b.1 (.Op (.Lit 0)) [] = some (wC10b.1, 0) :=
  ⟨rfl, rfl, rfl⟩

/-- **C4.** In every reachable context, for every origin with a non-empty
user list: the `users()` iterator is constructed from `(head, tail)`; its
generic run over any direction word is the two-ended consumption of the
connection-order chain `ul` (so all-`next` yields `ul` in order, all-
`next_back` yields `ul.reverse`, any interleaving at least `|ul|` long
yields each user exactly once and exhausts the iterator); a three-element
chain under `next, next_back, next_back` yields `A, C, B`; an iterator
whose two bounds coincide yields that user and terminates; the exhausted
iterator yields nothing. -/
theorem C4_users_iterator [Sig S] [DecidableEq S] {c : NodeCtxt S}
    (hR : Reachable c) (o : OriginId) (f l : UserId)
    (h : userListOf c o = some ⟨f, l⟩) :
    ∃ ul : List UserId, isChain c o none ul ∧ ul.head? = some f ∧
      ul.getLast? = some l ∧ ul.Nodup ∧
      (∀ u, u ∈ ul ↔ uOrigin c u = some (some o)) ∧
      users c o = some (iterOf ul) ∧
      (∀ dirs, runIter c (iterOf ul) dirs =
        some (takeMixed ul dirs, iterOf (remMixed ul dirs))) ∧
      runIter c (iterOf ul) (List.replicate ul.length true) =
        some (ul, ⟨none⟩) ∧
      runIter c (iterOf ul) (List.replicate ul.length false) =
        some (ul.reverse, ⟨none⟩) ∧
      (∀ dirs, ul.length ≤ dirs.length →
        (takeMixed ul dirs).Perm ul ∧ remMixed ul dirs = []) ∧
      (∀ a b d, ul = [a, b, d] →
        runIter c (iterOf ul) [true, false, false] = some ([a, d, b], ⟨none⟩)) ∧
      (∀ u : UserId, Users.next c ⟨some (u, u)⟩ = some (some u, ⟨none⟩)) ∧
      Users.next c (⟨none⟩ : Users) = some (none, ⟨none⟩) := by
  obtain ⟨ul, hch, hhd, hlast, hnd, hmem⟩ :=
    (((reachable_inv hR).1.chains o).2) f l h
  have hseg : segChain c ul := isChain_segChain ul none hch
  have hmaster : ∀ dirs, runIter c (iterOf ul) dirs =
      some (takeMixed ul dirs, iterOf (remMixed ul dirs)) :=
    fun dirs => runIter_spec dirs ul hseg hnd
  have hfm : f ∈ ul := by
    cases ul with
    | nil => cases hhd
    | cons a t =>
      have ha : a = f := Option.some.inj hhd
      rw [← ha]
      exact List.mem_cons_self a t
  have hlm : l ∈ ul := List.mem_of_mem_getLast? (by rw [hlast]; rfl)
  have hfo : uOrigin c f = some (some o) := (hmem f).1 hfm
  have hlo : uOrigin c l = some (some o) := (hmem l).1 hlm
  obtain ⟨fd, hfd⟩ : ∃ fd, user_data c f = some fd := by
    cases hx : user_data c f with
    | none => rw [uOrigin, hx] at hfo; cases hfo
    | some fd => exact ⟨fd, rfl⟩
  obtain ⟨ld, hld⟩ : ∃ ld, user_data c l = some ld := by
    cases hx : user_data c l with
    | none => rw [uOrigin, hx] at hlo; cases hlo
    | some ld => exact ⟨ld, rfl⟩
  obtain ⟨od, hod1, hod2⟩ : ∃ od, origin_data c o = some od ∧
      od.users = some ⟨f, l⟩ := by
    unfold userListOf at h
    cases hx : origin_data c o with
    | none => rw [hx] at h; cases h
    | some od => rw [hx] at h; exact ⟨od, rfl, h⟩
  have hiter : iterOf ul = ⟨some (f, l)⟩ := by
    simp only [iterOf, hhd, hlast]
  have husers : users c o = some (iterOf ul) := by
    unfold users
    rw [hod1]
    dsimp only
    rw [hod2]
    dsimp only
    rw [hfd, hld, hiter]
  refine ⟨ul, hch, hhd, hlast, hnd, hmem, husers, hmaster, ?_, ?_, ?_, ?_,
    fun u => by simp [Users.next], rfl⟩
  · have hr := hmaster (List.replicate ul.length true)
    rw [takeMixed_all_true,
      remMixed_long (List.replicate ul.length true) ul (by simp)] at hr
    exact hr
  · have hr := hmaster (List.replicate ul.length false)
    rw [takeMixed_all_false,
      remMixed_long (List.replicate ul.length false) ul (by simp)] at hr
    exact hr
  · intro dirs hlen
    have hp := takeMixed_perm dirs ul
    rw [remMixed_long dirs ul hlen, List.append_nil] at hp
    exact ⟨hp, remMixed_long dirs ul hlen⟩
  · intro a b d hul
    subst hul
    exact hmaster [true, false, false]

/-- Witness for C4: in the fan-out context the users of `Lit(0)` are the
three `Neg` inputs in creation order; forward iteration yields them in
order and `next, next_back, next_back` yields `A, C, B`. -/
theorem C4_witness :
    ∃ ul : List UserId, ul = [.In 1 0, .In 2 0, .In 3 0] ∧
      users wFan4.1 (.Out 0 0) = some (iterOf ul) ∧
      runIter wFan4.1 (iterOf ul) (List.replicate 3 true) = some (ul, ⟨none⟩) ∧
      runIter wFan4.1 (iterOf ul) [true, false, false] =
        some ([.In 1 0, .In 3 0, .In 2 0], ⟨none⟩) := by
  obtain ⟨ul, hch, hhd, hlast, hnd, hmem, husers, hmaster, hfwd, hbwd, hperm,
    habc, _, _⟩ := C4_users_iterator reach_wFan4 (.Out 0 0) (.In 1 0) (.In 3 0) rfl
  have hul : ul = [.In 1 0, .In 2 0, .In 3 0] := by
    cases ul with
    | nil => cases hhd
    | cons a t =>
      have ha : a = .In 1 0 := Option.some.inj hhd
      subst ha
      obtain ⟨_, _, hn1, hch1⟩ := hch
      rw [show uNext wFan4.1 (.In 1 0) = some (some (.In 2 0)) from rfl] at hn1
      have hn1h : t.head? = some (.In 2 0) := (Option.some.inj hn1).symm
      cases t with
      | nil => cases hn1h
      | cons b t2 =>
        have hb : b = .In 2 0 := Option.some.inj hn1h
        subst hb
        obtain ⟨_, _, hn2, hch2⟩ := hch1
        rw [show uNext wFan4.1 (.In 2 0) = some (some (.In 3 0)) from rfl] at hn2
        have hn2h : t2.head? = some (.In 3 0) := (Option.some.inj hn2).symm
        cases t2 with
        | nil => cases hn2h
        | cons d t3 =>
          have hd : d = .In 3 0 := Option.some.inj hn2h
          subst hd
          obtain ⟨_, _, hn3, _⟩ := hch2
          rw [show uNext wFan4.1 (.In 3 0) = some none from rfl] at hn3
          have hn3h : t3.head? = none := (Option.some.inj hn3).symm
          cases t3 with
          | nil => rfl
          | cons e t4 => cases hn3h
  subst hul
  exact ⟨_, rfl, husers, hfwd, habc _ _ _ rfl⟩

end Rvsdg
